import Mathlib

/-!
# Huffman k-ary compressor: a shallow embedding

The development embeds `node.hpp` and `huffman.cpp` of the repository:
the `Node` record with its two constructors, the comparator `CompareNode`,
`addDummyNodes`, `buildTree`, `generateCodes`, `compress` and `decompress`.

Conventions of the embedding.

* A `char` / `unsigned char` is the byte value `0 .. 255`, held in a `Nat`.
* An `int` is an `Int`; the running sum of `buildTree` is reduced to the
  32-bit two's-complement range by `wrapInt32`.
* A `std::string` is a `List Char`.
* Files are lists of bytes.
* The C++ standard library is outside the repository.  Two of its
  containers influence what the program computes and are parameters of the
  embedding, collected in `Platform`:
  `std::priority_queue` (which of several equal-priority nodes is on top is
  not fixed by the language) and `std::unordered_map` (its traversal order
  is not fixed by the language), together with `sizeof(size_t)`.
  `libstdcxx` is a concrete platform following the GNU implementation.
-/

namespace Huffman

/-! ## node.hpp -/

/-- The record `struct Node` of `node.hpp`: fields `ch`, `freq`, `minChar`, `children`, `isLeaf`. -/
inductive Node where
  | mk (ch : Nat) (freq : Int) (minChar : Nat) (children : List Node) (isLeaf : Bool) : Node

namespace Node

/-- Field `ch`. -/
def ch : Node → Nat
  | mk c _ _ _ _ => c

/-- Field `freq`. -/
def freq : Node → Int
  | mk _ f _ _ _ => f

/-- Field `minChar`. -/
def minChar : Node → Nat
  | mk _ _ m _ _ => m

/-- Field `children`. -/
def children : Node → List Node
  | mk _ _ _ cs _ => cs

/-- Field `isLeaf`. -/
def isLeaf : Node → Bool
  | mk _ _ _ _ l => l

/-- Constructor `Node(char c, int f)`: a leaf whose tie-break key is the byte itself. -/
def newLeaf (c : Nat) (f : Int) : Node :=
  mk c f c [] true

/-- Constructor `Node(int f, const std::vector<Node*>& c)`: `ch` is `'\0'`, and
`minChar` starts at 255 and is lowered to the least `minChar` of the children. -/
def newInternal (f : Int) (c : List Node) : Node :=
  mk 0 f (c.foldl (fun m child => if child.minChar < m then child.minChar else m) 255) c false

end Node

/-- The comparator `CompareNode::operator()`. -/
def CompareNode (n1 n2 : Node) : Bool :=
  if n1.freq ≠ n2.freq then decide (n1.freq > n2.freq)
  else decide (n1.minChar > n2.minChar)

/-! ## The standard containers -/

/-- Operations of `std::priority_queue<Node*, std::vector<Node*>, CompareNode>` used by
`huffman.cpp`.  `top` of an empty queue is undefined in C++ and is `none` here.
`elems` lists the stored nodes (the underlying vector). -/
structure PriorityQueue where
  /-- The state of a queue. -/
  Q : Type
  /-- A default-constructed queue. -/
  init : Q
  /-- The member `push`. -/
  push : Q → Node → Q
  /-- The member `top`. -/
  top : Q → Option Node
  /-- The member `pop`. -/
  pop : Q → Q
  /-- The member `size`. -/
  size : Q → Nat
  /-- The stored nodes. -/
  elems : Q → List Node

/-- The states that a queue gets into: those made from a default-constructed queue by
`push` and `pop`. -/
inductive PriorityQueue.Reachable (P : PriorityQueue) : P.Q → Prop where
  | init : PriorityQueue.Reachable P P.init
  | push (q : P.Q) (x : Node) : PriorityQueue.Reachable P q →
      PriorityQueue.Reachable P (P.push q x)
  | pop (q : P.Q) : PriorityQueue.Reachable P q → PriorityQueue.Reachable P (P.pop q)

/-- The contract the C++ standard gives `std::priority_queue`, on the states that a queue
gets into: the stored nodes are exactly those pushed and not yet popped, and `top` is a
stored node that the comparator places after no other stored node. -/
structure PriorityQueue.Lawful (P : PriorityQueue) : Prop where
  elems_init : P.elems P.init = []
  elems_push : ∀ q x, P.Reachable q → (P.elems (P.push q x)).Perm (x :: P.elems q)
  size_eq : ∀ q, P.Reachable q → P.size q = (P.elems q).length
  top_nil : ∀ q, P.Reachable q → P.elems q = [] → P.top q = none
  top_cons : ∀ q, P.Reachable q → P.elems q ≠ [] →
    ∃ x, P.top q = some x ∧ x ∈ P.elems q ∧ ∀ y ∈ P.elems q, CompareNode x y = false
  elems_pop : ∀ q x, P.Reachable q → P.top q = some x →
    (x :: P.elems (P.pop q)).Perm (P.elems q)

/-- What the program depends on outside the repository. -/
structure Platform where
  /-- The priority queue implementation. -/
  pq : PriorityQueue
  /-- The order in which a range-for visits a `std::unordered_map<char,int>`, as a
  function of its entries listed in order of first insertion. -/
  iterate : List (Nat × Int) → List (Nat × Int)
  /-- The value of `sizeof(size_t)`. -/
  sizeofSizeT : Nat

/-- A platform whose containers meet their contracts: the queue is lawful, a traversal
visits every entry exactly once, and `size_t` has at least 16 bits. -/
structure Platform.Lawful (pf : Platform) : Prop where
  pq_lawful : pf.pq.Lawful
  iterate_perm : ∀ l, (pf.iterate l).Perm l
  sizeT_ge : 2 ≤ pf.sizeofSizeT

/-! ### A model of the GNU libstdc++ binary heap -/

namespace Libstdcxx

/-- The function `std::__push_heap(first, holeIndex, 0, value, comp)` of `bits/stl_heap.h`:
`while (holeIndex > topIndex && comp(first + parent, value))` the node at the parent
position moves into the hole and the hole moves to the parent position; at the end `value`
is stored in the hole.  `fuel` bounds the number of rounds; every round lowers `holeIndex`,
so `holeIndex + 1` rounds are enough. -/
def pushHeap (value : Node) : Nat → List Node → Nat → List Node
  | 0, first, holeIndex => first.set holeIndex value
  | fuel + 1, first, holeIndex =>
    let parent := (holeIndex - 1) / 2
    match first[parent]? with
    | some p =>
      if holeIndex > 0 ∧ CompareNode p value = true then
        pushHeap value fuel (first.set holeIndex p) parent
      else first.set holeIndex value
    | none => first.set holeIndex value

/-- The first loop of `std::__adjust_heap`:
`while (secondChild < (len - 1) / 2)` take the right child of the hole, or the left one
`if (comp(first + secondChild, first + (secondChild - 1)))`, move it into the hole and
move the hole to its position.  Returns the vector and the final `holeIndex`.  `fuel`
bounds the number of rounds; every round raises `holeIndex`, so `len` rounds are enough. -/
def adjustDown (len : Nat) : Nat → List Node → Nat → List Node × Nat
  | 0, first, holeIndex => (first, holeIndex)
  | fuel + 1, first, holeIndex =>
    if holeIndex < (len - 1) / 2 then
      let secondChild := 2 * (holeIndex + 1)
      match first[secondChild]?, first[secondChild - 1]? with
      | some r, some l =>
        let secondChild := if CompareNode r l = true then secondChild - 1 else secondChild
        let moved := if CompareNode r l = true then l else r
        adjustDown len fuel (first.set holeIndex moved) secondChild
      | _, _ => (first, holeIndex)
    else (first, holeIndex)

/-- The function `std::__adjust_heap(first, 0, len, value, comp)`: the loop `adjustDown`,
then `if ((len & 1) == 0 && secondChild == (len - 2) / 2)` the only child of the hole moves
into it, then `std::__push_heap` from the hole.  `pop` calls it with `len ≥ 1`; the test
`1 ≤ len` keeps the subtraction `len - 2` of the natural numbers in line with the signed
one. -/
def adjustHeap (first : List Node) (len : Nat) (value : Node) : List Node :=
  let r := adjustDown len len first 0
  let first := r.1
  let holeIndex := r.2
  if len % 2 = 0 ∧ 1 ≤ len ∧ holeIndex = (len - 2) / 2 then
    let secondChild := 2 * (holeIndex + 1)
    match first[secondChild - 1]? with
    | some l => pushHeap value len (first.set holeIndex l) (secondChild - 1)
    | none => pushHeap value len first holeIndex
  else pushHeap value len first holeIndex

/-- The member `push`: `c.push_back(x); std::push_heap(c.begin(), c.end(), comp)`. -/
def push (c : List Node) (x : Node) : List Node :=
  pushHeap x (c.length + 1) (c ++ [x]) c.length

/-- The member `pop`: `std::pop_heap(c.begin(), c.end(), comp); c.pop_back()`.  For more
than one node `std::__pop_heap` takes the last node as `value`, stores the first node in its
place, and calls `std::__adjust_heap` on the vector without that last position. -/
def pop (c : List Node) : List Node :=
  match c.getLast? with
  | none => c
  | some value =>
    if c.length > 1 then adjustHeap c.dropLast (c.length - 1) value
    else c.dropLast

/-- The priority queue of libstdc++: `top` is `c.front()`. -/
def priorityQueue : PriorityQueue where
  Q := List Node
  init := []
  push := push
  top := fun c => c.head?
  pop := pop
  size := List.length
  elems := id

/-- The heap order of the vector: the comparator places no node after the node at its
parent position. -/
def IsHeap (first : List Node) : Prop :=
  ∀ i p x, 0 < i → first[(i - 1) / 2]? = some p → first[i]? = some x → CompareNode p x = false

end Libstdcxx

/-! ### A reference queue -/

namespace Reference

/-- Selection of the top of an unordered vector by a linear scan: the first node that the
comparator places after no other one, together with the remaining nodes. -/
def select : List Node → Option (Node × List Node)
  | [] => none
  | x :: xs =>
    match select xs with
    | none => some (x, [])
    | some (m, rest) => if CompareNode x m = true then some (m, x :: rest) else some (x, xs)

/-- A priority queue that keeps its nodes in insertion order and selects the top by a
linear scan. -/
def priorityQueue : PriorityQueue where
  Q := List Node
  init := []
  push := fun c x => c ++ [x]
  top := fun c => (select c).map Prod.fst
  pop := fun c => ((select c).map Prod.snd).getD c
  size := List.length
  elems := id

end Reference

/-- A platform with the reference queue, a traversal in insertion order and an 8-byte
`size_t`. -/
def referencePlatform : Platform where
  pq := Reference.priorityQueue
  iterate := id
  sizeofSizeT := 8

/-- The GNU platform on a 64-bit target: the libstdc++ heap, `sizeof(size_t) = 8`, and a
traversal that visits the most recently inserted key first, which is what libstdc++ does
while every key lands in a bucket of its own. -/
def libstdcxx : Platform where
  pq := Libstdcxx.priorityQueue
  iterate := List.reverse
  sizeofSizeT := 8

/-! ## huffman.cpp -/

/-- Result of running a piece of the program. -/
inductive Outcome (α : Type) where
  /-- The code returns normally with a value. -/
  | ok (a : α) : Outcome α
  /-- The code performs an operation C++ leaves undefined (reading an indeterminate
  value, `top()` of an empty queue). -/
  | undefined : Outcome α
  /-- The code does not return. -/
  | diverges : Outcome α
deriving DecidableEq, Repr

/-- Reduction of an integer to the range of a 32-bit `int`. -/
def wrapInt32 (x : Int) : Int :=
  (x + 2147483648) % 4294967296 - 2147483648

/-- The loop `for (int i = 0; i < needed; ++i) pq.push(new Node('\0', 0));`. -/
def pushDummies (P : PriorityQueue) : Nat → P.Q → P.Q
  | 0, pq => pq
  | needed + 1, pq => pushDummies P needed (P.push pq (Node.newLeaf 0 0))

/-- The function `HuffmanCompressor::addDummyNodes`.  The operator `%` of C++ truncates
towards zero, which is `Int.tmod`. -/
def addDummyNodes (P : PriorityQueue) (k : Int) (pq : P.Q) : P.Q :=
  if k ≤ 2 then pq
  else
    let n : Int := P.size pq
    let rem := Int.tmod (n - 1) (k - 1)
    if rem ≠ 0 then
      let needed := (k - 1) - rem
      pushDummies P needed.toNat pq
    else pq

/-- The inner loop of `buildTree`:
`for (int i = 0; i < k && !pq.empty(); ++i) { node = pq.top(); pq.pop(); ... }`.
The first argument counts the iterations that remain. -/
def extractChildren (P : PriorityQueue) : Nat → P.Q → List Node → Int → P.Q × List Node × Int
  | 0, pq, children, sumFreq => (pq, children, sumFreq)
  | i + 1, pq, children, sumFreq =>
    if P.size pq = 0 then (pq, children, sumFreq)
    else
      match P.top pq with
      | none => (pq, children, sumFreq)
      | some node =>
        extractChildren P i (P.pop pq) (children ++ [node]) (wrapInt32 (sumFreq + node.freq))

/-- The loop `while (pq.size() > 1) { ... pq.push(new Node(sumFreq, children)); }` of
`buildTree`, run for at most `fuel` iterations; `none` when the loop is still running
after that many. -/
def mergeLoop (P : PriorityQueue) (k : Int) : Nat → P.Q → Option P.Q
  | 0, pq => if P.size pq > 1 then none else some pq
  | fuel + 1, pq =>
    if P.size pq > 1 then
      let r := extractChildren P k.toNat pq [] 0
      mergeLoop P k fuel (P.push r.1 (Node.newInternal r.2.2 r.2.1))
    else some pq

/-- The loop `for (auto const &[key, val] : freq) pq.push(new Node(key, val));`, over the
entries in traversal order. -/
def pushLeaves (P : PriorityQueue) (freq : List (Nat × Int)) (pq : P.Q) : P.Q :=
  freq.foldl (fun pq kv => P.push pq (Node.newLeaf kv.1 kv.2)) pq

/-- The function `HuffmanCompressor::buildTree`; `freq` lists the entries of the map in
traversal order.  The merge loop is given as many iterations as there are nodes in the
queue; for a radix of at least 2 every iteration shrinks the queue, so that is enough
(`mergeLoop_terminates`), and more iterations do not change a result
(`mergeLoop_fuel_succ`). -/
def buildTree (P : PriorityQueue) (k : Int) (freq : List (Nat × Int)) : Outcome Node :=
  let pq := addDummyNodes P k (pushLeaves P freq P.init)
  match mergeLoop P k (P.size pq) pq with
  | none => Outcome.diverges
  | some pq =>
    match P.top pq with
    | none => Outcome.undefined
    | some root => Outcome.ok root

/-- The map `std::unordered_map<char, std::string> codes`, as an association list. -/
abbrev Codes := List (Nat × List Char)

/-- The assignment `m[key] = v` on an association list: overwrite the entry if the key is
present, add one otherwise. -/
def assign {β : Type} : List (Nat × β) → Nat → β → List (Nat × β)
  | [], key, v => [(key, v)]
  | (k', v') :: m, key, v => if k' = key then (key, v) :: m else (k', v') :: assign m key v

/-- The member `find` of a map. -/
def find? {β : Type} : List (Nat × β) → Nat → Option β
  | [], _ => none
  | (k', v') :: m, key => if k' = key then some v' else find? m key

mutual
/-- The function `HuffmanCompressor::generateCodes`, threading the map `codes`.
The call `std::to_string(i)` is `Nat.toDigits 10 i`. -/
def generateCodes : Node → List Char → Codes → Codes
  | Node.mk ch _ _ children isLeaf, str, codes =>
    if isLeaf then assign codes ch str
    else generateCodesFrom children 0 str codes
/-- The loop `for (size_t i = 0; i < node->children.size(); ++i)` of `generateCodes`,
from index `i` on. -/
def generateCodesFrom : List Node → Nat → List Char → Codes → Codes
  | [], _, _, codes => codes
  | c :: cs, i, str, codes =>
    generateCodesFrom cs (i + 1) str (generateCodes c (str ++ Nat.toDigits 10 i) codes)
end

/-- The member `operator[]` of `codes` used for reading: the stored string, or the empty
string for a key that is absent. -/
def codeOf (codes : Codes) (ch : Nat) : List Char :=
  (find? codes ch).getD []

/-- The statement `freq[ch]++`: an absent key starts at 0. -/
def increment (freq : List (Nat × Int)) (ch : Nat) : List (Nat × Int) :=
  assign freq ch ((find? freq ch).getD 0 + 1)

/-- The frequency analysis of `compress`: the map after the loop `while (in.get(ch))`,
entries listed in order of first insertion. -/
def countFreq (input : List Nat) : List (Nat × Int) :=
  input.foldl increment []

/-- The `n` low bytes of `v`, least significant first (object representation of an
unsigned integer on a little-endian target). -/
def leBytes : Nat → Nat → List Nat
  | 0, _ => []
  | n + 1, v => (v % 256) :: leBytes n (v / 256)

/-- The four bytes that `out.write((char *)&x, sizeof(int))` writes for an `int`
(two's complement, little-endian). -/
def intBytes (x : Int) : List Nat :=
  leBytes 4 (x % 4294967296).toNat

/-- The unsigned integer stored in a little-endian byte string. -/
def leValue : List Nat → Nat
  | [] => 0
  | b :: bs => b + 256 * leValue bs

/-- The `int` stored in four little-endian bytes. -/
def intValue (bs : List Nat) : Int :=
  wrapInt32 (leValue bs)

/-- The state of the payload writer of `compress`: the variables `buffer` and `bitCount`,
and the bytes written to `out` so far. -/
structure BitWriter where
  /-- The variable `buffer`. -/
  buffer : Nat
  /-- The variable `bitCount`. -/
  bitCount : Nat
  /-- The bytes written so far. -/
  out : List Nat
deriving DecidableEq, Repr

/-- The body of the bit loop of `compress`: set bit `7 - bitCount` of the buffer when `bit`
is non-zero, and flush the buffer when it holds eight bits. -/
def putBit (bit : Nat) (w : BitWriter) : BitWriter :=
  let buffer := if bit ≠ 0 then w.buffer ||| (1 <<< (7 - w.bitCount)) else w.buffer
  let bitCount := w.bitCount + 1
  if bitCount = 8 then { buffer := 0, bitCount := 0, out := w.out ++ [buffer] }
  else { buffer := buffer, bitCount := bitCount, out := w.out }

/-- The loop `for (int b = bitsPerSymbol - 1; b >= 0; --b)` of `compress`; the first
argument is `b + 1`. -/
def putDigit (val : Nat) : Nat → BitWriter → BitWriter
  | 0, w => w
  | b + 1, w => putDigit val b (putBit ((val >>> b) &&& 1) w)

/-- The expression `(k == 2) ? 1 : 2` that `compress` and `decompress` use for
`bitsPerSymbol`. -/
def bitsPerSymbol (k : Int) : Nat :=
  if k = 2 then 1 else 2

/-- The loop `for (char c : code)` of `compress`, with `val = c - '0'`. -/
def putCode (k : Int) (code : List Char) (w : BitWriter) : BitWriter :=
  code.foldl (fun w c => putDigit (c.toNat - 48) (bitsPerSymbol k) w) w

/-- The second pass `while (in.get(ch))` of `compress`, followed by the flush of a
partial last byte. -/
def writeData (k : Int) (codes : Codes) (input : List Nat) : List Nat :=
  let w := input.foldl (fun w ch => putCode k (codeOf codes ch) w) { buffer := 0, bitCount := 0, out := [] }
  if w.bitCount > 0 then w.out ++ [w.buffer] else w.out

/-- The header that `compress` writes: `k` as one byte, `totalChars` as an `int`,
`freq.size()` as a `size_t`, then one byte and one `int` per entry in traversal order. -/
def writeHeader (pf : Platform) (k : Int) (totalChars : Int) (freq : List (Nat × Int)) : List Nat :=
  [(k % 256).toNat] ++ intBytes totalChars ++ leBytes pf.sizeofSizeT freq.length
    ++ freq.flatMap (fun kv => kv.1 :: intBytes kv.2)

/-- The function `HuffmanCompressor::compress` on the content of the input file; the
result is the content of the output file.  The counters `freq[ch]` and `totalChars` are
exact integers here, so the embedding speaks for inputs shorter than `2 ^ 31` bytes. -/
def compress (pf : Platform) (k : Int) (input : List Nat) : Outcome (List Nat) :=
  let freq := pf.iterate (countFreq input)
  let totalChars : Int := input.length
  if totalChars = 0 then Outcome.ok []
  else
    match buildTree pf.pq k freq with
    | Outcome.ok root =>
      let codes := generateCodes root [] []
      Outcome.ok (writeHeader pf k totalChars freq ++ writeData k codes input)
    | Outcome.undefined => Outcome.undefined
    | Outcome.diverges => Outcome.diverges

/-- The loop `for (size_t i = 0; i < mapSize; ++i)` of `decompress`: each round reads one
byte and one `int` and stores `freq[c] = f`.  `none` when the file ends inside an entry,
where the program goes on with indeterminate values. -/
def readEntries : Nat → List Nat → List (Nat × Int) → Option (List (Nat × Int) × List Nat)
  | 0, rest, freq => some (freq, rest)
  | n + 1, c :: b0 :: b1 :: b2 :: b3 :: rest, freq =>
    readEntries n rest (assign freq c (intValue [b0, b1, b2, b3]))
  | _ + 1, _, _ => none

/-- The state of the decoder of `decompress`: the cursor `curr`, the counter
`charsDecoded`, and the bytes written to `out` so far. -/
structure Decoder where
  /-- The variable `curr`. -/
  curr : Node
  /-- The variable `charsDecoded`. -/
  charsDecoded : Int
  /-- The bytes written so far. -/
  out : List Nat

/-- The loop `for (int b = 0; b < bitsPerSymbol; ++b)` of `decompress`; the first argument
counts the rounds that remain.  Returns `val` and `bitPos`.  The byte is held as its
unsigned value: for `bitPos ≤ 7` the bit `(byte >> bitPos) & 1` of the sign-extended `char`
is the same bit of the unsigned value. -/
def readDigit (byte : Nat) : Nat → Int → Nat → Nat × Int
  | 0, bitPos, val => (val, bitPos)
  | b + 1, bitPos, val =>
    if bitPos < 0 then (val, bitPos)
    else readDigit byte b (bitPos - 1) ((val <<< 1) ||| ((byte >>> bitPos.toNat) &&& 1))

/-- The tree step of `decompress`:
`if (val < curr->children.size()) curr = curr->children[val]; else { }`. -/
def traverse (curr : Node) (val : Nat) : Node :=
  if h : val < curr.children.length then curr.children[val] else curr

/-- The statement `if (curr->isLeaf) { out.write(&curr->ch, 1); charsDecoded++; curr = root; }`. -/
def emitIfLeaf (root : Node) (d : Decoder) : Decoder :=
  if d.curr.isLeaf then
    { curr := root, charsDecoded := d.charsDecoded + 1, out := d.out ++ [d.curr.ch] }
  else d

/-- The loop `while (bitPos >= 0 && charsDecoded < totalChars)` of `decompress` on one
byte, run for at most `fuel` rounds; every round lowers `bitPos`, so eight are enough. -/
def decodeByte (root : Node) (bps : Nat) (totalChars : Int) (byte : Nat) :
    Nat → Int → Decoder → Decoder
  | 0, _, d => d
  | fuel + 1, bitPos, d =>
    if bitPos ≥ 0 ∧ d.charsDecoded < totalChars then
      let r := readDigit byte bps bitPos 0
      decodeByte root bps totalChars byte fuel r.2
        (emitIfLeaf root { d with curr := traverse d.curr r.1 })
    else d

/-- The loop `while (in.get(byte) && charsDecoded < totalChars)` of `decompress`. -/
def decodeLoop (root : Node) (bps : Nat) (totalChars : Int) : List Nat → Decoder → Decoder
  | [], d => d
  | byte :: rest, d =>
    if d.charsDecoded < totalChars then
      decodeLoop root bps totalChars rest (decodeByte root bps totalChars byte 8 7 d)
    else d

/-- The function `HuffmanCompressor::decompress` on the content of the input file, for a
compressor constructed with radix `k`; the result is the content of the output file.
A file that ends inside the header leaves the variables read from it indeterminate, and
`buildTree` on an empty queue takes `top()` of it: both are `Outcome.undefined`. -/
def decompress (pf : Platform) (k : Int) (file : List Nat) : Outcome (List Nat) :=
  match file with
  | [] => Outcome.undefined
  | kChar :: rest =>
    let fileK : Int := kChar
    let k := if fileK ≠ k then fileK else k
    if rest.length < 4 + pf.sizeofSizeT then Outcome.undefined
    else
      let totalChars := intValue (rest.take 4)
      let mapSize := leValue ((rest.drop 4).take pf.sizeofSizeT)
      match readEntries mapSize (rest.drop (4 + pf.sizeofSizeT)) [] with
      | none => Outcome.undefined
      | some (freq, payload) =>
        match buildTree pf.pq k (pf.iterate freq) with
        | Outcome.ok root =>
          Outcome.ok (decodeLoop root (bitsPerSymbol k) totalChars payload
            { curr := root, charsDecoded := 0, out := [] }).out
        | Outcome.undefined => Outcome.undefined
        | Outcome.diverges => Outcome.diverges

/-! ## metrics.hpp -/

/-- The function `Metrics::calculateShannonEntropy` on the entries of the map in traversal
order.  The type `double` and the function `std::log2` are the parameters `R` and `log2`;
the properties read them as the real numbers and the binary logarithm. -/
def calculateShannonEntropy {R : Type} [Field R] (log2 : R → R) (freqMap : List (Nat × Int))
    (totalChars : Int) : R :=
  freqMap.foldl (fun entropy kv =>
    let p : R := (kv.2 : R) / (totalChars : R)
    entropy - p * log2 p) 0

/-- The function `Metrics::calculateAverageCodeLength`: an entry whose key is found in
`codes` adds `p * codes.at(key).length()`. -/
def calculateAverageCodeLength {R : Type} [Field R] (freqMap : List (Nat × Int))
    (codes : Codes) (totalChars : Int) : R :=
  freqMap.foldl (fun avgLength kv =>
    let p : R := (kv.2 : R) / (totalChars : R)
    match find? codes kv.1 with
    | some code => avgLength + p * (code.length : R)
    | none => avgLength) 0

/-! ## main.cpp -/

/-- The test that `main` applies to the value of the option `-k`:
`if (k != 2 && k != 3)` the program reports `Invalid k. Must be 2 or 3.` and returns 1
without constructing a compressor. -/
def radixAccepted (k : Int) : Bool :=
  !(k != 2 && k != 3)

/-! ## Definitions used to state the properties -/

/-- The padding count in the words of the specification: none when
`(n - 1) mod (k - 1) = 0`, and `(k - 1) - ((n - 1) mod (k - 1))` otherwise. -/
def paddingCount (k n : Nat) : Nat :=
  if (n - 1) % (k - 1) = 0 then 0 else (k - 1) - (n - 1) % (k - 1)

/-- The tree that `buildTree` makes of the three symbols `a`, `b`, `c` with one occurrence
each and radix 3: one internal node over the three leaves. -/
def abcTree : Node :=
  Node.newInternal 3 [Node.newLeaf 97 1, Node.newLeaf 98 1, Node.newLeaf 99 1]

/-- Nodes as `buildTree` makes them: leaves by the first constructor of `Node`, internal
nodes by the second one over at most `k` children that are such nodes themselves. -/
inductive WellFormed (k : Nat) : Node → Prop where
  | leaf (c : Nat) (f : Int) : WellFormed k (Node.newLeaf c f)
  | internal (f : Int) (cs : List Node) (hlen : cs.length ≤ k)
      (hcs : ∀ c ∈ cs, WellFormed k c) : WellFormed k (Node.newInternal f cs)

/-- The node reached from a node by following a sequence of child indices. -/
def Node.descend : Node → List Nat → Option Node
  | t, [] => some t
  | t, i :: p =>
    match t.children[i]? with
    | some c => Node.descend c p
    | none => none

mutual
/-- The leaves below a node in the order `generateCodes` visits them, each with the
sequence of child indices that leads to it. -/
def leafPaths : Node → List (List Nat × Node)
  | Node.mk ch f m children isLeaf =>
    if isLeaf then [([], Node.mk ch f m children isLeaf)] else leafPathsFrom children 0
/-- The leaves below the nodes of a list of children, the first of which has index `i`. -/
def leafPathsFrom : List Node → Nat → List (List Nat × Node)
  | [], _ => []
  | c :: cs, i => (leafPaths c).map (fun pl => (i :: pl.1, pl.2)) ++ leafPathsFrom cs (i + 1)
end

/-- The string that `generateCodes` accumulates along a sequence of child indices: the
decimal numerals of the indices, concatenated. -/
def pathString (p : List Nat) : List Char :=
  p.flatMap (Nat.toDigits 10)

/-- The code table that `compress` computes from the traversal of its frequency map:
`buildTree(freq); codes.clear(); generateCodes(root, "")`. -/
def codeTable (P : PriorityQueue) (k : Int) (freq : List (Nat × Int)) : Outcome Codes :=
  match buildTree P k freq with
  | Outcome.ok root => Outcome.ok (generateCodes root [] [])
  | Outcome.undefined => Outcome.undefined
  | Outcome.diverges => Outcome.diverges

/-- The leaves below the nodes of a list, in visiting order. -/
def leavesOf (l : List Node) : List Node :=
  l.flatMap (fun t => (leafPaths t).map Prod.snd)

/-- The nodes in the queue of `buildTree` when the merge loop starts, up to their order:
one leaf per table entry, and `p` padding leaves. -/
def initialNodes (freq : List (Nat × Int)) (p : Nat) : List Node :=
  freq.map (fun kv => Node.newLeaf kv.1 kv.2) ++ List.replicate p (Node.newLeaf 0 0)

/-- The number of dummy nodes that `addDummyNodes` pushes on a queue of `n` nodes. -/
def dummyCount (k : Int) (n : Nat) : Nat :=
  if k ≤ 2 then 0
  else if Int.tmod ((n : Int) - 1) (k - 1) ≠ 0 then ((k - 1) - Int.tmod ((n : Int) - 1) (k - 1)).toNat
  else 0

/-- A list of nodes on which the comparator leaves no tie: the tie-break keys are pairwise
different, and they are bytes. -/
def TieFree (l : List Node) : Prop :=
  (l.map Node.minChar).Nodup ∧ ∀ x ∈ l, x.minChar ≤ 255

/-- The eight bits of a byte, most significant first. -/
def bitsOfByte (byte : Nat) : List Nat :=
  [(byte >>> 7) &&& 1, (byte >>> 6) &&& 1, (byte >>> 5) &&& 1, (byte >>> 4) &&& 1,
    (byte >>> 3) &&& 1, (byte >>> 2) &&& 1, (byte >>> 1) &&& 1, (byte >>> 0) &&& 1]

/-- The bits that `putDigit val b` passes to `putBit`, in order. -/
def digitBits (val : Nat) : Nat → List Nat
  | 0 => []
  | b + 1 => ((val >>> b) &&& 1) :: digitBits val b

/-- The digits that the loop of `decodeByte` reads from one byte, in order. -/
def byteDigits (byte bps : Nat) : Nat → Int → List Nat
  | 0, _ => []
  | fuel + 1, bitPos =>
    if bitPos ≥ 0 then
      (readDigit byte bps bitPos 0).1 :: byteDigits byte bps fuel (readDigit byte bps bitPos 0).2
    else []

/-- The decoder of `decompress` on a sequence of digits: while fewer than `totalChars`
symbols are decoded, take the tree step for the digit and write the symbol of a leaf. -/
def stepDigits (root : Node) (totalChars : Int) : List Nat → Decoder → Decoder
  | [], d => d
  | v :: vs, d =>
    if d.charsDecoded < totalChars then
      stepDigits root totalChars vs (emitIfLeaf root { d with curr := traverse d.curr v })
    else d

/-- The bits that the payload writer of `compress` passes to `putBit`, in order. -/
def payloadBits (k : Int) (codes : Codes) (input : List Nat) : List Nat :=
  input.flatMap (fun ch =>
    (codeOf codes ch).flatMap (fun c => digitBits (c.toNat - 48) (bitsPerSymbol k)))

/-- The digits that the payload writer of `compress` writes, in order. -/
def payloadDigits (codes : Codes) (input : List Nat) : List Nat :=
  input.flatMap (fun ch => (codeOf codes ch).map (fun c => c.toNat - 48))

/-- The values of consecutive pairs of bits, as `readDigit` computes them. -/
def pairUp : List Nat → List Nat
  | a :: b :: rest => ((((0 <<< 1) ||| a) <<< 1) ||| b) :: pairUp rest
  | _ => []

/-- The bits that a state of the payload writer stands for: the bits of the bytes
written, then the first `bitCount` bits of the buffer. -/
def writerBits (w : BitWriter) : List Nat :=
  w.out.flatMap bitsOfByte ++ (bitsOfByte w.buffer).take w.bitCount

/-- The states that the payload writer passes through: the buffer is a byte whose bits
from position `bitCount` on are still zero. -/
abbrev WriterOk (w : BitWriter) : Prop :=
  w.buffer < 256 ∧ w.bitCount < 8 ∧
    (bitsOfByte w.buffer).drop w.bitCount = List.replicate (8 - w.bitCount) 0

/-- The bytes that `writeData` returns from the final state of the writer. -/
def flush (w : BitWriter) : List Nat :=
  if w.bitCount > 0 then w.out ++ [w.buffer] else w.out

/-- The digit width in the words of the specification: `ceil(log2 k)`. -/
def digitWidth (k : Nat) : Nat :=
  Nat.clog 2 k

/-- The value of a sequence of bits, most significant first. -/
def bitsValue (bits : List Nat) : Nat :=
  bits.foldl (fun v b => 2 * v + b) 0

/-- The original byte count that the header of a file declares: the `int` in the four
bytes after the radix byte. -/
def declaredCount (file : List Nat) : Int :=
  intValue ((file.drop 1).take 4)

/-- The states of the decoder in which the number of bytes written is the counter
`charsDecoded`, and the counter has not passed `totalChars`. -/
def Counted (totalChars : Int) (d : Decoder) : Prop :=
  (d.out.length : Int) = d.charsDecoded ∧ d.charsDecoded ≤ max totalChars 0

/-- The queue at the start of each iteration that the merge loop of `buildTree` runs
within `fuel` iterations, in order. -/
def mergeRounds (P : PriorityQueue) (k : Int) : Nat → P.Q → List P.Q
  | 0, _ => []
  | fuel + 1, pq =>
    if P.size pq > 1 then
      let r := extractChildren P k.toNat pq [] 0
      pq :: mergeRounds P k fuel (P.push r.1 (Node.newInternal r.2.2 r.2.1))
    else []

/-- The queue that one iteration of the merge loop of `buildTree` makes of the queue
`pq`. -/
def mergeRound (P : PriorityQueue) (k : Int) (pq : P.Q) : P.Q :=
  P.push (extractChildren P k.toNat pq [] 0).1
    (Node.newInternal (extractChildren P k.toNat pq [] 0).2.2
      (extractChildren P k.toNat pq [] 0).2.1)

/-- Trees in which every internal node has exactly `k` children: leaves made by the first
constructor of `Node`, internal nodes made by the second one over `k` such trees. -/
inductive Full (k : Nat) : Node → Prop where
  | leaf (c : Nat) (f : Int) : Full k (Node.newLeaf c f)
  | internal (f : Int) (cs : List Node) (hlen : cs.length = k)
      (hcs : ∀ c ∈ cs, Full k c) : Full k (Node.newInternal f cs)

/-- The queue from which the merge loop of `buildTree` starts. -/
def startQueue (P : PriorityQueue) (k : Int) (freq : List (Nat × Int)) : P.Q :=
  addDummyNodes P k (pushLeaves P freq P.init)

/-- The queue after each `push` of the loop of `buildTree` over the table. -/
def pushLeavesStates (P : PriorityQueue) : List (Nat × Int) → P.Q → List P.Q
  | [], _ => []
  | kv :: rest, pq =>
    P.push pq (Node.newLeaf kv.1 kv.2)
      :: pushLeavesStates P rest (P.push pq (Node.newLeaf kv.1 kv.2))

/-- The queue after each `push` of the loop of `addDummyNodes`. -/
def pushDummiesStates (P : PriorityQueue) : Nat → P.Q → List P.Q
  | 0, _ => []
  | needed + 1, pq =>
    P.push pq (Node.newLeaf 0 0) :: pushDummiesStates P needed (P.push pq (Node.newLeaf 0 0))

/-- The queue after each `pop` of the extraction loop of `buildTree`. -/
def extractStates (P : PriorityQueue) : Nat → P.Q → List P.Q
  | 0, _ => []
  | i + 1, pq =>
    if P.size pq = 0 then []
    else
      match P.top pq with
      | none => []
      | some _ => P.pop pq :: extractStates P i (P.pop pq)

/-- The states of the queue in the first `fuel` iterations of the merge loop of
`buildTree`: the queue after each `pop` and after the `push` of every iteration. -/
def mergeStates (P : PriorityQueue) (k : Int) : Nat → P.Q → List P.Q
  | 0, _ => []
  | fuel + 1, pq =>
    if P.size pq > 1 then
      extractStates P k.toNat pq
        ++ mergeRound P k pq :: mergeStates P k fuel (mergeRound P k pq)
    else []

/-- Every state of the queue in the course of `buildTree`, the merge loop being followed
for `fuel` iterations: the empty queue, the queue after each push of a leaf, after each
push of a dummy node, and after each `pop` and `push` of the merge loop. -/
def buildStates (P : PriorityQueue) (k : Int) (fuel : Nat) (freq : List (Nat × Int)) :
    List P.Q :=
  P.init :: pushLeavesStates P freq P.init
    ++ pushDummiesStates P (dummyCount k (P.size (pushLeaves P freq P.init)))
        (pushLeaves P freq P.init)
    ++ mergeStates P k fuel (startQueue P k freq)

/-- The comparator is a strict total order on the nodes held at the positions of a list:
no node is placed after itself, the relation is transitive, and of the nodes at any two
positions one is placed after the other. -/
def StrictTotalOn (l : List Node) : Prop :=
  (∀ x ∈ l, CompareNode x x = false) ∧
    (∀ x ∈ l, ∀ y ∈ l, ∀ z ∈ l,
      CompareNode x y = true → CompareNode y z = true → CompareNode x z = true) ∧
    l.Pairwise (fun x y => CompareNode x y = true ∨ CompareNode y x = true)

/-- The `w` low-order bits of `v`, most significant first: the `w`-bit binary
representation of a value `v` below `2 ^ w`. -/
def binary (w v : Nat) : List Nat :=
  (List.range w).reverse.map (fun b => v / 2 ^ b % 2)

/-- The byte whose bits from bit 7 down are the given ones, the bits after them being
zero. -/
def byteOfBits (bits : List Nat) : Nat :=
  bitsValue (bits ++ List.replicate (8 - bits.length) 0)

/-- A bit string cut into bytes that are filled from bit 7 down to bit 0, the last byte
padded with zero bits on the right. -/
def packBits (bits : List Nat) : List Nat :=
  (List.range ((bits.length + 7) / 8)).map (fun i => byteOfBits ((bits.drop (8 * i)).take 8))

/-- The bit string of the payload in the words of the specification: over the input bytes
in order and over the digits of the code of each byte in order, the `w`-bit
representation of the digit. -/
def specBits (w : Nat) (codes : Codes) (input : List Nat) : List Nat :=
  input.flatMap (fun ch => (codeOf codes ch).flatMap (fun c => binary w (c.toNat - 48)))

/-! ## Basic facts -/

section Basics

@[simp] theorem Node.ch_newLeaf (c : Nat) (f : Int) : (Node.newLeaf c f).ch = c := rfl
@[simp] theorem Node.freq_newLeaf (c : Nat) (f : Int) : (Node.newLeaf c f).freq = f := rfl
@[simp] theorem Node.minChar_newLeaf (c : Nat) (f : Int) : (Node.newLeaf c f).minChar = c := rfl
@[simp] theorem Node.children_newLeaf (c : Nat) (f : Int) : (Node.newLeaf c f).children = [] := rfl
@[simp] theorem Node.isLeaf_newLeaf (c : Nat) (f : Int) : (Node.newLeaf c f).isLeaf = true := rfl
@[simp] theorem Node.ch_newInternal (f : Int) (c : List Node) : (Node.newInternal f c).ch = 0 := rfl
@[simp] theorem Node.freq_newInternal (f : Int) (c : List Node) : (Node.newInternal f c).freq = f := rfl
@[simp] theorem Node.children_newInternal (f : Int) (c : List Node) :
    (Node.newInternal f c).children = c := rfl
@[simp] theorem Node.isLeaf_newInternal (f : Int) (c : List Node) :
    (Node.newInternal f c).isLeaf = false := rfl

theorem CompareNode_eq_true_iff (a b : Node) :
    CompareNode a b = true ↔ (b.freq < a.freq ∨ (a.freq = b.freq ∧ b.minChar < a.minChar)) := by
  unfold CompareNode
  by_cases h : a.freq = b.freq
  · simp [h]
  · simp only [ne_eq, h, not_false_eq_true, if_true, decide_eq_true_eq, gt_iff_lt, false_and,
      or_false]

theorem CompareNode_eq_false_iff (a b : Node) :
    CompareNode a b = false ↔ (a.freq < b.freq ∨ (a.freq = b.freq ∧ a.minChar ≤ b.minChar)) := by
  rw [← Bool.not_eq_true, CompareNode_eq_true_iff]
  constructor
  · intro h
    by_contra hc
    apply h
    rcases lt_trichotomy a.freq b.freq with h1 | h1 | h1
    · exact absurd (Or.inl h1) hc
    · right
      refine ⟨h1, ?_⟩
      by_contra h2
      exact hc (Or.inr ⟨h1, by omega⟩)
    · exact Or.inl h1
  · rintro (h | ⟨h1, h2⟩) (h3 | ⟨h3, h4⟩) <;> omega

/-- The comparator never places a node after itself or after a node it precedes. -/
theorem CompareNode_asymm {a b : Node} (h : CompareNode a b = true) : CompareNode b a = false := by
  rw [CompareNode_eq_true_iff] at h
  rw [CompareNode_eq_false_iff]
  rcases h with h | ⟨h1, h2⟩
  · exact Or.inl h
  · exact Or.inr ⟨h1.symm, by omega⟩

/-- Transitivity of "is placed no later than". -/
theorem CompareNode_false_trans {a b c : Node} (h1 : CompareNode a b = false)
    (h2 : CompareNode b c = false) : CompareNode a c = false := by
  rw [CompareNode_eq_false_iff] at *
  rcases h1 with h1 | ⟨h1, h1'⟩ <;> rcases h2 with h2 | ⟨h2, h2'⟩
  · exact Or.inl (by omega)
  · exact Or.inl (by omega)
  · exact Or.inl (by omega)
  · exact Or.inr ⟨by omega, by omega⟩

/-- Two nodes that the comparator cannot separate have the same tie-break key. -/
theorem CompareNode_tie {a b : Node} (h1 : CompareNode a b = false)
    (h2 : CompareNode b a = false) : a.minChar = b.minChar := by
  rw [CompareNode_eq_false_iff] at *
  rcases h1 with h1 | ⟨h1, h1'⟩ <;> rcases h2 with h2 | ⟨h2, h2'⟩ <;> omega

end Basics

/-! ## The reference queue is lawful -/

section ReferenceQueue

theorem Reference.select_eq_none {c : List Node} : Reference.select c = none ↔ c = [] := by
  cases c with
  | nil => simp [Reference.select]
  | cons x xs =>
    simp only [Reference.select]
    cases h : Reference.select xs with
    | none => simp
    | some p =>
      obtain ⟨m, rest⟩ := p
      by_cases hc : CompareNode x m = true <;> simp [hc]

theorem Reference.select_spec : ∀ (c : List Node) (m : Node) (rest : List Node),
    Reference.select c = some (m, rest) →
      (m :: rest).Perm c ∧ ∀ y ∈ c, CompareNode m y = false := by
  intro c
  induction c with
  | nil => intro m rest h; simp [Reference.select] at h
  | cons x xs ih =>
    intro m rest h
    simp only [Reference.select] at h
    cases hs : Reference.select xs with
    | none =>
      rw [hs] at h
      simp only [Option.some.injEq, Prod.mk.injEq] at h
      obtain ⟨rfl, rfl⟩ := h
      have hx : xs = [] := Reference.select_eq_none.mp hs
      subst hx
      refine ⟨List.Perm.refl _, ?_⟩
      intro y hy
      simp only [List.mem_singleton] at hy
      subst hy
      rw [CompareNode_eq_false_iff]
      exact Or.inr ⟨rfl, le_refl _⟩
    | some p =>
      obtain ⟨m', rest'⟩ := p
      rw [hs] at h
      obtain ⟨hperm, hmin⟩ := ih m' rest' hs
      by_cases hc : CompareNode x m' = true
      · simp only [hc, if_true, Option.some.injEq, Prod.mk.injEq] at h
        obtain ⟨rfl, rfl⟩ := h
        refine ⟨?_, ?_⟩
        · exact (List.Perm.swap x m' rest').trans (List.Perm.cons x hperm)
        · intro y hy
          rcases List.mem_cons.mp hy with rfl | hy
          · exact CompareNode_asymm hc
          · exact hmin y hy
      · simp only [hc, if_false, Option.some.injEq, Prod.mk.injEq] at h
        obtain ⟨rfl, rfl⟩ := h
        have hc' : CompareNode x m' = false := by simpa using hc
        refine ⟨List.Perm.refl _, ?_⟩
        intro y hy
        rcases List.mem_cons.mp hy with rfl | hy
        · rw [CompareNode_eq_false_iff]
          exact Or.inr ⟨rfl, le_refl _⟩
        · exact CompareNode_false_trans hc' (hmin y hy)

theorem Reference.queue_lawful : Reference.priorityQueue.Lawful where
  elems_init := rfl
  elems_push := by
    intro q x _
    exact List.perm_append_singleton x (show List Node from q)
  size_eq := fun _ _ => rfl
  top_nil := by
    intro q _ hq
    have hq' : q = [] := hq
    subst hq'
    rfl
  top_cons := by
    intro q _ hq
    have hq' : q ≠ [] := hq
    cases hs : Reference.select q with
    | none => exact absurd (Reference.select_eq_none.mp hs) hq'
    | some p =>
      obtain ⟨m, rest⟩ := p
      obtain ⟨hperm, hmin⟩ := Reference.select_spec q m rest hs
      refine ⟨m, ?_, ?_, hmin⟩
      · show (Reference.select q).map Prod.fst = some m
        rw [hs]; rfl
      · exact hperm.subset (List.mem_cons_self m rest)
  elems_pop := by
    intro q x _ hx
    have hx' : (Reference.select q).map Prod.fst = some x := hx
    cases hs : Reference.select q with
    | none => rw [hs] at hx'; simp at hx'
    | some p =>
      obtain ⟨m, rest⟩ := p
      rw [hs] at hx'
      simp only [Option.map_some', Option.some.injEq] at hx'
      subst hx'
      show (m :: ((Reference.select q).map Prod.snd).getD q).Perm q
      rw [hs]
      exact (Reference.select_spec q m rest hs).1

theorem referencePlatform_lawful : referencePlatform.Lawful where
  pq_lawful := Reference.queue_lawful
  iterate_perm := fun l => List.Perm.refl l
  sizeT_ge := by decide

end ReferenceQueue

/-! ## The libstdc++ heap is lawful -/

section LibstdcxxHeap

namespace Libstdcxx

theorem CompareNode_self (a : Node) : CompareNode a a = false := by
  rw [CompareNode_eq_false_iff]
  exact Or.inr ⟨rfl, le_refl _⟩

theorem getElem?_set_iff {l : List Node} {i j : Nat} {a x : Node} (hi : i < l.length) :
    (l.set i a)[j]? = some x ↔ (j = i ∧ x = a) ∨ (j ≠ i ∧ l[j]? = some x) := by
  rw [List.getElem?_set]
  by_cases h : i = j
  · subst h
    simp [hi, eq_comm]
  · have h' : j ≠ i := fun e => h e.symm
    simp [h, h']

/-- Overwriting position `i` with the value at `j` and then position `j` with `v` gives
the nodes of the list with position `i` overwritten by `v`. -/
theorem set_set_perm : ∀ (l : List Node) (i j : Nat) (b v : Node), i ≠ j → i < l.length →
    l[j]? = some b → ((l.set i b).set j v).Perm (l.set i v) := by
  intro l
  induction l with
  | nil => intro i j b v _ hi _; simp at hi
  | cons a l ih =>
    intro i j b v hij hi hj
    cases i with
    | zero =>
      cases j with
      | zero => exact absurd rfl hij
      | succ j =>
        simp only [List.set_cons_zero, List.set_cons_succ]
        simp only [List.getElem?_cons_succ] at hj
        -- b :: l.set j v  ~  v :: l
        clear ih hij hi
        induction l generalizing j with
        | nil => simp at hj
        | cons c l ih2 =>
          cases j with
          | zero =>
            simp only [List.getElem?_cons_zero, Option.some.injEq] at hj
            subst hj
            simp only [List.set_cons_zero]
            exact List.Perm.swap _ _ _
          | succ j =>
            simp only [List.getElem?_cons_succ] at hj
            simp only [List.set_cons_succ]
            have := ih2 j hj
            exact ((List.Perm.swap c b _).trans (List.Perm.cons c this)).trans
              (List.Perm.swap v c _)
    | succ i =>
      simp only [List.length_cons, Nat.add_lt_add_iff_right] at hi
      cases j with
      | zero =>
        simp only [List.getElem?_cons_zero, Option.some.injEq] at hj
        subst hj
        simp only [List.set_cons_succ, List.set_cons_zero]
        -- v :: l.set i a ~ a :: l.set i v
        clear ih hij
        induction l generalizing i with
        | nil => simp at hi
        | cons c l ih2 =>
          cases i with
          | zero =>
            simp only [List.set_cons_zero]
            exact List.Perm.swap _ _ _
          | succ i =>
            simp only [List.length_cons, Nat.add_lt_add_iff_right] at hi
            simp only [List.set_cons_succ]
            have := ih2 i hi
            exact ((List.Perm.swap c v _).trans (List.Perm.cons c this)).trans
              (List.Perm.swap a c _)
      | succ j =>
        simp only [List.getElem?_cons_succ] at hj
        simp only [List.set_cons_succ]
        exact List.Perm.cons a (ih i j b v (by omega) hi hj)

/-- The loop of `__push_heap` restores the heap order: when the vector is ordered at
every edge but the one into the hole, the parent of the hole is no later than the
children of the hole, and `value` is no later than the children of the hole, the result
is a heap holding the nodes of the vector with `value` in the hole. -/
theorem pushHeap_spec (value : Node) : ∀ (fuel : Nat) (first : List Node) (hole : Nat),
    hole < first.length → hole < fuel →
    (∀ i p x, 0 < i → i ≠ hole → first[(i - 1) / 2]? = some p → first[i]? = some x →
      CompareNode p x = false) →
    (∀ j g x, 0 < hole → 0 < j → (j - 1) / 2 = hole → first[(hole - 1) / 2]? = some g →
      first[j]? = some x → CompareNode g x = false) →
    (∀ j x, 0 < j → (j - 1) / 2 = hole → first[j]? = some x → CompareNode value x = false) →
    IsHeap (pushHeap value fuel first hole) ∧
      (pushHeap value fuel first hole).Perm (first.set hole value) := by
  intro fuel
  induction fuel with
  | zero => intro first hole _ h; omega
  | succ fuel ih =>
    intro first hole hlen hfuel K1 K2 K3
    have hplt : (hole - 1) / 2 < first.length := by omega
    obtain ⟨p, hp⟩ : ∃ p, first[(hole - 1) / 2]? = some p :=
      ⟨_, List.getElem?_eq_getElem hplt⟩
    have hstop : IsHeap (first.set hole value) ∧
        (hole = 0 ∨ CompareNode p value = false) →
        IsHeap (first.set hole value) ∧ (first.set hole value).Perm (first.set hole value) :=
      fun h => ⟨h.1, List.Perm.refl _⟩
    have hheap : (hole = 0 ∨ CompareNode p value = false) → IsHeap (first.set hole value) := by
      intro hc
      unfold IsHeap
      intro i a b hi ha hb
      rw [getElem?_set_iff hlen] at ha hb
      rcases hb with ⟨rfl, rfl⟩ | ⟨hne, hb⟩
      · rcases ha with ⟨he, _⟩ | ⟨_, ha⟩
        · omega
        · rcases hc with h0 | hc
          · omega
          · rw [hp] at ha
            simp only [Option.some.injEq] at ha
            rw [← ha]; exact hc
      · rcases ha with ⟨he, rfl⟩ | ⟨hne', ha⟩
        · exact K3 i b hi he hb
        · exact K1 i a b hi hne ha hb
    simp only [pushHeap, hp]
    by_cases hc : hole > 0 ∧ CompareNode p value = true
    · rw [if_pos hc]
      obtain ⟨h0, hcmp⟩ := hc
      have hpar : (hole - 1) / 2 < hole := by omega
      have hlen' : (hole - 1) / 2 < (first.set hole p).length := by simpa using hplt
      obtain ⟨r1, r2⟩ := ih (first.set hole p) ((hole - 1) / 2) hlen' (by omega)
        (by
          intro i a b hi hne ha hb
          rw [getElem?_set_iff hlen] at ha hb
          rcases hb with ⟨rfl, rfl⟩ | ⟨hne2, hb⟩
          · rcases ha with ⟨he, _⟩ | ⟨_, ha⟩
            · omega
            · rw [hp] at ha
              simp only [Option.some.injEq] at ha
              rw [← ha]; exact CompareNode_self _
          · rcases ha with ⟨he, rfl⟩ | ⟨hne', ha⟩
            · exact K2 i a b h0 hi he hp hb
            · exact K1 i a b hi hne2 ha hb)
        (by
          intro j g x hpos hj hje hg hx
          rw [getElem?_set_iff hlen] at hg hx
          have hg' : first[((hole - 1) / 2 - 1) / 2]? = some g := by
            rcases hg with ⟨he, _⟩ | ⟨_, hg⟩
            · omega
            · exact hg
          have hgp : CompareNode g p = false :=
            K1 ((hole - 1) / 2) g p hpos (by omega) hg' hp
          rcases hx with ⟨rfl, rfl⟩ | ⟨hne, hx⟩
          · exact hgp
          · exact CompareNode_false_trans hgp (K1 j p x hj hne (hje ▸ hp) hx))
        (by
          intro j x hj hje hx
          rw [getElem?_set_iff hlen] at hx
          have hvp : CompareNode value p = false := CompareNode_asymm hcmp
          rcases hx with ⟨rfl, rfl⟩ | ⟨hne, hx⟩
          · exact hvp
          · exact CompareNode_false_trans hvp (K1 j p x hj hne (hje ▸ hp) hx))
      exact ⟨r1, r2.trans (set_set_perm first hole ((hole - 1) / 2) p value (by omega) hlen hp)⟩
    · rw [if_neg hc]
      refine ⟨hheap ?_, List.Perm.refl _⟩
      by_cases h0 : hole = 0
      · exact Or.inl h0
      · right
        have : ¬ CompareNode p value = true := fun h => hc ⟨by omega, h⟩
        simpa using this

/-- A heap is ordered between every position and its grandchildren. -/
theorem IsHeap.pushHeap {first : List Node} (h : IsHeap first) (value : Node) (fuel hole : Nat)
    (hlen : hole < first.length) (hfuel : hole < fuel)
    (hleaf : ∀ j, 0 < j → (j - 1) / 2 = hole → first.length ≤ j) :
    IsHeap (pushHeap value fuel first hole) ∧
      (pushHeap value fuel first hole).Perm (first.set hole value) := by
  refine pushHeap_spec value fuel first hole hlen hfuel ?_ ?_ ?_
  · intro i p x hi _ hp hx
    exact h i p x hi hp hx
  · intro j g x hpos hj hje hg hx
    have hx' := hleaf j hj hje
    rw [List.getElem?_eq_none hx'] at hx
    exact absurd hx (by simp)
  · intro j x hj hje hx
    have hx' := hleaf j hj hje
    rw [List.getElem?_eq_none hx'] at hx
    exact absurd hx (by simp)

/-- The first loop of `__adjust_heap` keeps the heap order and ends at a position
without a right child. -/
theorem adjustDown_spec (len : Nat) : ∀ (fuel : Nat) (first : List Node) (hole : Nat),
    first.length = len → IsHeap first → hole < len → len ≤ hole + fuel →
    IsHeap (adjustDown len fuel first hole).1 ∧
      (adjustDown len fuel first hole).1.length = len ∧
      (adjustDown len fuel first hole).2 < len ∧
      ¬ (adjustDown len fuel first hole).2 < (len - 1) / 2 ∧
      ∀ v, ((adjustDown len fuel first hole).1.set (adjustDown len fuel first hole).2 v).Perm
        (first.set hole v) := by
  intro fuel
  induction fuel with
  | zero => intro first hole _ _ h1 h2; omega
  | succ fuel ih =>
    intro first hole hlen hheap hhole hfuel
    simp only [adjustDown]
    by_cases hc : hole < (len - 1) / 2
    · rw [if_pos hc]
      have hr : 2 * (hole + 1) < first.length := by omega
      have hl : 2 * (hole + 1) - 1 < first.length := by omega
      have hh : hole < first.length := by omega
      rw [List.getElem?_eq_getElem hr, List.getElem?_eq_getElem hl]
      simp only []
      have hgr : first[2 * (hole + 1)]? = some first[2 * (hole + 1)] :=
        List.getElem?_eq_getElem hr
      have hgl : first[2 * (hole + 1) - 1]? = some first[2 * (hole + 1) - 1] :=
        List.getElem?_eq_getElem hl
      have hgh : first[hole]? = some first[hole] := List.getElem?_eq_getElem hh
      generalize first[2 * (hole + 1)] = r at hgr ⊢
      generalize first[2 * (hole + 1) - 1] = l at hgl ⊢
      generalize first[hole] = top at hgh
      have key : ∀ (q : Nat) (m o : Node) (qo : Nat), first[q]? = some m →
          first[qo]? = some o → (q - 1) / 2 = hole → (qo - 1) / 2 = hole → 0 < q →
          (∀ i, 0 < i → (i - 1) / 2 = hole → i = q ∨ i = qo) →
          CompareNode m o = false → hole < q → q < len →
          IsHeap (adjustDown len fuel (first.set hole m) q).1 ∧
            (adjustDown len fuel (first.set hole m) q).1.length = len ∧
            (adjustDown len fuel (first.set hole m) q).2 < len ∧
            ¬ (adjustDown len fuel (first.set hole m) q).2 < (len - 1) / 2 ∧
            ∀ v, ((adjustDown len fuel (first.set hole m) q).1.set
              (adjustDown len fuel (first.set hole m) q).2 v).Perm (first.set hole v) := by
        intro q m o qo hq hqo hpq hpqo hq0 hkids hmo hhq hqlen
        have hheap' : IsHeap (first.set hole m) := by
          intro i a b hi ha hb
          rw [getElem?_set_iff hh] at ha hb
          rcases hb with ⟨rfl, rfl⟩ | ⟨hne, hb⟩
          · rcases ha with ⟨he, _⟩ | ⟨_, ha⟩
            · omega
            · exact CompareNode_false_trans (hheap i a top hi ha hgh)
                (hheap q top b hq0 (hpq ▸ hgh) hq)
          · rcases ha with ⟨he, rfl⟩ | ⟨hne', ha⟩
            · rcases hkids i hi he with rfl | rfl
              · rw [hq] at hb
                simp only [Option.some.injEq] at hb
                rw [hb]; exact CompareNode_self _
              · rw [hqo] at hb
                simp only [Option.some.injEq] at hb
                rw [← hb]; exact hmo
            · exact hheap i a b hi ha hb
        obtain ⟨r1, r2, r3, r4, r5⟩ := ih (first.set hole m) q (by simpa using hlen) hheap'
          hqlen (by omega)
        refine ⟨r1, r2, r3, r4, fun v => (r5 v).trans ?_⟩
        exact set_set_perm first hole q m v (by omega) hh hq
      have hkids1 : ∀ i, 0 < i → (i - 1) / 2 = hole →
          i = 2 * (hole + 1) - 1 ∨ i = 2 * (hole + 1) := by
        intro i hi he; omega
      by_cases hcmp : CompareNode r l = true
      · simp only [hcmp, if_true]
        exact key (2 * (hole + 1) - 1) l r (2 * (hole + 1)) hgl hgr (by omega) (by omega)
          (by omega) hkids1 (CompareNode_asymm hcmp) (by omega) (by omega)
      · simp only [hcmp, if_false]
        have hcmp' : CompareNode r l = false := by simpa using hcmp
        exact key (2 * (hole + 1)) r l (2 * (hole + 1) - 1) hgr hgl (by omega) (by omega)
          (by omega) (fun i hi he => (hkids1 i hi he).symm) hcmp' (by omega) (by omega)
    · rw [if_neg hc]
      exact ⟨hheap, hlen, hhole, hc, fun v => List.Perm.refl _⟩

/-- The function `__adjust_heap` on a heap whose top is vacant gives a heap holding the
other nodes and `value`. -/
theorem adjustHeap_spec (first : List Node) (len : Nat) (value : Node)
    (hlen : first.length = len) (hpos : 0 < len) (hheap : IsHeap first) :
    IsHeap (adjustHeap first len value) ∧
      (adjustHeap first len value).Perm (first.set 0 value) := by
  obtain ⟨r1, r2, r3, r4, r5⟩ := adjustDown_spec len len first 0 hlen hheap hpos (by omega)
  unfold adjustHeap
  simp only []
  generalize (adjustDown len len first 0).1 = f1 at r1 r2 r5 ⊢
  generalize (adjustDown len len first 0).2 = h1 at r3 r4 r5 ⊢
  by_cases hc : len % 2 = 0 ∧ 1 ≤ len ∧ h1 = (len - 2) / 2
  · rw [if_pos hc]
    obtain ⟨hev, _, hh1⟩ := hc
    have hl : 2 * (h1 + 1) - 1 < f1.length := by omega
    have hh : h1 < f1.length := by omega
    rw [List.getElem?_eq_getElem hl]
    simp only []
    have hgl : f1[2 * (h1 + 1) - 1]? = some f1[2 * (h1 + 1) - 1] := List.getElem?_eq_getElem hl
    have hgh : f1[h1]? = some f1[h1] := List.getElem?_eq_getElem hh
    generalize f1[2 * (h1 + 1) - 1] = l at hgl ⊢
    generalize f1[h1] = top at hgh
    have hheap' : IsHeap (f1.set h1 l) := by
      intro i a b hi ha hb
      rw [getElem?_set_iff hh] at ha hb
      rcases hb with ⟨rfl, rfl⟩ | ⟨hne, hb⟩
      · rcases ha with ⟨he, _⟩ | ⟨_, ha⟩
        · omega
        · exact CompareNode_false_trans (r1 i a top hi ha hgh)
            (r1 (2 * (i + 1) - 1) top b (by omega)
              (by rw [show (2 * (i + 1) - 1 - 1) / 2 = i from by omega]; exact hgh) hgl)
      · rcases ha with ⟨he, rfl⟩ | ⟨hne', ha⟩
        · have hi2 : i = 2 * (h1 + 1) - 1 ∨ i = 2 * (h1 + 1) := by omega
          rcases hi2 with rfl | rfl
          · rw [hgl] at hb
            simp only [Option.some.injEq] at hb
            rw [hb]; exact CompareNode_self _
          · rw [List.getElem?_eq_none (by omega)] at hb
            exact absurd hb (by simp)
        · exact r1 i a b hi ha hb
    obtain ⟨p1, p2⟩ := IsHeap.pushHeap hheap' value len (2 * (h1 + 1) - 1)
      (by simpa using hl) (by omega) (by intro j hj he; simp; omega)
    refine ⟨p1, p2.trans ?_⟩
    exact (set_set_perm f1 h1 (2 * (h1 + 1) - 1) l value (by omega) hh hgl).trans (r5 value)
  · rw [if_neg hc]
    obtain ⟨p1, p2⟩ := IsHeap.pushHeap r1 value len h1 (by omega) (by omega)
      (by intro j hj he; omega)
    exact ⟨p1, p2.trans (r5 value)⟩

theorem isHeap_nil : IsHeap [] := by
  intro i p x _ _ hx
  simp at hx

/-- The member `push` keeps the heap order and adds the node. -/
theorem push_spec (first : List Node) (x : Node) (hheap : IsHeap first) :
    IsHeap (push first x) ∧ (push first x).Perm (x :: first) := by
  unfold push
  obtain ⟨p1, p2⟩ := pushHeap_spec x (first.length + 1) (first ++ [x]) first.length
    (by simp) (by omega)
    (by
      intro i p y hi hne hp hy
      have hilt : i < first.length := by
        by_contra hge
        have : i < (first ++ [x]).length := by
          by_contra hge2
          rw [List.getElem?_eq_none (by omega)] at hy
          exact absurd hy (by simp)
        simp at this
        omega
      rw [List.getElem?_append_left hilt] at hy
      rw [List.getElem?_append_left (by omega)] at hp
      exact hheap i p y hi hp hy)
    (by
      intro j g y _ hj hje _ hy
      rw [List.getElem?_eq_none (by simp; omega)] at hy
      exact absurd hy (by simp))
    (by
      intro j y hj hje hy
      rw [List.getElem?_eq_none (by simp; omega)] at hy
      exact absurd hy (by simp))
  refine ⟨p1, p2.trans ?_⟩
  rw [List.set_append_right _ _ (le_refl _)]
  simp only [Nat.sub_self, List.set_cons_zero]
  exact List.perm_append_singleton x first

theorem isHeap_dropLast (first : List Node) (hheap : IsHeap first) : IsHeap first.dropLast := by
  intro i p x hi hp hx
  rw [List.getElem?_dropLast] at hp hx
  split at hx
  · split at hp
    · exact hheap i p x hi hp hx
    · exact absurd hp (by simp)
  · exact absurd hx (by simp)

/-- The member `pop` keeps the heap order and removes the first node of the vector. -/
theorem pop_spec (first : List Node) (hheap : IsHeap first) (top : Node)
    (htop : first.head? = some top) :
    IsHeap (pop first) ∧ (top :: pop first).Perm first := by
  cases first with
  | nil => simp at htop
  | cons a rest =>
    simp only [List.head?_cons, Option.some.injEq] at htop
    subst htop
    cases hrest : rest.getLast? with
    | none =>
      have : rest = [] := by simpa using hrest
      subst this
      refine ⟨?_, ?_⟩
      · show IsHeap (pop [a])
        have : pop [a] = [] := rfl
        rw [this]; exact isHeap_nil
      · have : pop [a] = [] := rfl
        rw [this]
    | some value =>
      obtain ⟨mid, rfl⟩ : ∃ mid, rest = mid ++ [value] :=
        ⟨rest.dropLast, (List.dropLast_append_getLast? value hrest).symm⟩
      have hl : (a :: (mid ++ [value])).getLast? = some value := by
        rw [← List.cons_append, List.getLast?_concat]
      have hd : (a :: (mid ++ [value])).dropLast = a :: mid := by
        rw [← List.cons_append, List.dropLast_concat]
      have hlen : (a :: (mid ++ [value])).length = mid.length + 2 := by simp
      have hpop : pop (a :: (mid ++ [value])) = adjustHeap (a :: mid) (mid.length + 1) value := by
        unfold pop
        rw [hl]
        simp only []
        rw [if_pos (by omega), hd, hlen]
        rfl
      rw [hpop]
      have hh : IsHeap (a :: mid) := by
        have := isHeap_dropLast _ hheap
        rw [hd] at this
        exact this
      obtain ⟨q1, q2⟩ := adjustHeap_spec (a :: mid) (mid.length + 1) value (by simp) (by omega) hh
      refine ⟨q1, ?_⟩
      simp only [List.set_cons_zero] at q2
      refine (List.Perm.cons a q2).trans ?_
      exact List.Perm.cons a (List.perm_append_singleton value mid).symm

/-- The first node of a heap is placed after no other node by the comparator. -/
theorem IsHeap.top_min {first : List Node} (hheap : IsHeap first) (top : Node)
    (htop : first.head? = some top) : ∀ y ∈ first, CompareNode top y = false := by
  have h0 : first[0]? = some top := by rw [← List.head?_eq_getElem?]; exact htop
  have key : ∀ (n i : Nat) (y : Node), i ≤ n → first[i]? = some y →
      CompareNode top y = false := by
    intro n
    induction n with
    | zero =>
      intro i y hi hy
      have : i = 0 := by omega
      subst this
      rw [h0] at hy
      simp only [Option.some.injEq] at hy
      rw [hy]; exact CompareNode_self _
    | succ n ih =>
      intro i y hi hy
      by_cases h : i = 0
      · subst h
        rw [h0] at hy
        simp only [Option.some.injEq] at hy
        rw [hy]; exact CompareNode_self _
      · have hilt : i < first.length := by
          by_contra hge
          rw [List.getElem?_eq_none (by omega)] at hy
          exact absurd hy (by simp)
        have hp : first[(i - 1) / 2]? = some first[(i - 1) / 2] :=
          List.getElem?_eq_getElem (by omega)
        exact CompareNode_false_trans (ih ((i - 1) / 2) _ (by omega) hp)
          (hheap i _ y (by omega) hp hy)
  intro y hy
  obtain ⟨i, hi⟩ := List.mem_iff_getElem?.mp hy
  exact key i i y (le_refl _) hi

/-- Every state that the libstdc++ queue gets into is a heap. -/
theorem reachable_isHeap (q : List Node) (h : priorityQueue.Reachable q) : IsHeap q := by
  induction h with
  | init => exact isHeap_nil
  | push q x _ ih => exact (push_spec q x ih).1
  | pop q _ ih =>
    show IsHeap (pop q)
    cases hq : q.head? with
    | none =>
      have : q = [] := by simpa using hq
      subst this
      exact isHeap_nil
    | some top => exact (pop_spec q ih top hq).1

theorem heap_lawful : priorityQueue.Lawful where
  elems_init := rfl
  elems_push := fun q x hq => (push_spec q x (reachable_isHeap q hq)).2
  size_eq := fun _ _ => rfl
  top_nil := by
    intro q _ hq
    have hq' : q = [] := hq
    subst hq'
    rfl
  top_cons := by
    intro q hq hne
    have hne' : q ≠ [] := hne
    cases hh : q.head? with
    | none => exact absurd (by simpa using hh) hne'
    | some top =>
      refine ⟨top, hh, ?_, (reachable_isHeap q hq).top_min top hh⟩
      exact List.mem_of_mem_head? hh
  elems_pop := fun q x hq hx => (pop_spec q (reachable_isHeap q hq) x hx).2

end Libstdcxx

theorem libstdcxx_lawful : libstdcxx.Lawful where
  pq_lawful := Libstdcxx.heap_lawful
  iterate_perm := fun l => List.reverse_perm l
  sizeT_ge := by decide

end LibstdcxxHeap

/-! ## The queue operations of `buildTree` on a lawful queue -/

section QueueFacts

variable {P : PriorityQueue}

theorem reachable_pushLeaves (freq : List (Nat × Int)) (pq : P.Q) (hq : P.Reachable pq) :
    P.Reachable (pushLeaves P freq pq) := by
  induction freq generalizing pq with
  | nil => exact hq
  | cons kv rest ih => exact ih _ (PriorityQueue.Reachable.push pq _ hq)

theorem reachable_pushDummies (n : Nat) (pq : P.Q) (hq : P.Reachable pq) :
    P.Reachable (pushDummies P n pq) := by
  induction n generalizing pq with
  | zero => exact hq
  | succ n ih => exact ih _ (PriorityQueue.Reachable.push pq _ hq)

theorem reachable_addDummyNodes (k : Int) (pq : P.Q) (hq : P.Reachable pq) :
    P.Reachable (addDummyNodes P k pq) := by
  unfold addDummyNodes
  split
  · exact hq
  · simp only []
    split
    · exact reachable_pushDummies _ pq hq
    · exact hq

theorem reachable_extractChildren (i : Nat) (pq : P.Q) (children : List Node) (sumFreq : Int)
    (hq : P.Reachable pq) : P.Reachable (extractChildren P i pq children sumFreq).1 := by
  induction i generalizing pq children sumFreq with
  | zero => exact hq
  | succ i ih =>
    simp only [extractChildren]
    split
    · exact hq
    · split
      · exact hq
      · exact ih _ _ _ (PriorityQueue.Reachable.pop pq hq)

theorem reachable_mergeLoop (k : Int) (fuel : Nat) (pq pq' : P.Q) (hq : P.Reachable pq)
    (hrun : mergeLoop P k fuel pq = some pq') : P.Reachable pq' := by
  induction fuel generalizing pq with
  | zero =>
    simp only [mergeLoop] at hrun
    split at hrun
    · exact absurd hrun (by simp)
    · simp only [Option.some.injEq] at hrun
      subst hrun; exact hq
  | succ fuel ih =>
    simp only [mergeLoop] at hrun
    split at hrun
    · exact ih _ (PriorityQueue.Reachable.push _ _
        (reachable_extractChildren _ pq [] 0 hq)) hrun
    · simp only [Option.some.injEq] at hrun
      subst hrun; exact hq

theorem elems_pushLeaves (hP : P.Lawful) (freq : List (Nat × Int)) (pq : P.Q)
    (hq : P.Reachable pq) :
    (P.elems (pushLeaves P freq pq)).Perm
      (freq.map (fun kv => Node.newLeaf kv.1 kv.2) ++ P.elems pq) := by
  induction freq generalizing pq with
  | nil => exact List.Perm.refl _
  | cons kv rest ih =>
    have h1 := ih (P.push pq (Node.newLeaf kv.1 kv.2)) (PriorityQueue.Reachable.push pq _ hq)
    have h2 := hP.elems_push pq (Node.newLeaf kv.1 kv.2) hq
    have h3 : (List.map (fun kv => Node.newLeaf kv.1 kv.2) rest ++
        P.elems (P.push pq (Node.newLeaf kv.1 kv.2))).Perm
        (List.map (fun kv => Node.newLeaf kv.1 kv.2) rest ++
          (Node.newLeaf kv.1 kv.2 :: P.elems pq)) := List.Perm.append_left _ h2
    refine (h1.trans h3).trans ?_
    simp only [List.map_cons, List.cons_append]
    exact List.perm_middle

theorem elems_pushDummies (hP : P.Lawful) (n : Nat) (pq : P.Q) (hq : P.Reachable pq) :
    (P.elems (pushDummies P n pq)).Perm (P.elems pq ++ List.replicate n (Node.newLeaf 0 0)) := by
  induction n generalizing pq with
  | zero => simp [pushDummies]
  | succ n ih =>
    have h1 := ih (P.push pq (Node.newLeaf 0 0)) (PriorityQueue.Reachable.push pq _ hq)
    have h2 := hP.elems_push pq (Node.newLeaf 0 0) hq
    refine h1.trans ?_
    refine (List.Perm.append_right _ h2).trans ?_
    simp only [List.replicate_succ, List.cons_append]
    exact List.perm_middle.symm

theorem size_pushLeaves (hP : P.Lawful) (freq : List (Nat × Int)) (pq : P.Q)
    (hq : P.Reachable pq) :
    P.size (pushLeaves P freq pq) = freq.length + P.size pq := by
  rw [hP.size_eq _ (reachable_pushLeaves freq pq hq), hP.size_eq _ hq,
    (elems_pushLeaves hP freq pq hq).length_eq]
  simp

theorem size_init (hP : P.Lawful) : P.size P.init = 0 := by
  rw [hP.size_eq _ PriorityQueue.Reachable.init, hP.elems_init]; rfl

/-- What the extraction loop does: it moves the first `min i (size pq)` tops, in order,
from the queue to the end of `children`. -/
theorem extractChildren_spec (hP : P.Lawful) (i : Nat) (pq : P.Q) (children : List Node)
    (sumFreq : Int) (hq : P.Reachable pq) :
    ∃ ext : List Node,
      (extractChildren P i pq children sumFreq).2.1 = children ++ ext ∧
      (ext ++ P.elems (extractChildren P i pq children sumFreq).1).Perm (P.elems pq) ∧
      ext.length = min i (P.size pq) := by
  induction i generalizing pq children sumFreq with
  | zero => exact ⟨[], by simp [extractChildren], by simp [extractChildren], by simp⟩
  | succ i ih =>
    by_cases hs : P.size pq = 0
    · exact ⟨[], by simp [extractChildren, hs], by simp [extractChildren, hs], by simp [hs]⟩
    · have hne : P.elems pq ≠ [] := by
        intro h
        apply hs
        rw [hP.size_eq _ hq, h]; rfl
      obtain ⟨x, hx, _, _⟩ := hP.top_cons pq hq hne
      have hpop := hP.elems_pop pq x hq hx
      obtain ⟨ext, h1, h2, h3⟩ := ih (P.pop pq) (children ++ [x]) (wrapInt32 (sumFreq + x.freq))
        (PriorityQueue.Reachable.pop pq hq)
      refine ⟨x :: ext, ?_, ?_, ?_⟩
      · simp only [extractChildren, hs, if_false, hx]
        rw [h1]; simp
      · simp only [extractChildren, hs, if_false, hx]
        exact (List.Perm.cons x h2).trans hpop
      · have hsz : P.size pq = P.size (P.pop pq) + 1 := by
          rw [hP.size_eq _ hq, hP.size_eq _ (PriorityQueue.Reachable.pop pq hq),
            ← hpop.length_eq]; rfl
        simp only [List.length_cons, h3]
        omega

/-- One round of the merge loop replaces the extracted nodes by one new node. -/
theorem merge_round_spec (hP : P.Lawful) (k : Int) (pq : P.Q) (hq : P.Reachable pq) :
    ∃ (ext rest : List Node) (f : Int),
      (ext ++ rest).Perm (P.elems pq) ∧
      ext.length = min k.toNat (P.size pq) ∧
      (extractChildren P k.toNat pq [] 0).2.1 = ext ∧
      (P.elems (P.push (extractChildren P k.toNat pq [] 0).1
        (Node.newInternal (extractChildren P k.toNat pq [] 0).2.2
          (extractChildren P k.toNat pq [] 0).2.1))).Perm (Node.newInternal f ext :: rest) := by
  obtain ⟨ext, h1, h2, h3⟩ := extractChildren_spec hP k.toNat pq [] 0 hq
  simp only [List.nil_append] at h1
  refine ⟨ext, P.elems (extractChildren P k.toNat pq [] 0).1,
    (extractChildren P k.toNat pq [] 0).2.2, h2, h3, h1, ?_⟩
  rw [h1]
  exact hP.elems_push _ _ (reachable_extractChildren _ pq [] 0 hq)

/-- An invariant of the multiset of queued nodes that every merge round preserves holds
when the merge loop ends. -/
theorem mergeLoop_invariant (hP : P.Lawful) (k : Int) (I : List Node → Prop)
    (hperm : ∀ l l', l.Perm l' → I l → I l')
    (hstep : ∀ (ext rest : List Node) (f : Int), 2 ≤ (ext ++ rest).length →
      ext.length = min k.toNat (ext ++ rest).length →
      I (ext ++ rest) → I (Node.newInternal f ext :: rest))
    (fuel : Nat) (pq pq' : P.Q) (hq : P.Reachable pq) (h0 : I (P.elems pq))
    (hrun : mergeLoop P k fuel pq = some pq') : I (P.elems pq') := by
  induction fuel generalizing pq with
  | zero =>
    simp only [mergeLoop] at hrun
    split at hrun
    · exact absurd hrun (by simp)
    · simp only [Option.some.injEq] at hrun
      subst hrun; exact h0
  | succ fuel ih =>
    simp only [mergeLoop] at hrun
    split at hrun
    · rename_i hsz
      obtain ⟨ext, rest, f, h1, h2, _, h4⟩ := merge_round_spec hP k pq hq
      refine ih _ (PriorityQueue.Reachable.push _ _
        (reachable_extractChildren _ pq [] 0 hq)) ?_ hrun
      refine hperm _ _ h4.symm ?_
      have hlen : (ext ++ rest).length = P.size pq := by
        rw [h1.length_eq, hP.size_eq _ hq]
      refine hstep ext rest f ?_ ?_ (hperm _ _ h1.symm h0)
      · omega
      · rw [hlen]; exact h2
    · simp only [Option.some.injEq] at hrun
      subst hrun; exact h0

/-- With radix at least 2 every round of the merge loop shrinks the queue, so the loop
ends within `size pq` rounds, with at most one node left. -/
theorem mergeLoop_terminates (hP : P.Lawful) (k : Int) (hk : 2 ≤ k) (fuel : Nat) (pq : P.Q)
    (hq : P.Reachable pq) (hfuel : P.size pq ≤ fuel + 1) :
    ∃ pq', mergeLoop P k fuel pq = some pq' ∧ P.size pq' ≤ 1 ∧ (1 ≤ P.size pq → P.size pq' = 1) := by
  induction fuel generalizing pq with
  | zero =>
    refine ⟨pq, ?_, by omega, by intro h; omega⟩
    simp only [mergeLoop]
    rw [if_neg (by omega)]
  | succ fuel ih =>
    by_cases hsz : P.size pq > 1
    · obtain ⟨ext, rest, f, h1, h2, _, h4⟩ := merge_round_spec hP k pq hq
      have hlen : ext.length + rest.length = P.size pq := by
        rw [← List.length_append, h1.length_eq, hP.size_eq _ hq]
      have hk' : 2 ≤ k.toNat := by omega
      have hreach : P.Reachable (P.push (extractChildren P k.toNat pq [] 0).1
          (Node.newInternal (extractChildren P k.toNat pq [] 0).2.2
            (extractChildren P k.toNat pq [] 0).2.1)) :=
        PriorityQueue.Reachable.push _ _ (reachable_extractChildren _ pq [] 0 hq)
      have hsz' : P.size (P.push (extractChildren P k.toNat pq [] 0).1
          (Node.newInternal (extractChildren P k.toNat pq [] 0).2.2
            (extractChildren P k.toNat pq [] 0).2.1)) = rest.length + 1 := by
        rw [hP.size_eq _ hreach, h4.length_eq]; rfl
      obtain ⟨pq', h5, h6, h7⟩ := ih (P.push (extractChildren P k.toNat pq [] 0).1
          (Node.newInternal (extractChildren P k.toNat pq [] 0).2.2
            (extractChildren P k.toNat pq [] 0).2.1)) hreach (by rw [hsz']; omega)
      refine ⟨pq', ?_, h6, fun _ => h7 (by rw [hsz']; omega)⟩
      simp only [mergeLoop]
      rw [if_pos hsz]
      exact h5
    · refine ⟨pq, ?_, by omega, by intro h; omega⟩
      simp only [mergeLoop]
      rw [if_neg hsz]

/-- A merge loop that has ended within `fuel` rounds ends the same way within more. -/
theorem mergeLoop_fuel_succ (k : Int) (fuel : Nat) (pq pq' : P.Q)
    (h : mergeLoop P k fuel pq = some pq') : mergeLoop P k (fuel + 1) pq = some pq' := by
  induction fuel generalizing pq with
  | zero =>
    simp only [mergeLoop] at h ⊢
    split at h
    · exact absurd h (by simp)
    · rename_i hs
      rw [if_neg hs]
      exact h
  | succ fuel ih =>
    rw [mergeLoop] at h ⊢
    split
    · rename_i hs
      rw [if_pos hs] at h
      exact ih _ h
    · rename_i hs
      rw [if_neg hs] at h
      exact h

/-- With a radix below 2 a round of the merge loop does not shrink a queue of two or more
nodes: the loop never ends. -/
theorem mergeLoop_diverges (hP : P.Lawful) (k : Int) (hk : k ≤ 1) (fuel : Nat) (pq : P.Q)
    (hq : P.Reachable pq) (hsz : 2 ≤ P.size pq) : mergeLoop P k fuel pq = none := by
  induction fuel generalizing pq with
  | zero =>
    simp only [mergeLoop]
    rw [if_pos (by omega)]
  | succ fuel ih =>
    obtain ⟨ext, rest, f, h1, h2, _, h4⟩ := merge_round_spec hP k pq hq
    have hlen : ext.length + rest.length = P.size pq := by
      rw [← List.length_append, h1.length_eq, hP.size_eq _ hq]
    have hreach : P.Reachable (P.push (extractChildren P k.toNat pq [] 0).1
        (Node.newInternal (extractChildren P k.toNat pq [] 0).2.2
          (extractChildren P k.toNat pq [] 0).2.1)) :=
      PriorityQueue.Reachable.push _ _ (reachable_extractChildren _ pq [] 0 hq)
    have hsz' : P.size (P.push (extractChildren P k.toNat pq [] 0).1
        (Node.newInternal (extractChildren P k.toNat pq [] 0).2.2
          (extractChildren P k.toNat pq [] 0).2.1)) = rest.length + 1 := by
      rw [hP.size_eq _ hreach, h4.length_eq]; rfl
    have hk' : k.toNat ≤ 1 := by omega
    simp only [mergeLoop]
    rw [if_pos (by omega)]
    exact ih _ hreach (by rw [hsz']; omega)

end QueueFacts

/-! ## Trees, leaf paths and the code table -/

section Trees

@[simp] theorem generateCodes_newLeaf (c : Nat) (f : Int) (str : List Char) (codes : Codes) :
    generateCodes (Node.newLeaf c f) str codes = assign codes c str := by
  simp [Node.newLeaf, generateCodes]

@[simp] theorem generateCodes_newInternal (f : Int) (cs : List Node) (str : List Char)
    (codes : Codes) :
    generateCodes (Node.newInternal f cs) str codes = generateCodesFrom cs 0 str codes := by
  simp [Node.newInternal, generateCodes]

@[simp] theorem leafPaths_newLeaf (c : Nat) (f : Int) :
    leafPaths (Node.newLeaf c f) = [([], Node.newLeaf c f)] := by
  simp [Node.newLeaf, leafPaths]

@[simp] theorem leafPaths_newInternal (f : Int) (cs : List Node) :
    leafPaths (Node.newInternal f cs) = leafPathsFrom cs 0 := by
  simp [Node.newInternal, leafPaths]

theorem pathString_cons (i : Nat) (p : List Nat) :
    pathString (i :: p) = Nat.toDigits 10 i ++ pathString p := by
  simp [pathString]

theorem generateCodesFrom_eq (cs : List Node)
    (ih : ∀ c ∈ cs, ∀ (str : List Char) (codes : Codes), generateCodes c str codes =
      (leafPaths c).foldl (fun m pl => assign m pl.2.ch (str ++ pathString pl.1)) codes)
    (i : Nat) (str : List Char) (codes : Codes) :
    generateCodesFrom cs i str codes =
      (leafPathsFrom cs i).foldl (fun m pl => assign m pl.2.ch (str ++ pathString pl.1)) codes := by
  induction cs generalizing i codes with
  | nil => simp [generateCodesFrom, leafPathsFrom]
  | cons c cs ihl =>
    simp only [generateCodesFrom, leafPathsFrom, List.foldl_append, List.foldl_map]
    rw [ihl (fun c' hc' => ih c' (List.mem_cons_of_mem _ hc')), ih c (List.mem_cons_self _ _)]
    simp only [pathString_cons, List.append_assoc]

/-- The map `codes` after `generateCodes` is the map before it with the code of every leaf
assigned, in visiting order. -/
theorem generateCodes_eq {k : Nat} {t : Node} (h : WellFormed k t) :
    ∀ (str : List Char) (codes : Codes), generateCodes t str codes =
      (leafPaths t).foldl (fun m pl => assign m pl.2.ch (str ++ pathString pl.1)) codes := by
  induction h with
  | leaf c f => intro str codes; simp [pathString]
  | internal f cs hlen hcs ih =>
    intro str codes
    simp only [generateCodes_newInternal, leafPaths_newInternal]
    exact generateCodesFrom_eq cs ih 0 str codes

theorem mem_leafPathsFrom {cs : List Node} {i : Nat} {q : List Nat} {l : Node}
    (h : (q, l) ∈ leafPathsFrom cs i) :
    ∃ (j : Nat) (p : List Nat) (c : Node),
      q = (i + j) :: p ∧ cs[j]? = some c ∧ (p, l) ∈ leafPaths c := by
  induction cs generalizing i with
  | nil => simp [leafPathsFrom] at h
  | cons c cs ih =>
    simp only [leafPathsFrom, List.mem_append, List.mem_map, Prod.mk.injEq] at h
    rcases h with ⟨⟨p, l'⟩, hmem, rfl, rfl⟩ | h
    · exact ⟨0, p, c, by simp, by simp, hmem⟩
    · obtain ⟨j, p, c', rfl, hj, hmem⟩ := ih h
      exact ⟨j + 1, p, c', by simp; omega, by simpa using hj, hmem⟩

theorem mem_leafPathsFrom_of {cs : List Node} {i j : Nat} {p : List Nat} {c l : Node}
    (hj : cs[j]? = some c) (h : (p, l) ∈ leafPaths c) :
    ((i + j) :: p, l) ∈ leafPathsFrom cs i := by
  induction cs generalizing i j with
  | nil => simp at hj
  | cons c' cs ih =>
    simp only [leafPathsFrom, List.mem_append, List.mem_map, Prod.mk.injEq]
    cases j with
    | zero =>
      simp only [List.getElem?_cons_zero, Option.some.injEq] at hj
      subst hj
      exact Or.inl ⟨(p, l), h, by simp, rfl⟩
    | succ j =>
      simp only [List.getElem?_cons_succ] at hj
      right
      have := ih (i := i + 1) hj
      have e : i + 1 + j = i + (j + 1) := by omega
      rw [e] at this
      exact this

/-- A pair of `leafPaths` is a path of child indices below `k` that leads from the node to
a leaf made by the leaf constructor. -/
theorem leafPaths_descend {k : Nat} {t : Node} (h : WellFormed k t) :
    ∀ (p : List Nat) (l : Node), (p, l) ∈ leafPaths t →
      t.descend p = some l ∧ (∃ c f, l = Node.newLeaf c f) ∧ ∀ i ∈ p, i < k := by
  induction h with
  | leaf c f =>
    intro p l hm
    simp only [leafPaths_newLeaf, List.mem_singleton, Prod.mk.injEq] at hm
    obtain ⟨rfl, rfl⟩ := hm
    exact ⟨rfl, ⟨c, f, rfl⟩, by simp⟩
  | internal f cs hlen hcs ih =>
    intro p l hm
    rw [leafPaths_newInternal] at hm
    obtain ⟨j, p', c, rfl, hj, hmem⟩ := mem_leafPathsFrom hm
    have hc : c ∈ cs := List.getElem?_mem hj
    obtain ⟨h1, h2, h3⟩ := ih c hc p' l hmem
    have hjlt : j < cs.length := by
      by_contra hge
      rw [List.getElem?_eq_none (by omega)] at hj
      exact absurd hj (by simp)
    refine ⟨?_, h2, ?_⟩
    · simp only [Node.descend, Node.children_newInternal, Nat.zero_add, hj]
      exact h1
    · intro i hi
      rcases List.mem_cons.mp hi with rfl | hi
      · omega
      · exact h3 i hi

/-- Following child indices from a leaf leads nowhere but to the leaf itself. -/
theorem descend_newLeaf {c : Nat} {f : Int} {p : List Nat} {l : Node}
    (h : (Node.newLeaf c f).descend p = some l) : p = [] := by
  cases p with
  | nil => rfl
  | cons i p => simp [Node.descend] at h

theorem descend_append {t : Node} {p q : List Nat} {m : Node} (h : t.descend p = some m) :
    t.descend (p ++ q) = m.descend q := by
  induction p generalizing t with
  | nil =>
    simp only [Node.descend, Option.some.injEq] at h
    subst h; rfl
  | cons i p ih =>
    simp only [Node.descend, List.cons_append] at h ⊢
    cases hc : t.children[i]? with
    | none => rw [hc] at h; exact absurd h (by simp)
    | some c =>
      rw [hc] at h
      exact ih h

end Trees

/-! ## Padding -/

section Padding

variable {P : PriorityQueue}

/-- On a queue of at least one node and for a radix of at least 2, `addDummyNodes` pushes
`paddingCount k n` dummy leaves. -/
theorem addDummyNodes_eq (k : Nat) (hk : 2 ≤ k) (pq : P.Q) (hn : 1 ≤ P.size pq) :
    addDummyNodes P k pq = pushDummies P (paddingCount k (P.size pq)) pq := by
  unfold addDummyNodes paddingCount
  by_cases h2 : k = 2
  · subst h2
    simp [Nat.mod_one, pushDummies]
  · have hk3 : ¬ ((k : Int) ≤ 2) := by omega
    rw [if_neg hk3]
    have e1 : ((P.size pq : Nat) : Int) - 1 = ((P.size pq - 1 : Nat) : Int) := by omega
    have e2 : (k : Int) - 1 = ((k - 1 : Nat) : Int) := by omega
    simp only [e1, e2, ← Int.ofNat_tmod]
    by_cases hr : (P.size pq - 1) % (k - 1) = 0
    · simp [hr, pushDummies]
    · have hr' : ¬ (((P.size pq - 1) % (k - 1) : Nat) : Int) = 0 := by
        intro h; apply hr; exact_mod_cast h
      simp only [ne_eq, hr', not_false_eq_true, if_true, hr, if_false]
      congr 1
      have hlt : (P.size pq - 1) % (k - 1) < k - 1 := Nat.mod_lt _ (by omega)
      omega

theorem paddingCount_invariant (k n : Nat) (hk : 2 ≤ k) (hn : 1 ≤ n) :
    (n + paddingCount k n - 1) % (k - 1) = 0 := by
  unfold paddingCount
  by_cases hr : (n - 1) % (k - 1) = 0
  · simp [hr]
  · simp only [hr, if_false]
    have hlt : (n - 1) % (k - 1) < k - 1 := Nat.mod_lt _ (by omega)
    have e : n + (k - 1 - (n - 1) % (k - 1)) - 1 = (n - 1) - (n - 1) % (k - 1) + (k - 1) := by
      have := Nat.mod_le (n - 1) (k - 1)
      omega
    rw [e, Nat.add_mod_right]
    have h2 := Nat.div_add_mod (n - 1) (k - 1)
    have e2 : n - 1 - (n - 1) % (k - 1) = (k - 1) * ((n - 1) / (k - 1)) := by omega
    rw [e2, Nat.mul_mod_right]

end Padding

/-! ## The result of `buildTree` -/

section BuildTree

variable {P : PriorityQueue}

theorem find?_assign {β : Type} (m : List (Nat × β)) (key : Nat) (v : β) (s : Nat) :
    find? (assign m key v) s = if key = s then some v else find? m s := by
  induction m with
  | nil => simp [assign, find?]
  | cons e m ih =>
    obtain ⟨k', v'⟩ := e
    by_cases h1 : k' = key
    · subst h1
      by_cases h2 : k' = s <;> simp [assign, find?, h2]
    · by_cases h2 : key = s
      · subst h2
        simp [assign, find?, h1, ih]
      · by_cases h3 : k' = s
        · subst h3
          simp [assign, find?, h1, h2]
        · simp [assign, find?, h1, h2, h3, ih]

/-- An entry found after a run of assignments is one of the assigned ones or was there
before. -/
theorem find?_foldl_assign {α β : Type} (key : α → Nat) (val : α → β) (L : List α)
    (m : List (Nat × β)) (s : Nat) (c : β)
    (h : find? (L.foldl (fun m e => assign m (key e) (val e)) m) s = some c) :
    (∃ e ∈ L, key e = s ∧ val e = c) ∨ ((∀ e ∈ L, key e ≠ s) ∧ find? m s = some c) := by
  induction L generalizing m with
  | nil => exact Or.inr ⟨by simp, h⟩
  | cons e L ih =>
    simp only [List.foldl_cons] at h
    rcases ih _ h with ⟨e', he', h1, h2⟩ | ⟨h1, h2⟩
    · exact Or.inl ⟨e', List.mem_cons_of_mem _ he', h1, h2⟩
    · rw [find?_assign] at h2
      by_cases hk : key e = s
      · simp only [hk, if_true, Option.some.injEq] at h2
        exact Or.inl ⟨e, List.mem_cons_self _ _, hk, h2⟩
      · simp only [hk, if_false] at h2
        refine Or.inr ⟨?_, h2⟩
        intro e' he'
        rcases List.mem_cons.mp he' with rfl | he'
        · exact hk
        · exact h1 e' he'

/-- A key that is assigned is found afterwards. -/
theorem find?_foldl_assign_isSome {α β : Type} (key : α → Nat) (val : α → β) (L : List α)
    (m : List (Nat × β)) (s : Nat) (h : (∃ e ∈ L, key e = s) ∨ (find? m s).isSome = true) :
    (find? (L.foldl (fun m e => assign m (key e) (val e)) m) s).isSome = true := by
  induction L generalizing m with
  | nil =>
    rcases h with ⟨e, he, _⟩ | h
    · simp at he
    · exact h
  | cons e L ih =>
    simp only [List.foldl_cons]
    apply ih
    rcases h with ⟨e', he', h1⟩ | h
    · rcases List.mem_cons.mp he' with rfl | he'
      · right
        rw [find?_assign, if_pos h1]; rfl
      · exact Or.inl ⟨e', he', h1⟩
    · right
      rw [find?_assign]
      split
      · rfl
      · exact h

theorem addDummyNodes_exists (k : Int) (pq : P.Q) :
    ∃ p, addDummyNodes P k pq = pushDummies P p pq := by
  unfold addDummyNodes
  by_cases h1 : k ≤ 2
  · exact ⟨0, by simp [h1, pushDummies]⟩
  · by_cases h2 : Int.tmod ((P.size pq : Int) - 1) (k - 1) = 0
    · exact ⟨0, by simp [h1, h2, pushDummies]⟩
    · exact ⟨(k - 1 - Int.tmod ((P.size pq : Int) - 1) (k - 1)).toNat,
        by simp only [h1, if_false, ne_eq, h2, not_false_eq_true, if_true]⟩

theorem leavesOf_newInternal_aux (cs : List Node) (i : Nat) :
    (leafPathsFrom cs i).map Prod.snd = leavesOf cs := by
  induction cs generalizing i with
  | nil => simp [leafPathsFrom, leavesOf]
  | cons c cs ih =>
    simp only [leafPathsFrom, List.map_append, List.map_map, ih, leavesOf, List.flatMap_cons]
    congr 1

theorem leavesOf_cons_newInternal (f : Int) (ext rest : List Node) :
    leavesOf (Node.newInternal f ext :: rest) = leavesOf (ext ++ rest) := by
  simp only [leavesOf, List.flatMap_cons, leafPaths_newInternal, List.flatMap_append]
  congr 1
  exact leavesOf_newInternal_aux ext 0

theorem leavesOf_perm {l l' : List Node} (h : l.Perm l') : (leavesOf l).Perm (leavesOf l') :=
  List.Perm.flatMap_right _ h

theorem leavesOf_initialNodes (freq : List (Nat × Int)) (p : Nat) :
    leavesOf (initialNodes freq p) = initialNodes freq p := by
  have h : ∀ l : List Node, (∀ x ∈ l, ∃ c f, x = Node.newLeaf c f) → leavesOf l = l := by
    intro l
    induction l with
    | nil => intro _; rfl
    | cons x l ih =>
      intro hx
      obtain ⟨c, f, rfl⟩ := hx _ (List.mem_cons_self _ _)
      have := ih (fun y hy => hx y (List.mem_cons_of_mem _ hy))
      simp only [leavesOf, List.flatMap_cons, leafPaths_newLeaf, List.map_cons, List.map_nil,
        List.singleton_append] at this ⊢
      rw [this]
  apply h
  intro x hx
  simp only [initialNodes, List.mem_append, List.mem_map, List.mem_replicate] at hx
  rcases hx with ⟨kv, _, rfl⟩ | ⟨_, rfl⟩
  · exact ⟨_, _, rfl⟩
  · exact ⟨_, _, rfl⟩

/-- The queue that the merge loop of `buildTree` starts from. -/
theorem elems_start (hP : P.Lawful) (k : Int) (freq : List (Nat × Int)) :
    ∃ p, addDummyNodes P k (pushLeaves P freq P.init)
        = pushDummies P p (pushLeaves P freq P.init) ∧
      (P.elems (addDummyNodes P k (pushLeaves P freq P.init))).Perm (initialNodes freq p) ∧
      (2 ≤ k → 1 ≤ freq.length → p = paddingCount k.toNat freq.length) := by
  obtain ⟨p, hp⟩ := addDummyNodes_exists (P := P) k (pushLeaves P freq P.init)
  have hperm : (P.elems (addDummyNodes P k (pushLeaves P freq P.init))).Perm
      (initialNodes freq p) := by
    rw [hp]
    refine (elems_pushDummies hP _ _
      (reachable_pushLeaves freq P.init PriorityQueue.Reachable.init)).trans ?_
    refine List.Perm.append_right _ ?_
    have h := elems_pushLeaves hP freq P.init PriorityQueue.Reachable.init
    rw [hP.elems_init, List.append_nil] at h
    exact h
  by_cases hc : 2 ≤ k ∧ 1 ≤ freq.length
  · obtain ⟨hk, hn⟩ := hc
    have hsz : P.size (pushLeaves P freq P.init) = freq.length := by
      rw [size_pushLeaves hP _ _ PriorityQueue.Reachable.init, size_init hP]; rfl
    have hkn : k = ((k.toNat : Nat) : Int) := by omega
    have e := addDummyNodes_eq (P := P) k.toNat (by omega) (pushLeaves P freq P.init) (by omega)
    rw [← hkn, hsz] at e
    refine ⟨paddingCount k.toNat freq.length, e, ?_, fun _ _ => rfl⟩
    rw [e]
    refine (elems_pushDummies hP _ _
      (reachable_pushLeaves freq P.init PriorityQueue.Reachable.init)).trans ?_
    refine List.Perm.append_right _ ?_
    have h := elems_pushLeaves hP freq P.init PriorityQueue.Reachable.init
    rw [hP.elems_init, List.append_nil] at h
    exact h
  · exact ⟨p, hp, hperm, fun h1 h2 => absurd ⟨h1, h2⟩ hc⟩

/-- For a radix of at least 2, `buildTree` returns a tree whenever its queue is not empty
when the merge loop starts, and every invariant of the merge rounds that holds of the
initial nodes holds of the root alone. -/
theorem buildTree_spec (hP : P.Lawful) (k : Int) (hk : 2 ≤ k) (freq : List (Nat × Int)) :
    ∃ p : Nat, (1 ≤ freq.length → p = paddingCount k.toNat freq.length) ∧
      ((initialNodes freq p = [] ∧ buildTree P k freq = Outcome.undefined) ∨
       (initialNodes freq p ≠ [] ∧ ∃ root, buildTree P k freq = Outcome.ok root ∧
          ∀ I : List Node → Prop, (∀ l l', l.Perm l' → I l → I l') →
            (∀ (ext rest : List Node) (f : Int), 2 ≤ (ext ++ rest).length →
              ext.length = min k.toNat (ext ++ rest).length →
              I (ext ++ rest) → I (Node.newInternal f ext :: rest)) →
            I (initialNodes freq p) → I [root])) := by
  obtain ⟨p, _, hperm, hpc⟩ := elems_start hP k freq
  refine ⟨p, hpc hk, ?_⟩
  have hreach : P.Reachable (addDummyNodes P k (pushLeaves P freq P.init)) :=
    reachable_addDummyNodes k _ (reachable_pushLeaves freq P.init PriorityQueue.Reachable.init)
  have hsz : P.size (addDummyNodes P k (pushLeaves P freq P.init)) = (initialNodes freq p).length := by
    rw [hP.size_eq _ hreach, hperm.length_eq]
  obtain ⟨pq', hrun, hle, hone⟩ := mergeLoop_terminates hP k hk
    (P.size (addDummyNodes P k (pushLeaves P freq P.init)))
    (addDummyNodes P k (pushLeaves P freq P.init)) hreach (by omega)
  have hreach' : P.Reachable pq' := reachable_mergeLoop k _ _ pq' hreach hrun
  by_cases hnil : initialNodes freq p = []
  · left
    refine ⟨hnil, ?_⟩
    have hz : P.size (addDummyNodes P k (pushLeaves P freq P.init)) = 0 := by
      rw [hsz, hnil]; rfl
    have hpq : pq' = addDummyNodes P k (pushLeaves P freq P.init) := by
      rw [hz] at hrun
      simp only [mergeLoop, hz] at hrun
      simpa using hrun.symm
    have hel : P.elems pq' = [] := by
      rw [hpq]
      rw [hnil] at hperm
      exact List.Perm.eq_nil hperm
    simp only [buildTree, hrun, hP.top_nil pq' hreach' hel]
  · right
    refine ⟨hnil, ?_⟩
    have hpos : 1 ≤ P.size (addDummyNodes P k (pushLeaves P freq P.init)) := by
      rw [hsz]
      cases h : initialNodes freq p with
      | nil => exact absurd h hnil
      | cons _ _ => simp
    have h1 : P.size pq' = 1 := hone hpos
    have hne : P.elems pq' ≠ [] := by
      intro h
      rw [hP.size_eq _ hreach', h] at h1
      simp at h1
    obtain ⟨root, htop, hmem, _⟩ := hP.top_cons pq' hreach' hne
    have hel : P.elems pq' = [root] := by
      rw [hP.size_eq _ hreach'] at h1
      match hq : P.elems pq', h1 with
      | [x], _ =>
        rw [hq] at hmem
        simp only [List.mem_singleton] at hmem
        rw [hmem]
    refine ⟨root, ?_, ?_⟩
    · simp only [buildTree, hrun, htop]
    · intro I hI hstep h0
      rw [← hel]
      exact mergeLoop_invariant hP k I hI hstep _ _ _ hreach (hI _ _ hperm.symm h0) hrun

end BuildTree

/-! ## The code table of a built tree -/

section CodeTable

variable {P : PriorityQueue}

/-- The tree that `buildTree` returns is made by the two constructors, with at most `k`
children per internal node, and its leaves are the initial nodes. -/
theorem buildTree_root (hP : P.Lawful) (k : Int) (hk : 2 ≤ k) (freq : List (Nat × Int))
    (root : Node) (h : buildTree P k freq = Outcome.ok root) :
    WellFormed k.toNat root ∧
      ∃ p, (1 ≤ freq.length → p = paddingCount k.toNat freq.length) ∧
        (leavesOf [root]).Perm (initialNodes freq p) := by
  obtain ⟨p, hp, hcase⟩ := buildTree_spec hP k hk freq
  rcases hcase with ⟨_, hu⟩ | ⟨_, root', hok, hI⟩
  · rw [hu] at h; exact absurd h (by simp)
  · rw [hok] at h
    simp only [Outcome.ok.injEq] at h
    subst h
    refine ⟨?_, p, hp, ?_⟩
    · have := hI (fun l => ∀ x ∈ l, WellFormed k.toNat x)
        (fun l l' hperm hl x hx => hl x (hperm.symm.subset hx))
        (by
          intro ext rest f _ hlen hl x hx
          rcases List.mem_cons.mp hx with rfl | hx
          · refine WellFormed.internal f ext ?_ ?_
            · rw [hlen]; exact Nat.min_le_left _ _
            · intro c hc
              exact hl c (List.mem_append_left _ hc)
          · exact hl x (List.mem_append_right _ hx))
        (by
          intro x hx
          simp only [initialNodes, List.mem_append, List.mem_map, List.mem_replicate] at hx
          rcases hx with ⟨kv, _, rfl⟩ | ⟨_, rfl⟩
          · exact WellFormed.leaf _ _
          · exact WellFormed.leaf _ _)
      exact this root' (List.mem_singleton_self _)
    · exact hI (fun l => (leavesOf l).Perm (initialNodes freq p))
        (fun l l' hperm hl => (leavesOf_perm hperm.symm).trans hl)
        (by
          intro ext rest f _ _ hl
          rw [leavesOf_cons_newInternal]
          exact hl)
        (by
          show (leavesOf (initialNodes freq p)).Perm (initialNodes freq p)
          rw [leavesOf_initialNodes])

/-- An entry of the code table of a tree is the path string of one of its leaves. -/
theorem codes_entry {k : Nat} {root : Node} (hwf : WellFormed k root) (s : Nat) (c : List Char)
    (h : find? (generateCodes root [] []) s = some c) :
    ∃ p l, (p, l) ∈ leafPaths root ∧ l.ch = s ∧ c = pathString p := by
  rw [generateCodes_eq hwf] at h
  rcases find?_foldl_assign (fun pl : List Nat × Node => pl.2.ch)
      (fun pl => [] ++ pathString pl.1) (leafPaths root) [] s c h with ⟨e, he, h1, h2⟩ | ⟨_, h2⟩
  · exact ⟨e.1, e.2, he, h1, by simpa using h2.symm⟩
  · simp [find?] at h2

theorem toDigits_lt_ten : ∀ i, i < 10 → Nat.toDigits 10 i = [Nat.digitChar i] := by
  decide

theorem digitChar_injective : ∀ i, i < 10 → ∀ j, j < 10 →
    Nat.digitChar i = Nat.digitChar j → i = j := by
  decide

/-- While every child index is a single decimal digit, a path string is a prefix of another
only if the path is a prefix of the other path. -/
theorem pathString_prefix {p1 p2 : List Nat} (h1 : ∀ i ∈ p1, i < 10) (h2 : ∀ i ∈ p2, i < 10)
    (h : pathString p1 <+: pathString p2) : p1 <+: p2 := by
  induction p1 generalizing p2 with
  | nil => exact List.nil_prefix
  | cons i p1 ih =>
    have hi : i < 10 := h1 i (List.mem_cons_self _ _)
    cases p2 with
    | nil =>
      rw [pathString_cons, toDigits_lt_ten i hi] at h
      simp [pathString] at h
    | cons j p2 =>
      have hj : j < 10 := h2 j (List.mem_cons_self _ _)
      rw [pathString_cons, pathString_cons, toDigits_lt_ten i hi, toDigits_lt_ten j hj] at h
      simp only [List.singleton_append, List.cons_prefix_cons] at h
      obtain ⟨hd, ht⟩ := h
      have hij : i = j := digitChar_injective i hi j hj hd
      subst hij
      rw [List.cons_prefix_cons]
      exact ⟨rfl, ih (fun x hx => h1 x (List.mem_cons_of_mem _ hx))
        (fun x hx => h2 x (List.mem_cons_of_mem _ hx)) ht⟩

/-- In a tree with at most ten children per node, two leaves whose path strings are in
prefix relation are the same leaf. -/
theorem leaf_of_prefix {k : Nat} (hk : k ≤ 10) {root : Node} (hwf : WellFormed k root)
    {p1 p2 : List Nat} {l1 l2 : Node} (h1 : (p1, l1) ∈ leafPaths root)
    (h2 : (p2, l2) ∈ leafPaths root) (h : pathString p1 <+: pathString p2) :
    p1 = p2 ∧ l1 = l2 := by
  obtain ⟨d1, ⟨c1, f1, rfl⟩, b1⟩ := leafPaths_descend hwf p1 l1 h1
  obtain ⟨d2, _, b2⟩ := leafPaths_descend hwf p2 l2 h2
  obtain ⟨q, rfl⟩ := pathString_prefix (fun i hi => lt_of_lt_of_le (b1 i hi) hk)
    (fun i hi => lt_of_lt_of_le (b2 i hi) hk) h
  rw [descend_append d1] at d2
  have hq := descend_newLeaf d2
  subst hq
  simp only [Node.descend, Option.some.injEq] at d2
  exact ⟨by simp, d2⟩

theorem unique_of_count_one {α : Type} (g : α → Nat) (a : Nat) (l : List α)
    (h : (l.map g).count a = 1) {e1 e2 : α} (h1 : e1 ∈ l) (h2 : e2 ∈ l) (g1 : g e1 = a)
    (g2 : g e2 = a) : e1 = e2 := by
  induction l with
  | nil => simp at h1
  | cons x l ih =>
    simp only [List.map_cons, List.count_cons] at h
    by_cases hx : g x = a
    · have h0 : (l.map g).count a = 0 := by simpa [hx] using h
      have hnone : ∀ e ∈ l, g e ≠ a := by
        intro e he hge
        have : a ∈ l.map g := List.mem_map.mpr ⟨e, he, hge⟩
        exact absurd (List.count_eq_zero.mp h0) (not_not.mpr this)
      rcases List.mem_cons.mp h1 with rfl | h1
      · rcases List.mem_cons.mp h2 with rfl | h2
        · rfl
        · exact absurd g2 (hnone _ h2)
      · exact absurd g1 (hnone _ h1)
    · have h1' : e1 ∈ l := by
        rcases List.mem_cons.mp h1 with rfl | h1
        · exact absurd g1 hx
        · exact h1
      have h2' : e2 ∈ l := by
        rcases List.mem_cons.mp h2 with rfl | h2
        · exact absurd g2 hx
        · exact h2
      have hne : ¬ (g x == a) = true := by simpa using hx
      exact ih (by simpa [hne] using h) h1' h2'

/-- The leaves of a tree are the second components of its leaf paths. -/
theorem leavesOf_singleton (root : Node) :
    leavesOf [root] = (leafPaths root).map Prod.snd := by
  simp [leavesOf]

/-- The symbols at the leaves of the tree that `buildTree` returns: the keys of the table
and one `0` per padding leaf. -/
theorem leaf_symbols (hP : P.Lawful) (k : Int) (hk : 2 ≤ k) (freq : List (Nat × Int))
    (root : Node) (h : buildTree P k freq = Outcome.ok root) :
    ∃ p, (1 ≤ freq.length → p = paddingCount k.toNat freq.length) ∧
      (leavesOf [root]).Perm (initialNodes freq p) ∧
      ((leafPaths root).map (fun pl => pl.2.ch)).Perm (freq.map Prod.fst ++ List.replicate p 0) := by
  obtain ⟨_, p, hp, hperm⟩ := buildTree_root hP k hk freq root h
  refine ⟨p, hp, hperm, ?_⟩
  have h1 := hperm.map Node.ch
  rw [leavesOf_singleton, List.map_map] at h1
  have e : (initialNodes freq p).map Node.ch = freq.map Prod.fst ++ List.replicate p 0 := by
    simp [initialNodes, Function.comp_def]
  rw [e] at h1
  exact h1

/-- The code table of the tree that `buildTree` returns for a table of at least two entries
with unique keys: its keys are the keys of the table and, when padding leaves were added,
the byte 0; and an entry whose symbol occurs at one leaf only is mapped to the path string
of the leaf made for it. -/
theorem code_table_spec (hP : P.Lawful) (k : Int) (hk : 2 ≤ k)
    (freq : List (Nat × Int)) (hn : 2 ≤ freq.length) (hnodup : (freq.map Prod.fst).Nodup) :
    ∃ root, buildTree P k freq = Outcome.ok root ∧
      (∀ s, (find? (generateCodes root [] []) s).isSome = true ↔
        (s ∈ freq.map Prod.fst ∨ (s = 0 ∧ 0 < paddingCount k.toNat freq.length))) ∧
      (∀ s f, (s, f) ∈ freq → (s ≠ 0 ∨ paddingCount k.toNat freq.length = 0) →
        ∃ p, (p, Node.newLeaf s f) ∈ leafPaths root ∧
          find? (generateCodes root [] []) s = some (pathString p)) := by
  obtain ⟨p', _, hcase⟩ := buildTree_spec hP k hk freq
  rcases hcase with ⟨hnil, _⟩ | ⟨_, root, hok, _⟩
  · cases freq with
    | nil => simp at hn
    | cons kv rest => simp [initialNodes] at hnil
  refine ⟨root, hok, ?_⟩
  obtain ⟨hwf, _⟩ := buildTree_root hP k hk freq root hok
  obtain ⟨p, hp, hleaves, hsyms⟩ := leaf_symbols hP k hk freq root hok
  have hp' : p = paddingCount k.toNat freq.length := hp (by omega)
  subst hp'
  have hcodes := generateCodes_eq hwf [] []
  have hmemleaf : ∀ x, x ∈ initialNodes freq (paddingCount k.toNat freq.length) →
      ∃ q, (q, x) ∈ leafPaths root := by
    intro x hx
    have := hleaves.symm.subset hx
    rw [leavesOf_singleton] at this
    obtain ⟨⟨q, x'⟩, hq, rfl⟩ := List.mem_map.mp this
    exact ⟨q, hq⟩
  constructor
  · intro s
    constructor
    · intro hs
      obtain ⟨c, hc⟩ := Option.isSome_iff_exists.mp hs
      obtain ⟨q, l, hm, hl, _⟩ := codes_entry hwf s c hc
      have : s ∈ (leafPaths root).map (fun pl => pl.2.ch) :=
        List.mem_map.mpr ⟨(q, l), hm, hl⟩
      have := hsyms.subset this
      simp only [List.mem_append, List.mem_replicate] at this
      rcases this with h1 | ⟨h1, h2⟩
      · exact Or.inl h1
      · exact Or.inr ⟨h2, by omega⟩
    · intro hs
      have : s ∈ (leafPaths root).map (fun pl => pl.2.ch) := by
        apply hsyms.symm.subset
        simp only [List.mem_append, List.mem_replicate]
        rcases hs with h1 | ⟨h1, h2⟩
        · exact Or.inl h1
        · exact Or.inr ⟨by omega, h1⟩
      obtain ⟨e, he, hes⟩ := List.mem_map.mp this
      rw [hcodes]
      exact find?_foldl_assign_isSome _ _ _ _ _ (Or.inl ⟨e, he, hes⟩)
  · intro s f hsf hcond
    have hx : Node.newLeaf s f ∈ initialNodes freq (paddingCount k.toNat freq.length) := by
      simp only [initialNodes, List.mem_append, List.mem_map]
      exact Or.inl ⟨(s, f), hsf, rfl⟩
    obtain ⟨q, hq⟩ := hmemleaf _ hx
    refine ⟨q, hq, ?_⟩
    have hcount : ((leafPaths root).map (fun pl => pl.2.ch)).count s = 1 := by
      rw [hsyms.count_eq, List.count_append]
      have h1 : (freq.map Prod.fst).count s = 1 :=
        List.count_eq_one_of_mem hnodup (List.mem_map.mpr ⟨(s, f), hsf, rfl⟩)
      have h2 : (List.replicate (paddingCount k.toNat freq.length) 0).count s = 0 := by
        rw [List.count_replicate]
        rcases hcond with h | h
        · have : ¬ ((0 : Nat) == s) = true := by simpa using (Ne.symm h)
          simp [this]
        · simp [h]
      omega
    have hsome : (find? (generateCodes root [] []) s).isSome = true := by
      rw [hcodes]
      exact find?_foldl_assign_isSome _ _ _ _ _ (Or.inl ⟨(q, Node.newLeaf s f), hq, rfl⟩)
    obtain ⟨c, hc⟩ := Option.isSome_iff_exists.mp hsome
    obtain ⟨q', l', hm', hl', rfl⟩ := codes_entry hwf s c hc
    have := unique_of_count_one (fun pl : List Nat × Node => pl.2.ch) s (leafPaths root) hcount
      hm' hq hl' rfl
    simp only [Prod.mk.injEq] at this
    rw [hc, this.1]

end CodeTable

/-! ## The tree does not depend on the queue or on the traversal when there is no tie -/

section Determinism

variable {P1 P2 : PriorityQueue}

theorem addDummyNodes_dummyCount {P : PriorityQueue} (k : Int) (pq : P.Q) :
    addDummyNodes P k pq = pushDummies P (dummyCount k (P.size pq)) pq := by
  unfold addDummyNodes dummyCount
  by_cases h1 : k ≤ 2
  · simp [h1, pushDummies]
  · by_cases h2 : Int.tmod ((P.size pq : Int) - 1) (k - 1) = 0
    · simp [h1, h2, pushDummies]
    · simp only [h1, if_false, ne_eq, h2, not_false_eq_true, if_true]

theorem dummyCount_eq (k : Int) (hk : 2 ≤ k) (n : Nat) (hn : 1 ≤ n) :
    dummyCount k n = paddingCount k.toNat n := by
  unfold dummyCount paddingCount
  by_cases h2 : k = 2
  · subst h2
    simp [Nat.mod_one]
  · have hk3 : ¬ (k ≤ 2) := by omega
    rw [if_neg hk3]
    have e1 : (n : Int) - 1 = ((n - 1 : Nat) : Int) := by omega
    have e2 : k - 1 = ((k.toNat - 1 : Nat) : Int) := by omega
    simp only [e1, e2, ← Int.ofNat_tmod]
    by_cases hr : (n - 1) % (k.toNat - 1) = 0
    · simp [hr]
    · have hr' : ¬ (((n - 1) % (k.toNat - 1) : Nat) : Int) = 0 := by
        intro h; apply hr; exact_mod_cast h
      simp only [ne_eq, hr', not_false_eq_true, if_true, hr, if_false]
      have hlt : (n - 1) % (k.toNat - 1) < k.toNat - 1 := Nat.mod_lt _ (by omega)
      omega

theorem foldl_minChar (cs : List Node) (m0 : Nat) :
    (cs.foldl (fun m child => if child.minChar < m then child.minChar else m) m0 = m0 ∨
      cs.foldl (fun m child => if child.minChar < m then child.minChar else m) m0
        ∈ cs.map Node.minChar) ∧
      cs.foldl (fun m child => if child.minChar < m then child.minChar else m) m0 ≤ m0 ∧
      ∀ c ∈ cs, cs.foldl (fun m child => if child.minChar < m then child.minChar else m) m0
        ≤ c.minChar := by
  induction cs generalizing m0 with
  | nil => simp
  | cons c cs ih =>
    simp only [List.foldl_cons, List.map_cons, List.mem_cons]
    obtain ⟨h1, h2, h3⟩ := ih (if c.minChar < m0 then c.minChar else m0)
    refine ⟨?_, ?_, ?_⟩
    · rcases h1 with h1 | h1
      · rw [h1]
        split
        · right; left; rfl
        · left; rfl
      · right; right; exact h1
    · refine le_trans h2 ?_
      split <;> omega
    · intro x hx
      rcases hx with rfl | hx
      · refine le_trans h2 ?_
        split <;> omega
      · exact h3 x hx

/-- The tie-break key of a new internal node is the key of one of its children. -/
theorem minChar_newInternal_mem (f : Int) (cs : List Node) (hne : cs ≠ [])
    (hb : ∀ c ∈ cs, c.minChar ≤ 255) :
    (Node.newInternal f cs).minChar ∈ cs.map Node.minChar := by
  show cs.foldl (fun m child => if child.minChar < m then child.minChar else m) 255
    ∈ cs.map Node.minChar
  obtain ⟨h1, _, h3⟩ := foldl_minChar cs 255
  rcases h1 with h1 | h1
  · cases cs with
    | nil => exact absurd rfl hne
    | cons c cs =>
      have hc := h3 c (List.mem_cons_self _ _)
      have hc' := hb c (List.mem_cons_self _ _)
      rw [h1] at hc ⊢
      have : c.minChar = 255 := by omega
      rw [← this]
      exact List.mem_map.mpr ⟨c, List.mem_cons_self _ _, rfl⟩
  · exact h1

theorem TieFree.perm {l l' : List Node} (hperm : l.Perm l') (h : TieFree l) : TieFree l' :=
  ⟨(hperm.map Node.minChar).nodup_iff.mp h.1, fun x hx => h.2 x (hperm.symm.subset hx)⟩

theorem TieFree.tail {x : Node} {l : List Node} (h : TieFree (x :: l)) : TieFree l := by
  refine ⟨?_, fun y hy => h.2 y (List.mem_cons_of_mem _ hy)⟩
  have := h.1
  simp only [List.map_cons, List.nodup_cons] at this
  exact this.2

/-- A merge round keeps a tie-free queue tie-free. -/
theorem TieFree.merge {ext rest : List Node} (f : Int) (hne : ext ≠ [])
    (h : TieFree (ext ++ rest)) : TieFree (Node.newInternal f ext :: rest) := by
  have hmem := minChar_newInternal_mem f ext hne
    (fun c hc => h.2 c (List.mem_append_left _ hc))
  have hnd := h.1
  simp only [List.map_append] at hnd
  have hdis := List.nodup_append.mp hnd
  refine ⟨?_, ?_⟩
  · simp only [List.map_cons, List.nodup_cons]
    exact ⟨fun hin => hdis.2.2 hmem hin, hdis.2.1⟩
  · intro x hx
    rcases List.mem_cons.mp hx with rfl | hx
    · obtain ⟨c, hc, hcm⟩ := List.mem_map.mp hmem
      rw [← hcm]
      exact h.2 c (List.mem_append_left _ hc)
    · exact h.2 x (List.mem_append_right _ hx)

/-- On a tie-free queue the top is the same for every lawful implementation and every
arrangement of the stored nodes. -/
theorem top_congr (h1 : P1.Lawful) (h2 : P2.Lawful) (q1 : P1.Q) (q2 : P2.Q)
    (r1 : P1.Reachable q1) (r2 : P2.Reachable q2)
    (hperm : (P1.elems q1).Perm (P2.elems q2)) (htf : TieFree (P1.elems q1)) :
    P1.top q1 = P2.top q2 := by
  by_cases hnil : P1.elems q1 = []
  · have hnil2 : P2.elems q2 = [] := by
      rw [hnil] at hperm
      exact List.Perm.eq_nil hperm.symm
    rw [h1.top_nil q1 r1 hnil, h2.top_nil q2 r2 hnil2]
  · have hnil2 : P2.elems q2 ≠ [] := by
      intro h
      rw [h] at hperm
      exact hnil (List.Perm.eq_nil hperm)
    obtain ⟨x, hx, hxm, hxmin⟩ := h1.top_cons q1 r1 hnil
    obtain ⟨y, hy, hym, hymin⟩ := h2.top_cons q2 r2 hnil2
    have hym' : y ∈ P1.elems q1 := hperm.symm.subset hym
    have hxm' : x ∈ P2.elems q2 := hperm.subset hxm
    have hkey : x.minChar = y.minChar := CompareNode_tie (hxmin y hym') (hymin x hxm')
    have hxy : x = y := List.inj_on_of_nodup_map htf.1 hxm hym' hkey
    rw [hx, hy, hxy]

theorem extractChildren_congr (h1 : P1.Lawful) (h2 : P2.Lawful) (i : Nat) (q1 : P1.Q)
    (q2 : P2.Q) (children : List Node) (sumFreq : Int)
    (r1 : P1.Reachable q1) (r2 : P2.Reachable q2)
    (hperm : (P1.elems q1).Perm (P2.elems q2)) (htf : TieFree (P1.elems q1)) :
    (extractChildren P1 i q1 children sumFreq).2 = (extractChildren P2 i q2 children sumFreq).2 ∧
      (P1.elems (extractChildren P1 i q1 children sumFreq).1).Perm
        (P2.elems (extractChildren P2 i q2 children sumFreq).1) := by
  induction i generalizing q1 q2 children sumFreq with
  | zero => exact ⟨rfl, hperm⟩
  | succ i ih =>
    have hsz : P1.size q1 = P2.size q2 := by
      rw [h1.size_eq _ r1, h2.size_eq _ r2, hperm.length_eq]
    have htop := top_congr h1 h2 q1 q2 r1 r2 hperm htf
    by_cases hs : P1.size q1 = 0
    · have hs2 : P2.size q2 = 0 := by omega
      simp only [extractChildren, hs, hs2, if_true]
      exact ⟨trivial, hperm⟩
    · have hs2 : ¬ P2.size q2 = 0 := by omega
      simp only [extractChildren, hs, hs2, if_false]
      cases ht : P1.top q1 with
      | none =>
        rw [ht] at htop
        rw [← htop]
        exact ⟨rfl, hperm⟩
      | some x =>
        rw [ht] at htop
        rw [← htop]
        have p1 := h1.elems_pop q1 x r1 ht
        have p2 := h2.elems_pop q2 x r2 htop.symm
        have hp : (P1.elems (P1.pop q1)).Perm (P2.elems (P2.pop q2)) :=
          List.Perm.cons_inv ((p1.trans hperm).trans p2.symm)
        exact ih (P1.pop q1) (P2.pop q2) _ _ (PriorityQueue.Reachable.pop q1 r1)
          (PriorityQueue.Reachable.pop q2 r2) hp (TieFree.tail (TieFree.perm p1.symm htf))

/-- On tie-free queues holding the same nodes, the merge loops of two lawful
implementations end alike, with queues holding the same nodes. -/
theorem mergeLoop_congr (h1 : P1.Lawful) (h2 : P2.Lawful) (k : Int) (hk : 1 ≤ k) (fuel : Nat)
    (q1 : P1.Q) (q2 : P2.Q) (r1 : P1.Reachable q1) (r2 : P2.Reachable q2)
    (hperm : (P1.elems q1).Perm (P2.elems q2))
    (htf : TieFree (P1.elems q1)) :
    (mergeLoop P1 k fuel q1 = none ∧ mergeLoop P2 k fuel q2 = none) ∨
      ∃ a b, mergeLoop P1 k fuel q1 = some a ∧ mergeLoop P2 k fuel q2 = some b ∧
        (P1.elems a).Perm (P2.elems b) ∧ TieFree (P1.elems a) := by
  have hsz : P1.size q1 = P2.size q2 := by
    rw [h1.size_eq _ r1, h2.size_eq _ r2, hperm.length_eq]
  induction fuel generalizing q1 q2 with
  | zero =>
    by_cases hs : P1.size q1 > 1
    · left
      simp only [mergeLoop]
      rw [if_pos hs, if_pos (by omega)]
      exact ⟨rfl, rfl⟩
    · right
      refine ⟨q1, q2, ?_, ?_, hperm, htf⟩
      · simp only [mergeLoop]; rw [if_neg hs]
      · simp only [mergeLoop]; rw [if_neg (by omega)]
  | succ fuel ih =>
    by_cases hs : P1.size q1 > 1
    · obtain ⟨e1, e2⟩ := extractChildren_congr h1 h2 k.toNat q1 q2 [] 0 r1 r2 hperm htf
      obtain ⟨ext, rest, f, s1, s2, s3, s4⟩ := merge_round_spec h1 k q1 r1
      have hne : ext ≠ [] := by
        intro h
        rw [h] at s2
        simp only [List.length_nil] at s2
        have : 1 ≤ k.toNat := by omega
        omega
      have x1 : P1.Reachable (extractChildren P1 k.toNat q1 [] 0).1 :=
        reachable_extractChildren _ q1 [] 0 r1
      have x2 : P2.Reachable (extractChildren P2 k.toNat q2 [] 0).1 :=
        reachable_extractChildren _ q2 [] 0 r2
      have hnext : (P1.elems (P1.push (extractChildren P1 k.toNat q1 [] 0).1
          (Node.newInternal (extractChildren P1 k.toNat q1 [] 0).2.2
            (extractChildren P1 k.toNat q1 [] 0).2.1))).Perm
          (P2.elems (P2.push (extractChildren P2 k.toNat q2 [] 0).1
            (Node.newInternal (extractChildren P2 k.toNat q2 [] 0).2.2
              (extractChildren P2 k.toNat q2 [] 0).2.1))) := by
        rw [← e1]
        exact ((h1.elems_push _ _ x1).trans (List.Perm.cons _ e2)).trans
          (h2.elems_push _ _ x2).symm
      have htf' := TieFree.perm s4.symm (TieFree.merge f hne (TieFree.perm s1.symm htf))
      have y1 := PriorityQueue.Reachable.push _
        (Node.newInternal (extractChildren P1 k.toNat q1 [] 0).2.2
            (extractChildren P1 k.toNat q1 [] 0).2.1) x1
      have y2 := PriorityQueue.Reachable.push _
        (Node.newInternal (extractChildren P2 k.toNat q2 [] 0).2.2
            (extractChildren P2 k.toNat q2 [] 0).2.1) x2
      have hsz' := (by rw [h1.size_eq _ y1, h2.size_eq _ y2, hnext.length_eq] :
        P1.size (P1.push (extractChildren P1 k.toNat q1 [] 0).1
          (Node.newInternal (extractChildren P1 k.toNat q1 [] 0).2.2
            (extractChildren P1 k.toNat q1 [] 0).2.1)) =
        P2.size (P2.push (extractChildren P2 k.toNat q2 [] 0).1
            (Node.newInternal (extractChildren P2 k.toNat q2 [] 0).2.2
              (extractChildren P2 k.toNat q2 [] 0).2.1)))
      have := ih _ _ y1 y2 hnext htf' hsz'
      simp only [mergeLoop]
      rw [if_pos hs, if_pos (by omega)]
      exact this
    · right
      refine ⟨q1, q2, ?_, ?_, hperm, htf⟩
      · simp only [mergeLoop]; rw [if_neg hs]
      · simp only [mergeLoop]; rw [if_neg (by omega)]

/-- When the initial nodes are tie-free, `buildTree` computes the same result from any two
traversals of the same table and with any two lawful priority queues. -/
theorem buildTree_congr (h1 : P1.Lawful) (h2 : P2.Lawful) (k : Int) (hk : 1 ≤ k)
    (freq1 freq2 : List (Nat × Int)) (hperm : freq1.Perm freq2)
    (htf : TieFree (initialNodes freq1 (dummyCount k freq1.length))) :
    buildTree P1 k freq1 = buildTree P2 k freq2 := by
  have l1 := reachable_pushLeaves freq1 P1.init PriorityQueue.Reachable.init
  have l2 := reachable_pushLeaves freq2 P2.init PriorityQueue.Reachable.init
  have r1 := reachable_addDummyNodes k _ l1
  have r2 := reachable_addDummyNodes k _ l2
  have s1 : P1.size (pushLeaves P1 freq1 P1.init) = freq1.length := by
    rw [size_pushLeaves h1 _ _ PriorityQueue.Reachable.init, size_init h1]; rfl
  have s2 : P2.size (pushLeaves P2 freq2 P2.init) = freq1.length := by
    rw [size_pushLeaves h2 _ _ PriorityQueue.Reachable.init, size_init h2, hperm.length_eq]; rfl
  have e1 : (P1.elems (addDummyNodes P1 k (pushLeaves P1 freq1 P1.init))).Perm
      (initialNodes freq1 (dummyCount k freq1.length)) := by
    rw [addDummyNodes_dummyCount, s1]
    refine (elems_pushDummies h1 _ _ l1).trans (List.Perm.append_right _ ?_)
    have h := elems_pushLeaves h1 freq1 P1.init PriorityQueue.Reachable.init
    rw [h1.elems_init, List.append_nil] at h
    exact h
  have e2 : (P2.elems (addDummyNodes P2 k (pushLeaves P2 freq2 P2.init))).Perm
      (initialNodes freq1 (dummyCount k freq1.length)) := by
    rw [addDummyNodes_dummyCount, s2]
    refine (elems_pushDummies h2 _ _ l2).trans (List.Perm.append_right _ ?_)
    have h := elems_pushLeaves h2 freq2 P2.init PriorityQueue.Reachable.init
    rw [h2.elems_init, List.append_nil] at h
    exact h.trans (hperm.symm.map _)
  have hsz : P1.size (addDummyNodes P1 k (pushLeaves P1 freq1 P1.init))
      = P2.size (addDummyNodes P2 k (pushLeaves P2 freq2 P2.init)) := by
    rw [h1.size_eq _ r1, h2.size_eq _ r2, e1.length_eq, e2.length_eq]
  have hc := mergeLoop_congr h1 h2 k hk
    (P1.size (addDummyNodes P1 k (pushLeaves P1 freq1 P1.init))) _ _ r1 r2 (e1.trans e2.symm)
    (TieFree.perm e1.symm htf)
  unfold buildTree
  simp only []
  rw [← hsz]
  rcases hc with ⟨n1, n2⟩ | ⟨a, b, ha, hb, hab, htfa⟩
  · rw [n1, n2]
  · rw [ha, hb]
    simp only []
    rw [top_congr h1 h2 a b (reachable_mergeLoop k _ _ a r1 ha)
      (reachable_mergeLoop k _ _ b r2 hb) hab htfa]

end Determinism

/-! ## The decoder as a walk over digits -/

section DecoderWalk

theorem decodeByte_eq_stepDigits (root : Node) (bps : Nat) (totalChars : Int) (byte : Nat)
    (fuel : Nat) (bitPos : Int) (d : Decoder) :
    decodeByte root bps totalChars byte fuel bitPos d
      = stepDigits root totalChars (byteDigits byte bps fuel bitPos) d := by
  induction fuel generalizing bitPos d with
  | zero => rfl
  | succ fuel ih =>
    simp only [decodeByte, byteDigits]
    by_cases hb : bitPos ≥ 0
    · by_cases hc : d.charsDecoded < totalChars
      · rw [if_pos ⟨hb, hc⟩, if_pos hb]
        simp only [stepDigits]
        rw [if_pos hc]
        exact ih _ _
      · rw [if_neg (fun h => hc h.2), if_pos hb]
        simp only [stepDigits]
        rw [if_neg hc]
    · rw [if_neg (fun h => hb h.1), if_neg hb]
      rfl

/-- Once `totalChars` symbols are decoded the decoder ignores every further digit. -/
theorem stepDigits_done (root : Node) (totalChars : Int) (vs : List Nat) (d : Decoder)
    (h : ¬ d.charsDecoded < totalChars) : stepDigits root totalChars vs d = d := by
  cases vs with
  | nil => rfl
  | cons v vs => simp only [stepDigits]; rw [if_neg h]

theorem stepDigits_append (root : Node) (totalChars : Int) (vs ws : List Nat) (d : Decoder) :
    stepDigits root totalChars (vs ++ ws) d
      = stepDigits root totalChars ws (stepDigits root totalChars vs d) := by
  induction vs generalizing d with
  | nil => rfl
  | cons v vs ih =>
    simp only [List.cons_append, stepDigits]
    by_cases hc : d.charsDecoded < totalChars
    · rw [if_pos hc, if_pos hc]
      exact ih _
    · rw [if_neg hc, if_neg hc, stepDigits_done root totalChars ws d hc]

/-- The decoding loop of `decompress` is the digit walk over the digits of the payload
bytes. -/
theorem decodeLoop_eq_stepDigits (root : Node) (bps : Nat) (totalChars : Int)
    (payload : List Nat) (d : Decoder) :
    decodeLoop root bps totalChars payload d
      = stepDigits root totalChars (payload.flatMap (fun b => byteDigits b bps 8 7)) d := by
  induction payload generalizing d with
  | nil => rfl
  | cons byte rest ih =>
    simp only [decodeLoop, List.flatMap_cons]
    by_cases hc : d.charsDecoded < totalChars
    · rw [if_pos hc, stepDigits_append, ih, decodeByte_eq_stepDigits]
    · rw [if_neg hc, stepDigits_done root totalChars _ d hc]

theorem traverse_of_getElem? {t c : Node} {j : Nat} (h : t.children[j]? = some c) :
    traverse t j = c := by
  obtain ⟨hlt, hget⟩ := List.getElem?_eq_some_iff.mp h
  unfold traverse
  rw [dif_pos hlt]
  exact hget

/-- Reading the child indices of the path to a leaf, from an internal node, takes the
decoder to that leaf: it writes the symbol of the leaf, counts it, and returns to the
root. -/
theorem stepDigits_path {k : Nat} (root : Node) (totalChars : Int) (p : List Nat) :
    ∀ (t : Node) (c : Nat) (f : Int) (rest : List Nat) (i : Int) (out : List Nat),
      WellFormed k t → t.isLeaf = false → t.descend p = some (Node.newLeaf c f) →
      i < totalChars →
      stepDigits root totalChars (p ++ rest) { curr := t, charsDecoded := i, out := out }
        = stepDigits root totalChars rest
            { curr := root, charsDecoded := i + 1, out := out ++ [c] } := by
  induction p with
  | nil =>
    intro t c f rest i out _ hleaf hd _
    simp only [Node.descend, Option.some.injEq] at hd
    subst hd
    simp at hleaf
  | cons j p ih =>
    intro t c f rest i out hwf hleaf hd hi
    simp only [Node.descend] at hd
    cases hc : t.children[j]? with
    | none => rw [hc] at hd; exact absurd hd (by simp)
    | some c' =>
      rw [hc] at hd
      have hwf' : WellFormed k c' := by
        cases hwf with
        | leaf c0 f0 => simp at hc
        | internal f0 cs hlen hcs => exact hcs c' (List.getElem?_mem hc)
      simp only [List.cons_append, stepDigits]
      rw [if_pos hi, traverse_of_getElem? hc]
      cases hwf' with
      | leaf c0 f0 =>
        have hp := descend_newLeaf hd
        subst hp
        simp only [Node.descend, Option.some.injEq] at hd
        have hc0 : c0 = c := by
          have := congrArg Node.ch hd
          simpa using this
        subst hc0
        simp [emitIfLeaf]
      | internal f0 cs hlen hcs =>
        have hstep : emitIfLeaf root
            { curr := Node.newInternal f0 cs, charsDecoded := i, out := out }
            = { curr := Node.newInternal f0 cs, charsDecoded := i, out := out } := by
          simp [emitIfLeaf]
        rw [hstep]
        exact ih (Node.newInternal f0 cs) c f rest i out (WellFormed.internal f0 cs hlen hcs)
          rfl hd hi

/-- The digit walk over the digits of a whole input, each symbol of which has the path to
a leaf with that symbol as its digits. -/
theorem stepDigits_input {k : Nat} (root : Node) (hwf : WellFormed k root)
    (hroot : root.isLeaf = false) (totalChars : Int) (digitsOf : Nat → List Nat)
    (input : List Nat)
    (hpath : ∀ ch ∈ input, ∃ f, root.descend (digitsOf ch) = some (Node.newLeaf ch f)) :
    ∀ (rest : List Nat) (i : Int) (out : List Nat), i + input.length ≤ totalChars →
      stepDigits root totalChars (input.flatMap digitsOf ++ rest)
          { curr := root, charsDecoded := i, out := out }
        = stepDigits root totalChars rest
            { curr := root, charsDecoded := i + input.length, out := out ++ input } := by
  induction input with
  | nil => intro rest i out _; simp
  | cons ch input ih =>
    intro rest i out hle
    obtain ⟨f, hf⟩ := hpath ch (List.mem_cons_self _ _)
    simp only [List.flatMap_cons, List.append_assoc, List.length_cons, Nat.cast_add,
      Nat.cast_one] at hle ⊢
    rw [stepDigits_path root totalChars (digitsOf ch) root ch f _ i out hwf hroot hf (by omega)]
    rw [ih (fun c hc => hpath c (List.mem_cons_of_mem _ hc)) rest (i + 1) (out ++ [ch])
      (by omega)]
    have e1 : i + 1 + (input.length : Int) = i + ((input.length : Int) + 1) := by omega
    rw [e1]
    simp

end DecoderWalk

/-! ## The payload writer -/

section Writer

set_option maxRecDepth 100000 in
set_option synthInstance.maxSize 2000 in
set_option synthInstance.maxHeartbeats 200000 in
/-- One call of `putBit` on a state without output, checked for every buffer, bit count
and bit. -/
theorem putBit_fresh : ∀ B, B < 256 → ∀ c, c < 8 → ∀ bit, bit < 2 →
    (bitsOfByte B).drop c = List.replicate (8 - c) 0 →
      WriterOk (putBit bit { buffer := B, bitCount := c, out := [] }) ∧
        writerBits (putBit bit { buffer := B, bitCount := c, out := [] })
          = (bitsOfByte B).take c ++ [bit] := by
  decide!

theorem putBit_out (bit : Nat) (B c : Nat) (out : List Nat) :
    putBit bit { buffer := B, bitCount := c, out := out }
      = { buffer := (putBit bit { buffer := B, bitCount := c, out := [] }).buffer,
          bitCount := (putBit bit { buffer := B, bitCount := c, out := [] }).bitCount,
          out := out ++ (putBit bit { buffer := B, bitCount := c, out := [] }).out } := by
  unfold putBit
  simp only []
  split <;> simp

/-- A call of `putBit` appends its bit to the bits the writer stands for. -/
theorem putBit_spec (bit : Nat) (hbit : bit ≤ 1) (w : BitWriter) (hw : WriterOk w) :
    WriterOk (putBit bit w) ∧ writerBits (putBit bit w) = writerBits w ++ [bit] := by
  obtain ⟨B, c, out⟩ := w
  obtain ⟨h1, h2, h3⟩ := hw
  obtain ⟨ok, bits⟩ := putBit_fresh B h1 c h2 bit (by omega) h3
  rw [putBit_out]
  refine ⟨ok, ?_⟩
  simp only [writerBits, List.flatMap_append] at bits ⊢
  rw [List.append_assoc, bits, List.append_assoc]

theorem foldl_putBit_spec (bits : List Nat) (hbits : ∀ b ∈ bits, b ≤ 1) (w : BitWriter)
    (hw : WriterOk w) :
    WriterOk (bits.foldl (fun w b => putBit b w) w) ∧
      writerBits (bits.foldl (fun w b => putBit b w) w) = writerBits w ++ bits := by
  induction bits generalizing w with
  | nil => exact ⟨hw, by simp⟩
  | cons b bits ih =>
    obtain ⟨ok, e⟩ := putBit_spec b (hbits b (List.mem_cons_self _ _)) w hw
    obtain ⟨ok', e'⟩ := ih (fun x hx => hbits x (List.mem_cons_of_mem _ hx)) (putBit b w) ok
    refine ⟨ok', ?_⟩
    simp only [List.foldl_cons]
    rw [e', e, List.append_assoc]
    rfl

theorem putDigit_eq (val : Nat) (b : Nat) (w : BitWriter) :
    putDigit val b w = (digitBits val b).foldl (fun w bit => putBit bit w) w := by
  induction b generalizing w with
  | zero => rfl
  | succ b ih => simp only [putDigit, digitBits, List.foldl_cons, ih]

theorem foldl_flatMap {α β γ : Type} (f : α → List β) (g : γ → β → γ) (l : List α) (a : γ) :
    (l.flatMap f).foldl g a = l.foldl (fun a x => (f x).foldl g a) a := by
  induction l generalizing a with
  | nil => rfl
  | cons x l ih => simp only [List.flatMap_cons, List.foldl_append, List.foldl_cons, ih]

/-- The payload writer passes the bits of `payloadBits` to `putBit`. -/
theorem writeData_eq (k : Int) (codes : Codes) (input : List Nat) :
    writeData k codes input
      = flush ((payloadBits k codes input).foldl (fun w b => putBit b w)
          { buffer := 0, bitCount := 0, out := [] }) := by
  unfold writeData flush payloadBits
  simp only [foldl_flatMap, putCode, putDigit_eq]

theorem digitBits_le_one (val b : Nat) : ∀ x ∈ digitBits val b, x ≤ 1 := by
  induction b with
  | zero => simp [digitBits]
  | succ b ih =>
    intro x hx
    simp only [digitBits, List.mem_cons] at hx
    rcases hx with rfl | hx
    · exact Nat.and_le_right
    · exact ih x hx

theorem payloadBits_le_one (k : Int) (codes : Codes) (input : List Nat) :
    ∀ x ∈ payloadBits k codes input, x ≤ 1 := by
  intro x hx
  simp only [payloadBits, List.mem_flatMap] at hx
  obtain ⟨_, _, _, _, h⟩ := hx
  exact digitBits_le_one _ _ x h

theorem bitsOfByte_length (B : Nat) : (bitsOfByte B).length = 8 := rfl

/-- The bits of the bytes of the payload are the bits written, followed by zeros that
fill the last byte. -/
theorem writeData_bits (k : Int) (codes : Codes) (input : List Nat) :
    ∃ pad, (writeData k codes input).flatMap bitsOfByte
      = payloadBits k codes input ++ List.replicate pad 0 := by
  obtain ⟨ok, e⟩ := foldl_putBit_spec (payloadBits k codes input)
    (payloadBits_le_one k codes input) { buffer := 0, bitCount := 0, out := [] }
    (by decide)
  rw [writeData_eq]
  generalize (payloadBits k codes input).foldl (fun w b => putBit b w)
    { buffer := 0, bitCount := 0, out := [] } = w at ok e
  have e0 : writerBits { buffer := 0, bitCount := 0, out := [] } = [] := rfl
  rw [e0, List.nil_append] at e
  rw [← e]
  obtain ⟨B, c, out⟩ := w
  obtain ⟨h1, h2, h3⟩ := ok
  simp only at h1 h2 h3
  unfold flush writerBits
  by_cases hc : c > 0
  · refine ⟨8 - c, ?_⟩
    simp only [hc, if_true, List.flatMap_append, List.flatMap_cons, List.flatMap_nil,
      List.append_nil]
    rw [List.append_assoc, ← h3, List.take_append_drop]
  · refine ⟨0, ?_⟩
    have : c = 0 := by omega
    subst this
    simp

end Writer

/-! ## Digits, bits and integers in the file -/

section Digits

theorem byteDigits_one (b : Nat) : byteDigits b 1 8 7 = bitsOfByte b := by
  simp [byteDigits, readDigit, bitsOfByte]

theorem byteDigits_two (b : Nat) : byteDigits b 2 8 7 = pairUp (bitsOfByte b) := by
  simp [byteDigits, readDigit, bitsOfByte, pairUp]

theorem pairUp_bitsOfByte_append (b : Nat) (rest : List Nat) :
    pairUp (bitsOfByte b ++ rest) = pairUp (bitsOfByte b) ++ pairUp rest := by
  simp [bitsOfByte, pairUp]

theorem digit_value : ∀ v, v < 4 → ((((0 <<< 1) ||| ((v >>> 1) &&& 1)) <<< 1) ||| ((v >>> 0) &&& 1)) = v := by
  decide

theorem bit_value : ∀ v, v < 2 → ((v >>> 0) &&& 1) = v := by
  decide

theorem digitChar_toNat : ∀ i, i < 10 → (Nat.digitChar i).toNat - 48 = i := by
  decide

theorem leValue_leBytes (n v : Nat) : leValue (leBytes n v) = v % 256 ^ n := by
  induction n generalizing v with
  | zero => simp [leBytes, leValue, Nat.mod_one]
  | succ n ih =>
    simp only [leBytes, leValue, ih]
    rw [pow_succ, Nat.mul_comm (256 ^ n) 256, Nat.mod_mul]

theorem wrapInt32_id (x : Int) (h1 : -2147483648 ≤ x) (h2 : x < 2147483648) : wrapInt32 x = x := by
  unfold wrapInt32
  omega

theorem intValue_intBytes (x : Int) (h1 : 0 ≤ x) (h2 : x < 2147483648) :
    intValue (intBytes x) = x := by
  unfold intValue intBytes
  rw [leValue_leBytes]
  have : (x % 4294967296).toNat % 256 ^ 4 = x.toNat := by
    have e : x % 4294967296 = x := Int.emod_eq_of_lt h1 (by omega)
    rw [e]
    have : x.toNat < 4294967296 := by omega
    norm_num
    omega
  rw [this]
  rw [wrapInt32_id] <;> omega

theorem flatMap_pairUp_bitsOfByte (payload : List Nat) :
    payload.flatMap (fun b => pairUp (bitsOfByte b)) = pairUp (payload.flatMap bitsOfByte) := by
  induction payload with
  | nil => rfl
  | cons b rest ih =>
    simp only [List.flatMap_cons, pairUp_bitsOfByte_append, ih]

theorem pairUp_digitBits (v : Nat) (hv : v < 4) (rest : List Nat) :
    pairUp (digitBits v 2 ++ rest) = v :: pairUp rest := by
  show ((((0 <<< 1) ||| ((v >>> 1) &&& 1)) <<< 1) ||| ((v >>> 0) &&& 1)) :: pairUp rest
    = v :: pairUp rest
  rw [digit_value v hv]

theorem pairUp_code (code : List Char) (hd : ∀ c ∈ code, c.toNat - 48 < 4) (rest : List Nat) :
    pairUp (code.flatMap (fun c => digitBits (c.toNat - 48) 2) ++ rest)
      = code.map (fun c => c.toNat - 48) ++ pairUp rest := by
  induction code with
  | nil => rfl
  | cons c code ih =>
    simp only [List.flatMap_cons, List.append_assoc, List.map_cons, List.cons_append]
    rw [pairUp_digitBits _ (hd c (List.mem_cons_self _ _)),
      ih (fun x hx => hd x (List.mem_cons_of_mem _ hx))]

theorem pairUp_payloadBits (k : Int) (e : bitsPerSymbol k = 2) (codes : Codes)
    (input : List Nat)
    (hd : ∀ ch ∈ input, ∀ c ∈ codeOf codes ch, c.toNat - 48 < 4) (rest : List Nat) :
    pairUp (payloadBits k codes input ++ rest) = payloadDigits codes input ++ pairUp rest := by
  induction input with
  | nil => rfl
  | cons ch input ih =>
    simp only [payloadBits, payloadDigits, List.flatMap_cons, List.append_assoc, e] at ih ⊢
    rw [pairUp_code _ (hd ch (List.mem_cons_self _ _)),
      ih (fun x hx => hd x (List.mem_cons_of_mem _ hx))]

theorem payloadBits_two (codes : Codes) (input : List Nat)
    (hd : ∀ ch ∈ input, ∀ c ∈ codeOf codes ch, c.toNat - 48 < 2) :
    payloadBits 2 codes input = payloadDigits codes input := by
  induction input with
  | nil => rfl
  | cons ch input ih =>
    have e : bitsPerSymbol 2 = 1 := by decide
    simp only [payloadBits, payloadDigits, List.flatMap_cons, e] at ih ⊢
    rw [ih (fun x hx => hd x (List.mem_cons_of_mem _ hx))]
    congr 1
    have hc := hd ch (List.mem_cons_self _ _)
    generalize codeOf codes ch = code at hc
    induction code with
    | nil => rfl
    | cons c code ihc =>
      have hb : digitBits (c.toNat - 48) 1 = [c.toNat - 48] := by
        show [((c.toNat - 48) >>> 0) &&& 1] = [c.toNat - 48]
        rw [bit_value _ (hc c (List.mem_cons_self _ _))]
      simp only [List.flatMap_cons, List.map_cons, hb, List.singleton_append]
      rw [ihc (fun x hx => hc x (List.mem_cons_of_mem _ hx))]

/-- For the radices 2, 3 and 4 the digits that the decoder reads from the payload are the
digits that the writer wrote, followed by digits of the fill bits. -/
theorem payload_digits (k : Int) (hk : k = 2 ∨ k = 3 ∨ k = 4) (codes : Codes)
    (input : List Nat)
    (hd : ∀ ch ∈ input, ∀ c ∈ codeOf codes ch, c.toNat - 48 < k.toNat) :
    ∃ junk, (writeData k codes input).flatMap (fun b => byteDigits b (bitsPerSymbol k) 8 7)
      = payloadDigits codes input ++ junk := by
  obtain ⟨pad, hpad⟩ := writeData_bits k codes input
  rcases hk with rfl | rfl | rfl
  · refine ⟨List.replicate pad 0, ?_⟩
    have e : bitsPerSymbol 2 = 1 := by decide
    simp only [e, byteDigits_one]
    rw [hpad, payloadBits_two codes input hd]
  · refine ⟨pairUp (List.replicate pad 0), ?_⟩
    have e : bitsPerSymbol 3 = 2 := by decide
    simp only [e, byteDigits_two]
    rw [flatMap_pairUp_bitsOfByte, hpad]
    exact pairUp_payloadBits 3 e codes input
      (fun ch hch c hc => lt_trans (hd ch hch c hc) (by decide)) _
  · refine ⟨pairUp (List.replicate pad 0), ?_⟩
    have e : bitsPerSymbol 4 = 2 := by decide
    simp only [e, byteDigits_two]
    rw [flatMap_pairUp_bitsOfByte, hpad]
    exact pairUp_payloadBits 4 e codes input hd _

/-- While every child index is a single decimal digit, the digits of a path string are
the child indices. -/
theorem pathString_digits (p : List Nat) (h : ∀ i ∈ p, i < 10) :
    (pathString p).map (fun c => c.toNat - 48) = p := by
  induction p with
  | nil => rfl
  | cons i p ih =>
    have hi := h i (List.mem_cons_self _ _)
    rw [pathString_cons, toDigits_lt_ten i hi]
    simp only [List.singleton_append, List.map_cons]
    rw [digitChar_toNat i hi, ih (fun x hx => h x (List.mem_cons_of_mem _ hx))]

end Digits

/-! ## The frequency analysis and the header -/

section Header

theorem assign_of_not_mem {β : Type} (m : List (Nat × β)) (key : Nat) (v : β)
    (h : key ∉ m.map Prod.fst) : assign m key v = m ++ [(key, v)] := by
  induction m with
  | nil => rfl
  | cons e m ih =>
    obtain ⟨k', v'⟩ := e
    simp only [List.map_cons, List.mem_cons, not_or] at h
    have hne : ¬ k' = key := fun hh => h.1 hh.symm
    simp only [assign, hne, if_false, List.cons_append, ih h.2]

theorem assign_keys_of_mem {β : Type} (m : List (Nat × β)) (key : Nat) (v : β)
    (h : key ∈ m.map Prod.fst) : (assign m key v).map Prod.fst = m.map Prod.fst := by
  induction m with
  | nil => simp at h
  | cons e m ih =>
    obtain ⟨k', v'⟩ := e
    by_cases hk : k' = key
    · subst hk
      simp [assign]
    · simp only [List.map_cons, List.mem_cons] at h
      have hm : key ∈ m.map Prod.fst := by
        rcases h with h | h
        · exact absurd h.symm hk
        · exact h
      simp only [assign, hk, if_false, List.map_cons, ih hm]

theorem mem_assign {β : Type} (m : List (Nat × β)) (key : Nat) (v : β) (e : Nat × β)
    (h : e ∈ assign m key v) : e = (key, v) ∨ e ∈ m := by
  induction m with
  | nil =>
    simp only [assign, List.mem_singleton] at h
    exact Or.inl h
  | cons e' m ih =>
    obtain ⟨k', v'⟩ := e'
    by_cases hk : k' = key
    · simp only [assign, hk, if_true, List.mem_cons] at h
      rcases h with h | h
      · exact Or.inl h
      · exact Or.inr (List.mem_cons_of_mem _ h)
    · simp only [assign, hk, if_false, List.mem_cons] at h
      rcases h with h | h
      · exact Or.inr (h ▸ List.mem_cons_self _ _)
      · rcases ih h with h | h
        · exact Or.inl h
        · exact Or.inr (List.mem_cons_of_mem _ h)

theorem find?_mem {β : Type} (m : List (Nat × β)) (s : Nat) (v : β) (h : find? m s = some v) :
    (s, v) ∈ m := by
  induction m with
  | nil => simp [find?] at h
  | cons e m ih =>
    obtain ⟨k', v'⟩ := e
    by_cases hk : k' = s
    · simp only [find?, hk, if_true, Option.some.injEq] at h
      subst h; subst hk
      exact List.mem_cons_self _ _
    · simp only [find?, hk, if_false] at h
      exact List.mem_cons_of_mem _ (ih h)

/-- The frequency analysis keeps the keys unique, adds the bytes read to the keys, and
raises no count above the number of bytes read. -/
theorem foldl_increment_spec (input : List Nat) :
    ∀ (m : List (Nat × Int)) (B : Int), 0 ≤ B → (m.map Prod.fst).Nodup →
      (∀ kv ∈ m, 0 ≤ kv.2 ∧ kv.2 ≤ B) →
      ((input.foldl increment m).map Prod.fst).Nodup ∧
        (∀ s, s ∈ (input.foldl increment m).map Prod.fst ↔ (s ∈ m.map Prod.fst ∨ s ∈ input)) ∧
        ∀ kv ∈ input.foldl increment m, 0 ≤ kv.2 ∧ kv.2 ≤ B + input.length := by
  induction input with
  | nil =>
    intro m B _ hnd hb
    exact ⟨hnd, by simp, by simpa using hb⟩
  | cons ch input ih =>
    intro m B hB hnd hb
    have hkeys : (increment m ch).map Prod.fst = m.map Prod.fst ∨
        (increment m ch).map Prod.fst = m.map Prod.fst ++ [ch] ∧ ch ∉ m.map Prod.fst := by
      by_cases hmem : ch ∈ m.map Prod.fst
      · exact Or.inl (assign_keys_of_mem m ch _ hmem)
      · right
        refine ⟨?_, hmem⟩
        unfold increment
        rw [assign_of_not_mem m ch _ hmem]
        simp
    have hnd' : ((increment m ch).map Prod.fst).Nodup := by
      rcases hkeys with h | ⟨h, hn⟩
      · rw [h]; exact hnd
      · rw [h]
        exact List.nodup_append.mpr ⟨hnd, List.nodup_singleton _,
          fun x hx hx' => hn (by rw [List.mem_singleton] at hx'; exact hx' ▸ hx)⟩
    have hb' : ∀ kv ∈ increment m ch, 0 ≤ kv.2 ∧ kv.2 ≤ B + 1 := by
      intro kv hkv
      rcases mem_assign m ch _ kv hkv with h | h
      · rw [h]
        cases hf : find? m ch with
        | none =>
          simp only [Option.getD_none]
          omega
        | some v =>
          have := hb _ (find?_mem m ch v hf)
          simp only [Option.getD_some]
          omega
      · have := hb kv h
        omega
    obtain ⟨r1, r2, r3⟩ := ih (increment m ch) (B + 1) (by omega) hnd' hb'
    simp only [List.foldl_cons]
    refine ⟨r1, ?_, ?_⟩
    · intro s
      rw [r2 s]
      have hmemk : s ∈ (increment m ch).map Prod.fst ↔ (s ∈ m.map Prod.fst ∨ s = ch) := by
        rcases hkeys with h | ⟨h, hn⟩
        · rw [h]
          constructor
          · exact Or.inl
          · rintro (h' | rfl)
            · exact h'
            · by_contra hc
              have := assign_of_not_mem m s ((find? m s).getD 0 + 1) hc
              have e2 : (increment m s).map Prod.fst = m.map Prod.fst ++ [s] := by
                unfold increment; rw [this]; simp
              rw [e2] at h
              have := congrArg List.length h
              simp at this
        · rw [h]; simp
      rw [hmemk]
      simp only [List.mem_cons]
      tauto
    · intro kv hkv
      have := r3 kv hkv
      simp only [List.length_cons, Nat.cast_add, Nat.cast_one]
      omega

end Header

/-! ## Reading the header back -/

section HeaderParse

theorem length_leBytes (n v : Nat) : (leBytes n v).length = n := by
  induction n generalizing v with
  | zero => rfl
  | succ n ih => simp [leBytes, ih]

theorem length_intBytes (x : Int) : (intBytes x).length = 4 := length_leBytes 4 _

/-- The entry loop of `decompress` reads back the entries that `compress` wrote, in the
order written. -/
theorem readEntries_spec (es : List (Nat × Int)) :
    ∀ (acc : List (Nat × Int)) (payload : List Nat),
      (∀ kv ∈ es, 0 ≤ kv.2 ∧ kv.2 < 2147483648) → ((acc ++ es).map Prod.fst).Nodup →
      readEntries es.length (es.flatMap (fun kv => kv.1 :: intBytes kv.2) ++ payload) acc
        = some (acc ++ es, payload) := by
  induction es with
  | nil => intro acc payload _ _; simp [readEntries]
  | cons kv es ih =>
    intro acc payload hv hnd
    obtain ⟨b0, b1, b2, b3, hb⟩ : ∃ b0 b1 b2 b3, intBytes kv.2 = [b0, b1, b2, b3] :=
      ⟨_, _, _, _, rfl⟩
    have hval : intValue [b0, b1, b2, b3] = kv.2 := by
      rw [← hb]
      exact intValue_intBytes kv.2 (hv kv (List.mem_cons_self _ _)).1
        (hv kv (List.mem_cons_self _ _)).2
    have hnotin : kv.1 ∉ acc.map Prod.fst := by
      intro hin
      simp only [List.map_append, List.map_cons] at hnd
      have := (List.nodup_append.mp hnd).2.2 hin (List.mem_cons_self _ _)
      exact this
    rw [List.flatMap_cons, hb]
    show readEntries (es.length + 1) (kv.1 :: b0 :: b1 :: b2 :: b3 ::
      (es.flatMap (fun kv => kv.1 :: intBytes kv.2) ++ payload)) acc = _
    rw [readEntries, hval, assign_of_not_mem acc kv.1 kv.2 hnotin]
    have hnd' : ((acc ++ [(kv.1, kv.2)] ++ es).map Prod.fst).Nodup := by
      simpa using hnd
    rw [ih (acc ++ [(kv.1, kv.2)]) payload (fun x hx => hv x (List.mem_cons_of_mem _ hx)) hnd']
    simp

/-- What `decompress` does with an artifact made of a header as `compress` writes it and
a payload: it rebuilds the tree from the traversal of the table read back, with the stored
radix, and runs the decoding loop on the payload. -/
theorem decompress_header (pf : Platform) (hsz : 2 ≤ pf.sizeofSizeT) (k k' : Int)
    (hk : 0 ≤ k ∧ k < 256) (totalChars : Int) (ht : 0 ≤ totalChars ∧ totalChars < 2147483648)
    (freq : List (Nat × Int)) (hnd : (freq.map Prod.fst).Nodup)
    (hv : ∀ kv ∈ freq, 0 ≤ kv.2 ∧ kv.2 < 2147483648) (hlen : freq.length ≤ 256)
    (payload : List Nat) :
    decompress pf k' (writeHeader pf k totalChars freq ++ payload)
      = match buildTree pf.pq k (pf.iterate freq) with
        | Outcome.ok root =>
          Outcome.ok (decodeLoop root (bitsPerSymbol k) totalChars payload
            { curr := root, charsDecoded := 0, out := [] }).out
        | Outcome.undefined => Outcome.undefined
        | Outcome.diverges => Outcome.diverges := by
  have hkc : (((k % 256).toNat : Nat) : Int) = k := by omega
  have hsel : (if (((k % 256).toNat : Nat) : Int) ≠ k' then (((k % 256).toNat : Nat) : Int)
      else k') = k := by
    rw [hkc]
    by_cases h : k = k'
    · simp [h]
    · simp [h]
  have hA := length_intBytes totalChars
  have hB := length_leBytes pf.sizeofSizeT freq.length
  have hpow : freq.length < 256 ^ pf.sizeofSizeT := by
    have : 256 ^ 2 ≤ 256 ^ pf.sizeofSizeT := Nat.pow_le_pow_right (by decide) hsz
    omega
  have hfile : writeHeader pf k totalChars freq ++ payload
      = (k % 256).toNat :: (intBytes totalChars ++ (leBytes pf.sizeofSizeT freq.length
          ++ (freq.flatMap (fun kv => kv.1 :: intBytes kv.2) ++ payload))) := by
    simp [writeHeader]
  rw [hfile]
  simp only [decompress]
  have hlenrest : ¬ ((intBytes totalChars ++ (leBytes pf.sizeofSizeT freq.length
      ++ (freq.flatMap (fun kv => kv.1 :: intBytes kv.2) ++ payload))).length
        < 4 + pf.sizeofSizeT) := by
    simp only [List.length_append, hA, hB]
    omega
  rw [if_neg hlenrest, hsel]
  rw [List.take_left' hA, List.drop_left' hA, List.take_left' hB,
    show 4 + pf.sizeofSizeT = (intBytes totalChars ++ leBytes pf.sizeofSizeT freq.length).length
      from by simp [hA, hB],
    ← List.append_assoc, List.drop_left]
  rw [intValue_intBytes totalChars ht.1 ht.2, leValue_leBytes, Nat.mod_eq_of_lt hpow]
  have := readEntries_spec freq [] payload hv (by simpa using hnd)
  rw [this]
  simp

theorem length_le_of_bytes (l : List Nat) (hnd : l.Nodup) (hb : ∀ x ∈ l, x < 256) :
    l.length ≤ 256 := by
  have hsub : l ⊆ List.range 256 := fun x hx => List.mem_range.mpr (hb x hx)
  have := (List.subperm_of_subset hnd hsub).length_le
  simpa using this

end HeaderParse

/-! ## The round trip -/

section RoundTrip

variable {P : PriorityQueue}

/-- The tree built from at least two entries is not a single leaf. -/
theorem buildTree_root_internal (hP : P.Lawful) (k : Int) (hk : 2 ≤ k)
    (freq : List (Nat × Int)) (hn : 2 ≤ freq.length) (root : Node)
    (h : buildTree P k freq = Outcome.ok root) : root.isLeaf = false := by
  obtain ⟨p, _, hcase⟩ := buildTree_spec hP k hk freq
  rcases hcase with ⟨_, hu⟩ | ⟨_, root', hok, hI⟩
  · rw [hu] at h; exact absurd h (by simp)
  · rw [hok] at h
    simp only [Outcome.ok.injEq] at h
    subst h
    have := hI (fun l => 2 ≤ l.length ∨ ∀ x ∈ l, x.isLeaf = false)
      (fun l l' hperm hl => by
        rcases hl with hl | hl
        · exact Or.inl (hperm.length_eq ▸ hl)
        · exact Or.inr (fun x hx => hl x (hperm.symm.subset hx)))
      (by
        intro ext rest f _ _ _
        cases rest with
        | nil =>
          right
          intro x hx
          simp only [List.mem_singleton] at hx
          subst hx
          rfl
        | cons r rest => left; simp)
      (by
        left
        simp only [initialNodes, List.length_append, List.length_map]
        omega)
    rcases this with h2 | h2
    · simp at h2
    · exact h2 root' (List.mem_singleton_self _)

end RoundTrip

section Assembly

/-- The frequency table has one entry per distinct byte of the input. -/
theorem card_countFreq (input : List Nat) :
    (countFreq input).length = input.toFinset.card := by
  obtain ⟨hnd, hmem, _⟩ := foldl_increment_spec input [] 0 (le_refl _) (by simp) (by simp)
  have h1 : ((countFreq input).map Prod.fst).toFinset = input.toFinset := by
    ext s
    simp only [List.mem_toFinset]
    have := hmem s
    simp only [List.map_nil, List.not_mem_nil, false_or] at this
    exact this
  have hnd' : ((countFreq input).map Prod.fst).Nodup := hnd
  rw [← h1, List.toFinset_card_of_nodup hnd', List.length_map]

/-- On a lawful platform, for radix 2, 3 or 4 and an input of fewer than `2 ^ 31` bytes
with at least two distinct byte values, when no padding leaf is added, or one is added and
the input does not contain the byte 0, `decompress` returns the input from the artifact
that `compress` makes of it. -/
theorem roundtrip_core (pf : Platform) (hpf : pf.Lawful) (k k' : Int)
    (hk : k = 2 ∨ k = 3 ∨ k = 4)
    (input : List Nat) (hbytes : ∀ b ∈ input, b < 256) (hlen : input.length < 2147483648)
    (hdist : ∃ a ∈ input, ∃ b ∈ input, a ≠ b)
    (hpad : paddingCount k.toNat input.toFinset.card = 0 ∨
      (paddingCount k.toNat input.toFinset.card = 1 ∧ 0 ∉ input)) :
    ∃ file, compress pf k input = Outcome.ok file ∧
      decompress pf k' file = Outcome.ok input := by
  have hP := hpf.pq_lawful
  have hk2 : 2 ≤ k := by rcases hk with rfl | rfl | rfl <;> decide
  -- the frequency table
  obtain ⟨hnd0, hmem0, hval0⟩ :=
    foldl_increment_spec input [] 0 (le_refl _) (by simp) (by simp)
  have hperm := hpf.iterate_perm (countFreq input)
  have hnd : ((pf.iterate (countFreq input)).map Prod.fst).Nodup :=
    (hperm.map Prod.fst).nodup_iff.mpr hnd0
  have hmem : ∀ s, s ∈ (pf.iterate (countFreq input)).map Prod.fst ↔ s ∈ input := by
    intro s
    rw [(hperm.map Prod.fst).mem_iff]
    have := hmem0 s
    simp only [List.map_nil, List.not_mem_nil, false_or] at this
    exact this
  have hval : ∀ kv ∈ pf.iterate (countFreq input), 0 ≤ kv.2 ∧ kv.2 < 2147483648 := by
    intro kv hkv
    have := hval0 kv (hperm.subset hkv)
    omega
  have hcard : (pf.iterate (countFreq input)).length = input.toFinset.card := by
    rw [hperm.length_eq, card_countFreq]
  have hn : 2 ≤ (pf.iterate (countFreq input)).length := by
    obtain ⟨a, ha, b, hb, hab⟩ := hdist
    rw [← List.length_map (pf.iterate (countFreq input)) Prod.fst]
    have hsub : [a, b] ⊆ (pf.iterate (countFreq input)).map Prod.fst := by
      intro x hx
      simp only [List.mem_cons, List.mem_singleton, List.not_mem_nil, or_false] at hx
      rcases hx with rfl | rfl
      · exact (hmem _).mpr ha
      · exact (hmem _).mpr hb
    have := (List.subperm_of_subset (by simp [hab]) hsub).length_le
    simpa using this
  have hle256 : (pf.iterate (countFreq input)).length ≤ 256 := by
    rw [← List.length_map (pf.iterate (countFreq input)) Prod.fst]
    exact length_le_of_bytes _ hnd (fun x hx => hbytes x ((hmem x).mp hx))
  -- padding
  have hpc : paddingCount k.toNat (pf.iterate (countFreq input)).length ≤ 1 ∧
      (0 ∈ input → paddingCount k.toNat (pf.iterate (countFreq input)).length = 0) := by
    rw [hcard]
    rcases hpad with h | ⟨h, h0⟩
    · exact ⟨by omega, fun _ => h⟩
    · exact ⟨by omega, fun h0' => absurd h0' h0⟩
  -- the tree and its code table
  obtain ⟨root, hok, _, hpaths⟩ :=
    code_table_spec hP k hk2 (pf.iterate (countFreq input)) hn hnd
  obtain ⟨hwf, _⟩ := buildTree_root hP k hk2 _ root hok
  have hroot := buildTree_root_internal hP k hk2 _ hn root hok
  have hcode : ∀ ch ∈ input, ∃ f q, (q, Node.newLeaf ch f) ∈ leafPaths root ∧
      codeOf (generateCodes root [] []) ch = pathString q := by
    intro ch hch
    obtain ⟨kv, hkv, rfl⟩ := List.mem_map.mp ((hmem ch).mpr hch)
    have hcond : kv.1 ≠ 0 ∨ paddingCount k.toNat (pf.iterate (countFreq input)).length = 0 := by
      by_cases h0 : kv.1 = 0
      · right
        exact hpc.2 (h0 ▸ hch)
      · exact Or.inl h0
    obtain ⟨q, hq, hfind⟩ := hpaths kv.1 kv.2 hkv hcond
    exact ⟨kv.2, q, hq, by simp [codeOf, hfind]⟩
  have hK : k.toNat ≤ 10 := by rcases hk with rfl | rfl | rfl <;> decide
  have hdigits : ∀ ch ∈ input, ∃ f,
      root.descend ((codeOf (generateCodes root [] []) ch).map (fun c => c.toNat - 48))
        = some (Node.newLeaf ch f) := by
    intro ch hch
    obtain ⟨f, q, hq, hc⟩ := hcode ch hch
    obtain ⟨hd, _, hb⟩ := leafPaths_descend hwf q _ hq
    refine ⟨f, ?_⟩
    rw [hc, pathString_digits q (fun i hi => lt_of_lt_of_le (hb i hi) hK)]
    exact hd
  have hbound : ∀ ch ∈ input, ∀ c ∈ codeOf (generateCodes root [] []) ch,
      c.toNat - 48 < k.toNat := by
    intro ch hch c hc
    obtain ⟨f, q, hq, hcq⟩ := hcode ch hch
    obtain ⟨_, _, hb⟩ := leafPaths_descend hwf q _ hq
    have hm : c.toNat - 48 ∈ (codeOf (generateCodes root [] []) ch).map (fun c => c.toNat - 48) :=
      List.mem_map.mpr ⟨c, hc, rfl⟩
    rw [hcq, pathString_digits q (fun i hi => lt_of_lt_of_le (hb i hi) hK)] at hm
    exact hb _ hm
  -- compress
  have hne : ¬ ((input.length : Int) = 0) := by
    obtain ⟨a, ha, _⟩ := hdist
    cases input with
    | nil => simp at ha
    | cons x xs => simp; omega
  refine ⟨writeHeader pf k input.length (pf.iterate (countFreq input))
      ++ writeData k (generateCodes root [] []) input, ?_, ?_⟩
  · simp only [compress, hne, if_false, hok]
  -- decompress
  rw [decompress_header pf hpf.sizeT_ge k k' (by rcases hk with rfl | rfl | rfl <;> decide)
    input.length (by omega) _ hnd hval hle256]
  -- the tree is the same
  have htf : TieFree (initialNodes (pf.iterate (countFreq input))
      (dummyCount k (pf.iterate (countFreq input)).length)) := by
    rw [dummyCount_eq k hk2 _ (by omega)]
    constructor
    · have e : (initialNodes (pf.iterate (countFreq input))
          (paddingCount k.toNat (pf.iterate (countFreq input)).length)).map Node.minChar
          = (pf.iterate (countFreq input)).map Prod.fst
            ++ List.replicate (paddingCount k.toNat (pf.iterate (countFreq input)).length) 0 := by
        simp [initialNodes, Function.comp_def]
      rw [e]
      refine List.nodup_append.mpr ⟨hnd, ?_, ?_⟩
      · have := hpc.1
        interval_cases (paddingCount k.toNat (pf.iterate (countFreq input)).length) <;> simp
      · intro x hx hx'
        rw [List.mem_replicate] at hx'
        obtain ⟨hp0, rfl⟩ := hx'
        exact hp0 (hpc.2 ((hmem 0).mp hx))
    · intro x hx
      simp only [initialNodes, List.mem_append, List.mem_map, List.mem_replicate] at hx
      rcases hx with ⟨kv, hkv, rfl⟩ | ⟨_, rfl⟩
      · have := hbytes kv.1 ((hmem kv.1).mp (List.mem_map.mpr ⟨kv, hkv, rfl⟩))
        simp only [Node.minChar_newLeaf]
        omega
      · simp
  have hsame : buildTree pf.pq k (pf.iterate (pf.iterate (countFreq input)))
      = Outcome.ok root := by
    rw [← hok]
    exact (buildTree_congr hP hP k (by omega) _ _
      (hpf.iterate_perm (pf.iterate (countFreq input))).symm htf).symm
  rw [hsame]
  simp only [Outcome.ok.injEq]
  -- decoding
  rw [decodeLoop_eq_stepDigits]
  obtain ⟨junk, hj⟩ := payload_digits k hk (generateCodes root [] []) input hbound
  rw [hj]
  obtain ⟨g, hg⟩ : ∃ g : Nat → List Nat, g = fun ch =>
      (codeOf (generateCodes root [] []) ch).map (fun c => c.toNat - 48) := ⟨_, rfl⟩
  have hdigits' : ∀ ch ∈ input, ∃ f, root.descend (g ch) = some (Node.newLeaf ch f) := by
    intro ch hch
    rw [hg]
    exact hdigits ch hch
  have e : payloadDigits (generateCodes root [] []) input = input.flatMap g := by
    rw [hg]
    rfl
  have hle : (0 : Int) + (input.length : Int) ≤ (input.length : Int) := by omega
  have hwalk := stepDigits_input root hwf hroot (input.length : Int) g input hdigits'
    junk 0 [] hle
  rw [e, hwalk]
  have hdone : ¬ ((0 : Int) + (input.length : Int) < (input.length : Int)) := by omega
  rw [stepDigits_done root (input.length : Int) junk
    { curr := root, charsDecoded := 0 + (input.length : Int), out := [] ++ input } hdone]
  simp

end Assembly

/-! ## The count of decoded symbols -/

section DecodedCount

theorem emitIfLeaf_counted (root : Node) (totalChars : Int) (d : Decoder) (c : Node)
    (h : Counted totalChars d) (hlt : d.charsDecoded < totalChars) :
    Counted totalChars (emitIfLeaf root { d with curr := c }) := by
  obtain ⟨h1, h2⟩ := h
  unfold emitIfLeaf Counted
  split
  · simp only [List.length_append, List.length_singleton, Nat.cast_add, Nat.cast_one]
    omega
  · exact ⟨h1, h2⟩

theorem decodeByte_counted (root : Node) (bps : Nat) (totalChars : Int) (byte : Nat) :
    ∀ (fuel : Nat) (bitPos : Int) (d : Decoder), Counted totalChars d →
      Counted totalChars (decodeByte root bps totalChars byte fuel bitPos d) := by
  intro fuel
  induction fuel with
  | zero => intro bitPos d h; exact h
  | succ fuel ih =>
    intro bitPos d h
    simp only [decodeByte]
    split
    · rename_i hc
      exact ih _ _ (emitIfLeaf_counted root totalChars d _ h hc.2)
    · exact h

theorem decodeLoop_counted (root : Node) (bps : Nat) (totalChars : Int) :
    ∀ (payload : List Nat) (d : Decoder), Counted totalChars d →
      Counted totalChars (decodeLoop root bps totalChars payload d) := by
  intro payload
  induction payload with
  | nil => intro d h; exact h
  | cons byte rest ih =>
    intro d h
    simp only [decodeLoop]
    split
    · exact ih _ (decodeByte_counted root bps totalChars byte 8 7 d h)
    · exact h

/-- The decoding loop started on a fresh decoder writes at most `totalChars` bytes. -/
theorem decodeLoop_length (root : Node) (bps : Nat) (totalChars : Int) (payload : List Nat) :
    (decodeLoop root bps totalChars payload
      { curr := root, charsDecoded := 0, out := [] }).out.length ≤ totalChars.toNat := by
  have h := decodeLoop_counted root bps totalChars payload
    { curr := root, charsDecoded := 0, out := [] } ⟨rfl, le_max_right _ _⟩
  obtain ⟨h1, h2⟩ := h
  have h3 : max totalChars 0 = ((totalChars.toNat : Nat) : Int) := by
    rw [Int.toNat_eq_max]
  omega

end DecodedCount

/-! ## The rounds of the merge loop -/

section Rounds

variable {P : PriorityQueue}

theorem mergeLoop_fuel_le (k : Int) (pq pq' : P.Q) (fuel fuel' : Nat) (hle : fuel ≤ fuel')
    (h : mergeLoop P k fuel pq = some pq') : mergeLoop P k fuel' pq = some pq' := by
  induction hle with
  | refl => exact h
  | step _ ih => exact mergeLoop_fuel_succ k _ pq pq' ih

/-- An invariant of the multiset of queued nodes that every merge round preserves holds
at the start of every round, where the queue holds at least two nodes. -/
theorem mergeRounds_invariant (hP : P.Lawful) (k : Int) (I : List Node → Prop)
    (hperm : ∀ l l', l.Perm l' → I l → I l')
    (hstep : ∀ (ext rest : List Node) (f : Int), 2 ≤ (ext ++ rest).length →
      ext.length = min k.toNat (ext ++ rest).length →
      I (ext ++ rest) → I (Node.newInternal f ext :: rest))
    (fuel : Nat) (pq : P.Q) (hq : P.Reachable pq) (h0 : I (P.elems pq)) :
    ∀ q ∈ mergeRounds P k fuel pq, P.Reachable q ∧ 1 < P.size q ∧ I (P.elems q) := by
  induction fuel generalizing pq with
  | zero => intro q hq'; simp [mergeRounds] at hq'
  | succ fuel ih =>
    intro q hmem
    simp only [mergeRounds] at hmem
    split at hmem
    · rename_i hsz
      rcases List.mem_cons.mp hmem with rfl | hmem
      · exact ⟨hq, hsz, h0⟩
      · obtain ⟨ext, rest, f, h1, h2, _, h4⟩ := merge_round_spec hP k pq hq
        refine ih _ (PriorityQueue.Reachable.push _ _
          (reachable_extractChildren _ pq [] 0 hq)) ?_ q hmem
        refine hperm _ _ h4.symm ?_
        have hlen : (ext ++ rest).length = P.size pq := by
          rw [h1.length_eq, hP.size_eq _ hq]
        refine hstep ext rest f ?_ ?_ (hperm _ _ h1.symm h0)
        · omega
        · rw [hlen]; exact h2
    · simp at hmem

/-- The merge round on a queue of two or more nodes whose number is 1 modulo `k - 1`
extracts exactly `k` nodes and leaves a queue that is shorter by `k - 1`. -/
theorem merge_round_exact (hP : P.Lawful) (k : Int) (hk : 2 ≤ k) (pq : P.Q)
    (hq : P.Reachable pq) (hsz : 1 < P.size pq) (hmod : (P.size pq - 1) % (k.toNat - 1) = 0) :
    (extractChildren P k.toNat pq [] 0).2.1.length = k.toNat ∧
      P.size (mergeRound P k pq) + (k.toNat - 1) = P.size pq := by
  obtain ⟨ext, rest, f, h1, h2, h3, h4⟩ := merge_round_spec hP k pq hq
  have hlen : ext.length + rest.length = P.size pq := by
    rw [← List.length_append, h1.length_eq, hP.size_eq _ hq]
  have hk' : 2 ≤ k.toNat := by omega
  obtain ⟨m, hm⟩ := Nat.dvd_of_mod_eq_zero hmod
  have hm1 : 1 ≤ m := by
    rcases Nat.eq_zero_or_pos m with h | h
    · subst h; omega
    · exact h
  have hge : k.toNat ≤ P.size pq := by
    have : (k.toNat - 1) * 1 ≤ (k.toNat - 1) * m := Nat.mul_le_mul_left _ hm1
    omega
  have hext : ext.length = k.toNat := by omega
  have hreach : P.Reachable (mergeRound P k pq) :=
    PriorityQueue.Reachable.push _ _ (reachable_extractChildren _ pq [] 0 hq)
  refine ⟨by rw [h3]; exact hext, ?_⟩
  rw [hP.size_eq _ hreach]
  unfold mergeRound
  rw [h4.length_eq]
  simp only [List.length_cons]
  omega

/-- With a radix of at least 2 a merge round on two or more nodes shrinks the queue. -/
theorem merge_round_shrinks (hP : P.Lawful) (k : Int) (hk : 2 ≤ k) (pq : P.Q)
    (hq : P.Reachable pq) (hsz : 1 < P.size pq) :
    P.size (mergeRound P k pq) < P.size pq := by
  obtain ⟨ext, rest, f, h1, h2, h3, h4⟩ := merge_round_spec hP k pq hq
  have hlen : ext.length + rest.length = P.size pq := by
    rw [← List.length_append, h1.length_eq, hP.size_eq _ hq]
  have hk' : 2 ≤ k.toNat := by omega
  have hreach : P.Reachable (mergeRound P k pq) :=
    PriorityQueue.Reachable.push _ _ (reachable_extractChildren _ pq [] 0 hq)
  rw [hP.size_eq _ hreach]
  unfold mergeRound
  rw [h4.length_eq]
  simp only [List.length_cons]
  omega

/-- The invariant of the padding: the number of queued nodes is 1 modulo `k - 1`. -/
theorem count_invariant_step (k : Nat) (hk : 2 ≤ k) (ext rest : List Node) (f : Int)
    (h2 : 2 ≤ (ext ++ rest).length) (hext : ext.length = min k (ext ++ rest).length)
    (hI : ((ext ++ rest).length - 1) % (k - 1) = 0) :
    ext.length = k ∧ ((Node.newInternal f ext :: rest).length - 1) % (k - 1) = 0 := by
  obtain ⟨m, hm⟩ := Nat.dvd_of_mod_eq_zero hI
  have hm1 : 1 ≤ m := by
    rcases Nat.eq_zero_or_pos m with h | h
    · subst h; omega
    · exact h
  have hge : k ≤ (ext ++ rest).length := by
    have : (k - 1) * 1 ≤ (k - 1) * m := Nat.mul_le_mul_left _ hm1
    omega
  have hk' : ext.length = k := by omega
  refine ⟨hk', ?_⟩
  simp only [List.length_append, List.length_cons] at hm ⊢
  have e : rest.length + 1 - 1 = (k - 1) * (m - 1) := by
    have : (k - 1) * m = (k - 1) * (m - 1) + (k - 1) := by
      conv_lhs => rw [show m = (m - 1) + 1 by omega]
      rw [Nat.mul_add, Nat.mul_one]
    omega
  rw [e, Nat.mul_mod_right]

theorem Full.children_length {k : Nat} {t : Node} (h : Full k t) :
    ∀ (p : List Nat) (node : Node), t.descend p = some node → node.isLeaf = false →
      node.children.length = k := by
  induction h with
  | leaf c f =>
    intro p node hd hl
    have := descend_newLeaf hd
    subst this
    simp only [Node.descend, Option.some.injEq] at hd
    subst hd
    simp at hl
  | internal f cs hlen hcs ih =>
    intro p node hd hl
    cases p with
    | nil =>
      simp only [Node.descend, Option.some.injEq] at hd
      subst hd
      simpa using hlen
    | cons i p =>
      simp only [Node.descend, Node.children_newInternal] at hd
      cases hc : cs[i]? with
      | none => rw [hc] at hd; exact absurd hd (by simp)
      | some c =>
        rw [hc] at hd
        exact ih c (List.getElem?_mem hc) p node hd hl

theorem startQueue_spec (hP : P.Lawful) (k : Int) (hk : 2 ≤ k) (freq : List (Nat × Int))
    (hn : 1 ≤ freq.length) :
    P.Reachable (startQueue P k freq) ∧
      (P.elems (startQueue P k freq)).Perm
        (initialNodes freq (paddingCount k.toNat freq.length)) ∧
      P.size (startQueue P k freq) = freq.length + paddingCount k.toNat freq.length ∧
      (P.size (startQueue P k freq) - 1) % (k.toNat - 1) = 0 := by
  obtain ⟨p, _, hperm, hpc⟩ := elems_start hP k freq
  have hp := hpc hk hn
  subst hp
  have hreach : P.Reachable (startQueue P k freq) :=
    reachable_addDummyNodes k _ (reachable_pushLeaves freq P.init PriorityQueue.Reachable.init)
  have hsz : P.size (startQueue P k freq) = freq.length + paddingCount k.toNat freq.length := by
    rw [hP.size_eq _ hreach]
    unfold startQueue
    rw [hperm.length_eq]
    simp [initialNodes]
  refine ⟨hreach, hperm, hsz, ?_⟩
  rw [hsz]
  exact paddingCount_invariant k.toNat freq.length (by omega) hn

/-- The tree that `buildTree` returns for a table of at least one entry is full. -/
theorem buildTree_full (hP : P.Lawful) (k : Int) (hk : 2 ≤ k) (freq : List (Nat × Int))
    (hn : 1 ≤ freq.length) :
    ∃ root, buildTree P k freq = Outcome.ok root ∧ Full k.toNat root := by
  obtain ⟨p, hp, hcase⟩ := buildTree_spec hP k hk freq
  have hp' := hp hn
  subst hp'
  rcases hcase with ⟨hnil, _⟩ | ⟨_, root, hok, hI⟩
  · cases freq with
    | nil => simp at hn
    | cons kv rest => simp [initialNodes] at hnil
  refine ⟨root, hok, ?_⟩
  have := hI (fun l => ((l.length - 1) % (k.toNat - 1) = 0) ∧ ∀ x ∈ l, Full k.toNat x)
    (fun l l' hperm hl => ⟨by rw [← hperm.length_eq]; exact hl.1,
      fun x hx => hl.2 x (hperm.symm.subset hx)⟩)
    (by
      intro ext rest f h2 hlen hl
      obtain ⟨e1, e2⟩ := count_invariant_step k.toNat (by omega) ext rest f h2 hlen hl.1
      refine ⟨e2, ?_⟩
      intro x hx
      rcases List.mem_cons.mp hx with rfl | hx
      · exact Full.internal f ext e1 (fun c hc => hl.2 c (List.mem_append_left _ hc))
      · exact hl.2 x (List.mem_append_right _ hx))
    (by
      refine ⟨?_, ?_⟩
      · have := paddingCount_invariant k.toNat freq.length (by omega) hn
        simpa [initialNodes] using this
      · intro x hx
        simp only [initialNodes, List.mem_append, List.mem_map, List.mem_replicate] at hx
        rcases hx with ⟨kv, _, rfl⟩ | ⟨_, rfl⟩
        · exact Full.leaf _ _
        · exact Full.leaf _ _)
  exact this.2 root (List.mem_singleton_self _)

end Rounds

/-! ## The states of the queue when no two nodes tie -/

section States

variable {P : PriorityQueue}

theorem TieFree.subperm {l l' : List Node} (hsub : l.Subperm l') (h : TieFree l') :
    TieFree l := by
  obtain ⟨l1, hperm, hsl⟩ := hsub
  refine TieFree.perm hperm ⟨?_, fun x hx => h.2 x (hsl.subset hx)⟩
  exact List.Nodup.sublist (hsl.map Node.minChar) h.1

theorem CompareNode_trans {a b c : Node} (h1 : CompareNode a b = true)
    (h2 : CompareNode b c = true) : CompareNode a c = true := by
  rw [CompareNode_eq_true_iff] at h1 h2 ⊢
  omega

/-- On a tie-free list the comparator is a strict total order. -/
theorem TieFree.strictTotalOn {l : List Node} (h : TieFree l) : StrictTotalOn l := by
  refine ⟨fun x _ => Libstdcxx.CompareNode_self x,
    fun x _ y _ z _ h1 h2 => CompareNode_trans h1 h2, ?_⟩
  have hp : l.Pairwise (fun x y => x.minChar ≠ y.minChar) := List.pairwise_map.mp h.1
  refine hp.imp ?_
  intro x y hne
  by_cases hxy : CompareNode x y = true
  · exact Or.inl hxy
  · right
    rw [Bool.not_eq_true, CompareNode_eq_false_iff] at hxy
    rw [CompareNode_eq_true_iff]
    omega

theorem pushLeavesStates_spec (hP : P.Lawful) (freq : List (Nat × Int)) (pq : P.Q)
    (hq : P.Reachable pq) :
    ∀ q ∈ pushLeavesStates P freq pq,
      (P.elems q).Subperm (P.elems (pushLeaves P freq pq)) := by
  induction freq generalizing pq with
  | nil => intro q hq'; simp [pushLeavesStates] at hq'
  | cons kv rest ih =>
    intro q hmem
    simp only [pushLeavesStates, List.mem_cons] at hmem
    have hr := PriorityQueue.Reachable.push pq (Node.newLeaf kv.1 kv.2) hq
    rcases hmem with rfl | hmem
    · have := elems_pushLeaves hP rest _ hr
      exact (List.sublist_append_right _ _).subperm.trans this.symm.subperm
    · exact ih _ hr q hmem

theorem pushDummiesStates_spec (hP : P.Lawful) (n : Nat) (pq : P.Q) (hq : P.Reachable pq) :
    ∀ q ∈ pushDummiesStates P n pq,
      (P.elems q).Subperm (P.elems (pushDummies P n pq)) := by
  induction n generalizing pq with
  | zero => intro q hq'; simp [pushDummiesStates] at hq'
  | succ n ih =>
    intro q hmem
    simp only [pushDummiesStates, List.mem_cons] at hmem
    have hr := PriorityQueue.Reachable.push pq (Node.newLeaf 0 0) hq
    rcases hmem with rfl | hmem
    · have := elems_pushDummies hP n _ hr
      exact (List.sublist_append_left _ _).subperm.trans this.symm.subperm
    · exact ih _ hr q hmem

theorem extractStates_spec (hP : P.Lawful) (i : Nat) (pq : P.Q) (hq : P.Reachable pq) :
    ∀ q ∈ extractStates P i pq, (P.elems q).Subperm (P.elems pq) := by
  induction i generalizing pq with
  | zero => intro q hq'; simp [extractStates] at hq'
  | succ i ih =>
    intro q hmem
    simp only [extractStates] at hmem
    split at hmem
    · simp at hmem
    · split at hmem
      · simp at hmem
      · rename_i x hx
        have hpop := hP.elems_pop pq x hq hx
        have hsub : (P.elems (P.pop pq)).Subperm (P.elems pq) :=
          (List.sublist_cons_self x _).subperm.trans hpop.subperm
        rcases List.mem_cons.mp hmem with rfl | hmem
        · exact hsub
        · exact (ih _ (PriorityQueue.Reachable.pop pq hq) q hmem).trans hsub

theorem mergeStates_tieFree (hP : P.Lawful) (k : Int) (hk : 1 ≤ k) (fuel : Nat) (pq : P.Q)
    (hq : P.Reachable pq) (htf : TieFree (P.elems pq)) :
    ∀ q ∈ mergeStates P k fuel pq, TieFree (P.elems q) := by
  induction fuel generalizing pq with
  | zero => intro q hq'; simp [mergeStates] at hq'
  | succ fuel ih =>
    intro q hmem
    simp only [mergeStates] at hmem
    split at hmem
    · rename_i hsz
      obtain ⟨ext, rest, f, s1, s2, s3, s4⟩ := merge_round_spec hP k pq hq
      have hne : ext ≠ [] := by
        intro h
        rw [h] at s2
        simp only [List.length_nil] at s2
        have : 1 ≤ k.toNat := by omega
        omega
      have hr : P.Reachable (mergeRound P k pq) :=
        PriorityQueue.Reachable.push _ _ (reachable_extractChildren _ pq [] 0 hq)
      have htf' : TieFree (P.elems (mergeRound P k pq)) :=
        TieFree.perm s4.symm (TieFree.merge f hne (TieFree.perm s1.symm htf))
      rcases List.mem_append.mp hmem with hmem | hmem
      · exact TieFree.subperm (extractStates_spec hP _ pq hq q hmem) htf
      · rcases List.mem_cons.mp hmem with rfl | hmem
        · exact htf'
        · exact ih _ hr htf' q hmem
    · simp at hmem

/-- The leaves of a table with unique byte keys are tie-free. -/
theorem tieFree_leaves (freq : List (Nat × Int)) (hnodup : (freq.map Prod.fst).Nodup)
    (hbytes : ∀ kv ∈ freq, kv.1 < 256) : TieFree (initialNodes freq 0) := by
  refine ⟨?_, ?_⟩
  · simpa [initialNodes, Function.comp_def] using hnodup
  · intro x hx
    simp only [initialNodes, List.replicate_zero, List.append_nil, List.mem_map] at hx
    obtain ⟨kv, hkv, rfl⟩ := hx
    have := hbytes kv hkv
    simp only [Node.minChar_newLeaf]
    omega

/-- No dummy node is pushed when the radix is 2 or `(n - 1) mod (k - 1) = 0`. -/
theorem dummyCount_eq_zero (k : Int) (n : Nat)
    (h : k = 2 ∨ ((n : Int) - 1) % (k - 1) = 0) : dummyCount k n = 0 := by
  unfold dummyCount
  by_cases h2 : k ≤ 2
  · rw [if_pos h2]
  · rw [if_neg h2]
    rcases h with h | h
    · omega
    · have hdvd : (k - 1) ∣ ((n : Int) - 1) := Int.dvd_of_emod_eq_zero h
      have ht : Int.tmod ((n : Int) - 1) (k - 1) = 0 := by
        obtain ⟨c, hc⟩ := hdvd
        rw [hc, Int.mul_tmod_right]
      simp [ht]

theorem buildStates_tieFree (hP : P.Lawful) (k : Int) (hk : 2 ≤ k) (freq : List (Nat × Int))
    (hnodup : (freq.map Prod.fst).Nodup) (hbytes : ∀ kv ∈ freq, kv.1 < 256)
    (hnopad : k = 2 ∨ ((freq.length : Int) - 1) % (k - 1) = 0) (fuel : Nat) :
    ∀ q ∈ buildStates P k fuel freq, TieFree (P.elems q) := by
  have hl := reachable_pushLeaves freq P.init PriorityQueue.Reachable.init
  have hsz : P.size (pushLeaves P freq P.init) = freq.length := by
    rw [size_pushLeaves hP _ _ PriorityQueue.Reachable.init, size_init hP]; rfl
  have hd : dummyCount k (P.size (pushLeaves P freq P.init)) = 0 := by
    rw [hsz]; exact dummyCount_eq_zero k _ hnopad
  have hstart : startQueue P k freq = pushLeaves P freq P.init := by
    unfold startQueue
    rw [addDummyNodes_dummyCount, hd]
    rfl
  have hperm : (P.elems (pushLeaves P freq P.init)).Perm (initialNodes freq 0) := by
    have h := elems_pushLeaves hP freq P.init PriorityQueue.Reachable.init
    rw [hP.elems_init, List.append_nil] at h
    simpa [initialNodes] using h
  have htf : TieFree (P.elems (pushLeaves P freq P.init)) :=
    TieFree.perm hperm.symm (tieFree_leaves freq hnodup hbytes)
  intro q hmem
  unfold buildStates at hmem
  rw [hd, hstart] at hmem
  simp only [pushDummiesStates, List.append_nil, List.mem_cons, List.mem_append] at hmem
  rcases hmem with (rfl | hmem) | hmem
  · rw [hP.elems_init]
    exact ⟨by simp, by simp⟩
  · exact TieFree.subperm (pushLeavesStates_spec hP freq P.init
      PriorityQueue.Reachable.init q hmem) htf
  · exact mergeStates_tieFree hP k (by omega) fuel _ hl htf q hmem

end States

/-! ## The payload as a packed bit string -/

section Packing

theorem digitBits_eq_binary (val b : Nat) : digitBits val b = binary b val := by
  induction b with
  | zero => rfl
  | succ b ih =>
    simp only [digitBits, binary, List.range_succ, List.reverse_append, List.reverse_singleton,
      List.singleton_append, List.map_cons]
    rw [ih, Nat.shiftRight_eq_div_pow, Nat.and_one_is_mod]
    rfl

theorem payloadBits_eq_specBits (k : Int) (codes : Codes) (input : List Nat) :
    payloadBits k codes input = specBits (bitsPerSymbol k) codes input := by
  simp only [payloadBits, specBits, digitBits_eq_binary]

theorem length_binary (w v : Nat) : (binary w v).length = w := by
  simp [binary]

theorem length_specBits (w : Nat) (codes : Codes) (input : List Nat) :
    (specBits w codes input).length = w * (payloadDigits codes input).length := by
  induction input with
  | nil => simp [specBits, payloadDigits]
  | cons ch rest ih =>
    simp only [specBits, payloadDigits, List.flatMap_cons, List.length_append,
      List.length_map] at ih ⊢
    rw [ih, Nat.mul_add]
    congr 1
    generalize codeOf codes ch = code
    induction code with
    | nil => simp
    | cons c code ihc =>
      simp only [List.flatMap_cons, List.length_append, length_binary, List.length_cons, ihc]
      rw [Nat.mul_add, Nat.mul_one, Nat.add_comm]

set_option maxRecDepth 100000 in
theorem byteOfBits_bitsOfByte : ∀ B, B < 256 → byteOfBits (bitsOfByte B) = B := by
  decide!

/-- The first byte of a packed bit string is made of its first eight bits. -/
theorem packBits_append (l8 rest : List Nat) (h8 : l8.length = 8) :
    packBits (l8 ++ rest) = byteOfBits l8 :: packBits rest := by
  unfold packBits
  have e : ((l8 ++ rest).length + 7) / 8 = (rest.length + 7) / 8 + 1 := by
    rw [List.length_append, h8]
    omega
  rw [e, List.range_succ_eq_map, List.map_cons, List.map_map]
  congr 1
  · rw [Nat.mul_zero, List.drop_zero, List.take_left' h8]
  · apply List.map_congr_left
    intro i _
    simp only [Function.comp]
    have e2 : 8 * (i + 1) = l8.length + 8 * i := by omega
    rw [e2, List.drop_append]

theorem packBits_flatMap (out : List Nat) (hout : ∀ b ∈ out, b < 256) (tail : List Nat) :
    packBits (out.flatMap bitsOfByte ++ tail) = out ++ packBits tail := by
  induction out with
  | nil => rfl
  | cons b out ih =>
    rw [List.flatMap_cons, List.append_assoc, packBits_append _ _ (bitsOfByte_length b),
      byteOfBits_bitsOfByte b (hout b (List.mem_cons_self _ _)),
      ih (fun x hx => hout x (List.mem_cons_of_mem _ hx))]
    rfl

/-- The bits that a partly filled buffer stands for are packed into the buffer itself. -/
theorem packBits_buffer (w : BitWriter) (hw : WriterOk w) :
    packBits ((bitsOfByte w.buffer).take w.bitCount)
      = if w.bitCount > 0 then [w.buffer] else [] := by
  obtain ⟨h1, h2, h3⟩ := hw
  by_cases hc : w.bitCount > 0
  · rw [if_pos hc]
    have hlen : ((bitsOfByte w.buffer).take w.bitCount).length = w.bitCount := by
      rw [List.length_take, bitsOfByte_length]
      omega
    unfold packBits
    have e : (((bitsOfByte w.buffer).take w.bitCount).length + 7) / 8 = 1 := by
      rw [hlen]; omega
    have r1 : List.range 1 = [0] := rfl
    rw [e, r1]
    simp only [List.map_cons, List.map_nil, Nat.mul_zero, List.drop_zero]
    rw [List.take_of_length_le (by rw [hlen]; omega)]
    have hv : bitsValue (bitsOfByte w.buffer) = w.buffer := by
      have := byteOfBits_bitsOfByte w.buffer h1
      unfold byteOfBits at this
      simpa [bitsOfByte_length] using this
    unfold byteOfBits
    rw [hlen, ← h3, List.take_append_drop, hv]
  · rw [if_neg hc]
    have : w.bitCount = 0 := by omega
    rw [this, List.take_zero]
    rfl

/-- The bytes written by `putBit` are bytes. -/
theorem putBit_bytes (bit : Nat) (w : BitWriter) (hw : WriterOk w)
    (hout : ∀ b ∈ w.out, b < 256) : ∀ b ∈ (putBit bit w).out, b < 256 := by
  obtain ⟨h1, h2, _⟩ := hw
  unfold putBit
  simp only []
  split
  · intro b hb
    simp only [List.mem_append, List.mem_singleton] at hb
    rcases hb with hb | rfl
    · exact hout b hb
    · split
      · have : 1 <<< (7 - w.bitCount) < 2 ^ 8 := by
          rw [Nat.one_shiftLeft]
          exact Nat.pow_lt_pow_right (by decide) (by omega)
        exact Nat.or_lt_two_pow h1 this
      · exact h1
  · exact hout

theorem foldl_putBit_bytes (bits : List Nat) (hbits : ∀ b ∈ bits, b ≤ 1) (w : BitWriter)
    (hw : WriterOk w) (hout : ∀ b ∈ w.out, b < 256) :
    ∀ b ∈ (bits.foldl (fun w b => putBit b w) w).out, b < 256 := by
  induction bits generalizing w with
  | nil => exact hout
  | cons b bits ih =>
    simp only [List.foldl_cons]
    exact ih (fun x hx => hbits x (List.mem_cons_of_mem _ hx)) (putBit b w)
      (putBit_spec b (hbits b (List.mem_cons_self _ _)) w hw).1 (putBit_bytes b w hw hout)

/-- The payload that `compress` writes is the packed bit string of the digits. -/
theorem writeData_eq_packBits (k : Int) (codes : Codes) (input : List Nat) :
    writeData k codes input = packBits (payloadBits k codes input) := by
  obtain ⟨ok, e⟩ := foldl_putBit_spec (payloadBits k codes input)
    (payloadBits_le_one k codes input) { buffer := 0, bitCount := 0, out := [] }
    (by decide)
  have hb := foldl_putBit_bytes (payloadBits k codes input)
    (payloadBits_le_one k codes input) { buffer := 0, bitCount := 0, out := [] }
    (by decide) (by simp)
  rw [writeData_eq]
  generalize (payloadBits k codes input).foldl (fun w b => putBit b w)
    { buffer := 0, bitCount := 0, out := [] } = w at ok e hb
  have e0 : writerBits { buffer := 0, bitCount := 0, out := [] } = [] := rfl
  rw [e0, List.nil_append] at e
  rw [← e]
  unfold writerBits
  rw [packBits_flatMap w.out hb, packBits_buffer w ok]
  unfold flush
  split
  · rfl
  · simp

theorem length_packBits (bits : List Nat) : (packBits bits).length = (bits.length + 7) / 8 := by
  simp [packBits]

/-- While every child index is a single decimal digit, the digits of the codes of a tree
are child indices. -/
theorem code_digits_lt {k : Nat} (hk : k ≤ 10) {root : Node} (hwf : WellFormed k root)
    (ch : Nat) : ∀ c ∈ codeOf (generateCodes root [] []) ch, c.toNat - 48 < k := by
  intro c hc
  unfold codeOf at hc
  cases hf : find? (generateCodes root [] []) ch with
  | none => rw [hf] at hc; simp at hc
  | some code =>
    rw [hf] at hc
    simp only [Option.getD_some] at hc
    obtain ⟨p, l, hm, _, rfl⟩ := codes_entry hwf ch code hf
    obtain ⟨_, _, hb⟩ := leafPaths_descend hwf p l hm
    have hmem : c.toNat - 48 ∈ (pathString p).map (fun c => c.toNat - 48) :=
      List.mem_map.mpr ⟨c, hc, rfl⟩
    rw [pathString_digits p (fun i hi => lt_of_lt_of_le (hb i hi) hk)] at hmem
    exact hb _ hmem

end Packing

/-! ## Code lengths and entropy -/

section Gibbs

/-- One term of the inequality of Gibbs. -/
theorem gibbs_term (p K : ℝ) (len : Nat) (hp : 0 < p) (hK : 1 < K) :
    -(p * Real.logb 2 p) - p * (len : ℝ) * Real.logb 2 K
      ≤ ((1 / K) ^ len - p) / Real.log 2 := by
  have hK0 : 0 < K := by linarith
  have hl2 : 0 < Real.log 2 := Real.log_pos (by norm_num)
  have hq : 0 < (1 / K) ^ len := pow_pos (by positivity) _
  have h1 : Real.log ((1 / K) ^ len / p) ≤ (1 / K) ^ len / p - 1 :=
    Real.log_le_sub_one_of_pos (div_pos hq hp)
  have h2 : Real.log ((1 / K) ^ len / p) = -((len : ℝ) * Real.log K) - Real.log p := by
    rw [Real.log_div (ne_of_gt hq) (ne_of_gt hp), Real.log_pow, one_div, Real.log_inv]
    ring
  rw [h2] at h1
  have h3 : p * (-((len : ℝ) * Real.log K) - Real.log p) ≤ (1 / K) ^ len - p := by
    have := mul_le_mul_of_nonneg_left h1 (le_of_lt hp)
    have e : p * ((1 / K) ^ len / p - 1) = (1 / K) ^ len - p := by
      rw [mul_sub, mul_div_cancel₀ _ (ne_of_gt hp), mul_one]
    rw [e] at this
    exact this
  have h4 : -(p * Real.logb 2 p) - p * (len : ℝ) * Real.logb 2 K
      = (p * (-((len : ℝ) * Real.log K) - Real.log p)) / Real.log 2 := by
    simp only [Real.logb]
    field_simp
    ring
  rw [h4]
  exact div_le_div_of_nonneg_right h3 (le_of_lt hl2)

/-- The inequality of Gibbs over the entries of a list: lengths that satisfy the inequality
of Kraft for the radix `K` are on average at least the entropy measured in digits of that
radix. -/
theorem gibbs {α : Type} (l : List α) (p : α → ℝ) (len : α → Nat) (K : ℝ) (hK : 1 < K)
    (hp : ∀ x ∈ l, 0 < p x) (hsum : (l.map p).sum = 1)
    (hkraft : (l.map (fun x => (1 / K) ^ len x)).sum ≤ 1) :
    -(l.map (fun x => p x * Real.logb 2 (p x))).sum
      ≤ (l.map (fun x => p x * (len x : ℝ))).sum * Real.logb 2 K := by
  have hl2 : 0 < Real.log 2 := Real.log_pos (by norm_num)
  have key : ∀ l : List α, (∀ x ∈ l, 0 < p x) →
      -(l.map (fun x => p x * Real.logb 2 (p x))).sum
        - (l.map (fun x => p x * (len x : ℝ))).sum * Real.logb 2 K
      ≤ ((l.map (fun x => (1 / K) ^ len x)).sum - (l.map p).sum) / Real.log 2 := by
    intro l
    induction l with
    | nil => intro _; simp
    | cons x l ih =>
      intro hpos
      have hx := gibbs_term (p x) K (len x) (hpos x (List.mem_cons_self _ _)) hK
      have hl := ih (fun y hy => hpos y (List.mem_cons_of_mem _ hy))
      simp only [List.map_cons, List.sum_cons]
      have e : ((1 / K) ^ len x + (l.map (fun x => (1 / K) ^ len x)).sum
            - (p x + (l.map p).sum)) / Real.log 2
          = ((1 / K) ^ len x - p x) / Real.log 2
            + ((l.map (fun x => (1 / K) ^ len x)).sum - (l.map p).sum) / Real.log 2 := by
        ring
      rw [e]
      linarith
  have h := key l hp
  rw [hsum] at h
  have h0 : ((l.map (fun x => (1 / K) ^ len x)).sum - 1) / Real.log 2 ≤ 0 :=
    div_nonpos_of_nonpos_of_nonneg (by linarith) (le_of_lt hl2)
  linarith

end Gibbs

section Kraft

/-- The sum of Kraft over the leaves below a list of children. -/
theorem kraft_from (K : ℝ) (hK : 0 < K) (cs : List Node)
    (ih : ∀ c ∈ cs, ((leafPaths c).map (fun pl => (1 / K) ^ pl.1.length)).sum ≤ 1) (i : Nat) :
    ((leafPathsFrom cs i).map (fun pl => (1 / K) ^ pl.1.length)).sum
      ≤ (cs.length : ℝ) * (1 / K) := by
  induction cs generalizing i with
  | nil => simp [leafPathsFrom]
  | cons c cs ihl =>
    have h1 := ih c (List.mem_cons_self _ _)
    have h2 := ihl (fun c' hc' => ih c' (List.mem_cons_of_mem _ hc')) (i + 1)
    simp only [leafPathsFrom, List.map_append, List.map_map, List.sum_append, List.length_cons,
      Nat.cast_add, Nat.cast_one]
    have e : (List.map ((fun pl : List Nat × Node => (1 / K) ^ pl.1.length) ∘
          fun pl => (i :: pl.1, pl.2)) (leafPaths c)).sum
        = (1 / K) * ((leafPaths c).map (fun pl => (1 / K) ^ pl.1.length)).sum := by
      rw [← List.sum_map_mul_left]
      congr 1
      apply List.map_congr_left
      intro pl _
      simp only [Function.comp, List.length_cons, pow_succ]
      ring
    rw [e]
    have hK' : 0 ≤ 1 / K := by positivity
    have := mul_le_mul_of_nonneg_left h1 hK'
    linarith

/-- The inequality of Kraft for a tree with at most `k` children per node. -/
theorem kraft {k : Nat} (hk : 1 ≤ k) {t : Node} (h : WellFormed k t) :
    ((leafPaths t).map (fun pl => (1 / (k : ℝ)) ^ pl.1.length)).sum ≤ 1 := by
  have hK : (0 : ℝ) < k := by exact_mod_cast hk
  induction h with
  | leaf c f => simp
  | internal f cs hlen hcs ih =>
    rw [leafPaths_newInternal]
    refine le_trans (kraft_from (k : ℝ) hK cs ih 0) ?_
    have : (cs.length : ℝ) ≤ k := by exact_mod_cast hlen
    calc (cs.length : ℝ) * (1 / (k : ℝ)) ≤ (k : ℝ) * (1 / (k : ℝ)) :=
          mul_le_mul_of_nonneg_right this (by positivity)
      _ = 1 := by field_simp

/-- A sum over entries with pairwise different keys, each of which has a partner of the
same key and weight in a second list, is at most the sum over the second list. -/
theorem sum_le_sum_of_keys {α β : Type} (wK : α → ℝ) (wL : β → ℝ) (s : α → Nat)
    (key : β → Nat) (K : List α) (hs : (K.map s).Nodup) :
    ∀ L : List β, (∀ e ∈ L, 0 ≤ wL e) →
      (∀ a ∈ K, ∃ e ∈ L, key e = s a ∧ wL e = wK a) →
      (K.map wK).sum ≤ (L.map wL).sum := by
  induction K with
  | nil =>
    intro L hw _
    simp only [List.map_nil, List.sum_nil]
    exact List.sum_nonneg (by
      intro x hx
      obtain ⟨e, he, rfl⟩ := List.mem_map.mp hx
      exact hw e he)
  | cons a K ih =>
    intro L hw h
    simp only [List.map_cons, List.nodup_cons] at hs
    obtain ⟨e, he, hkey, hwe⟩ := h a (List.mem_cons_self _ _)
    obtain ⟨l1, l2, rfl⟩ := List.append_of_mem he
    have hrest := ih hs.2 (l1 ++ l2)
      (fun x hx => hw x (by
        rcases List.mem_append.mp hx with h' | h'
        · exact List.mem_append_left _ h'
        · exact List.mem_append_right _ (List.mem_cons_of_mem _ h')))
      (by
        intro a' ha'
        obtain ⟨e', he', hkey', hwe'⟩ := h a' (List.mem_cons_of_mem _ ha')
        refine ⟨e', ?_, hkey', hwe'⟩
        rcases List.mem_append.mp he' with h' | h'
        · exact List.mem_append_left _ h'
        · rcases List.mem_cons.mp h' with rfl | h'
          · exfalso
            apply hs.1
            rw [← hkey, hkey']
            exact List.mem_map.mpr ⟨a', ha', rfl⟩
          · exact List.mem_append_right _ h')
    simp only [List.map_cons, List.sum_cons, List.map_append, List.sum_append] at hrest ⊢
    rw [hwe]
    linarith

end Kraft

section MetricsSums

theorem entropy_eq_sum (log2 : ℝ → ℝ) (freqMap : List (Nat × Int)) (totalChars : Int) :
    calculateShannonEntropy log2 freqMap totalChars
      = -(freqMap.map (fun kv => ((kv.2 : ℝ) / (totalChars : ℝ))
          * log2 ((kv.2 : ℝ) / (totalChars : ℝ)))).sum := by
  have h : ∀ (l : List (Nat × Int)) (acc : ℝ),
      l.foldl (fun entropy kv => entropy - ((kv.2 : ℝ) / (totalChars : ℝ))
          * log2 ((kv.2 : ℝ) / (totalChars : ℝ))) acc
        = acc - (l.map (fun kv => ((kv.2 : ℝ) / (totalChars : ℝ))
          * log2 ((kv.2 : ℝ) / (totalChars : ℝ)))).sum := by
    intro l
    induction l with
    | nil => intro acc; simp
    | cons kv l ih =>
      intro acc
      simp only [List.foldl_cons, List.map_cons, List.sum_cons, ih]
      ring
  unfold calculateShannonEntropy
  rw [h]
  ring

theorem averageLength_eq_sum (freqMap : List (Nat × Int)) (codes : Codes) (totalChars : Int) :
    (calculateAverageCodeLength freqMap codes totalChars : ℝ)
      = (freqMap.map (fun kv => ((kv.2 : ℝ) / (totalChars : ℝ))
          * ((codeOf codes kv.1).length : ℝ))).sum := by
  have h : ∀ (l : List (Nat × Int)) (acc : ℝ),
      l.foldl (fun avgLength kv =>
          match find? codes kv.1 with
          | some code => avgLength + ((kv.2 : ℝ) / (totalChars : ℝ)) * (code.length : ℝ)
          | none => avgLength) acc
        = acc + (l.map (fun kv => ((kv.2 : ℝ) / (totalChars : ℝ))
          * ((codeOf codes kv.1).length : ℝ))).sum := by
    intro l
    induction l with
    | nil => intro acc; simp
    | cons kv l ih =>
      intro acc
      simp only [List.foldl_cons, List.map_cons, List.sum_cons, ih, codeOf]
      cases find? codes kv.1 with
      | none => simp
      | some code => simp only [Option.getD_some]; ring
  unfold calculateAverageCodeLength
  rw [h]
  ring

end MetricsSums

section EntropyBound

variable {P : PriorityQueue}

/-- The length of a path string is the length of the path while every child index is a
single decimal digit. -/
theorem length_pathString (p : List Nat) (h : ∀ i ∈ p, i < 10) :
    (pathString p).length = p.length := by
  have := congrArg List.length (pathString_digits p h)
  rwa [List.length_map] at this

/-- The codes that the entries of a table with unique keys get from the tree of
`buildTree` satisfy the inequality of Kraft for the radix. -/
theorem kraft_codes (hP : P.Lawful) (k : Int) (hk2 : 2 ≤ k) (hk10 : k ≤ 10)
    (freq : List (Nat × Int)) (hnodup : (freq.map Prod.fst).Nodup) (root : Node)
    (hok : buildTree P k freq = Outcome.ok root) :
    (freq.map (fun kv => (1 / (k : ℝ)) ^ (codeOf (generateCodes root [] []) kv.1).length)).sum
      ≤ 1 := by
  obtain ⟨hwf, _⟩ := buildTree_root hP k hk2 freq root hok
  obtain ⟨p, _, _, hsyms⟩ := leaf_symbols hP k hk2 freq root hok
  have hkr : ((k.toNat : Nat) : ℝ) = (k : ℝ) := by
    have : ((k.toNat : Nat) : Int) = k := Int.toNat_of_nonneg (by omega)
    exact_mod_cast this
  have hkraft := kraft (by omega : 1 ≤ k.toNat) hwf
  rw [hkr] at hkraft
  refine le_trans ?_ hkraft
  refine sum_le_sum_of_keys _ _ Prod.fst (fun pl : List Nat × Node => pl.2.ch) freq hnodup
    (leafPaths root) (fun e _ => by positivity) ?_
  intro kv hkv
  have hmem : kv.1 ∈ (leafPaths root).map (fun pl => pl.2.ch) := by
    apply hsyms.symm.subset
    exact List.mem_append_left _ (List.mem_map.mpr ⟨kv, hkv, rfl⟩)
  obtain ⟨e, he, hes⟩ := List.mem_map.mp hmem
  have hsome : (find? (generateCodes root [] []) kv.1).isSome = true := by
    rw [generateCodes_eq hwf]
    exact find?_foldl_assign_isSome _ _ _ _ _ (Or.inl ⟨e, he, hes⟩)
  obtain ⟨c, hc⟩ := Option.isSome_iff_exists.mp hsome
  obtain ⟨q, l, hm, hl, rfl⟩ := codes_entry hwf kv.1 c hc
  obtain ⟨_, _, hb⟩ := leafPaths_descend hwf q l hm
  refine ⟨(q, l), hm, hl, ?_⟩
  simp only [codeOf, hc, Option.getD_some]
  rw [length_pathString q (fun i hi => lt_of_lt_of_le (hb i hi) (by omega))]

/-- The relative frequencies of a table with positive counts are positive and add up
to 1. -/
theorem relative_frequencies (freq : List (Nat × Int)) (hne : freq ≠ [])
    (hpos : ∀ kv ∈ freq, 0 < kv.2) (totalChars : Int)
    (htot : totalChars = (freq.map Prod.snd).sum) :
    (∀ kv ∈ freq, (0 : ℝ) < (kv.2 : ℝ) / (totalChars : ℝ)) ∧
      (freq.map (fun kv => (kv.2 : ℝ) / (totalChars : ℝ))).sum = 1 := by
  have hN : 0 < totalChars := by
    rw [htot]
    apply List.sum_pos
    · intro x hx
      obtain ⟨kv, hkv, rfl⟩ := List.mem_map.mp hx
      exact hpos kv hkv
    · simpa using hne
  have hNr : (0 : ℝ) < (totalChars : ℝ) := by exact_mod_cast hN
  refine ⟨?_, ?_⟩
  · intro kv hkv
    have : (0 : ℝ) < (kv.2 : ℝ) := by exact_mod_cast hpos kv hkv
    exact div_pos this hNr
  · have e : (freq.map (fun kv => (kv.2 : ℝ) / (totalChars : ℝ))).sum
        = (freq.map (fun kv => (kv.2 : ℝ))).sum / (totalChars : ℝ) := by
      simp only [div_eq_mul_inv, List.sum_map_mul_right]
    have e2 : (freq.map (fun kv => (kv.2 : ℝ))).sum = (totalChars : ℝ) := by
      rw [htot, Int.cast_list_sum, List.map_map]
      rfl
    rw [e, e2]
    exact div_self (ne_of_gt hNr)

end EntropyBound

/-! ## Claims -/

/-- C4 (as stated, refuted): on the empty input `compress` does not write the header
`k, 0, 0`; with radix 2 the artifact differs from that header. -/
theorem compress_empty_not_header :
    compress libstdcxx 2 [] ≠ Outcome.ok (writeHeader libstdcxx 2 0 []) := by
  decide

/-- C4 (amended): for every radix and on every platform, `compress` applied to the empty
byte sequence creates an artifact of zero bytes: no header and no payload. -/
theorem compress_empty (pf : Platform) (k : Int) : compress pf k [] = Outcome.ok [] := by
  simp [compress]

/-- C3 (the code at the failing input): `compress` with radix 2 turns `"aaaa"` into the
header alone (single-leaf tree, empty code, zero-length payload), and `decompress` of that
artifact writes nothing instead of `"aaaa"`. -/
theorem single_symbol_decodes_to_nothing :
    compress libstdcxx 2 [97, 97, 97, 97]
        = Outcome.ok [2, 4, 0, 0, 0, 1, 0, 0, 0, 0, 0, 0, 0, 97, 4, 0, 0, 0] ∧
      decompress libstdcxx 2 [2, 4, 0, 0, 0, 1, 0, 0, 0, 0, 0, 0, 0, 97, 4, 0, 0, 0]
        = Outcome.ok [] := by
  decide

/-- C5 (the code at the failing input): `decompress` of the header-only artifact with
radix 2, byte count 0 and 0 entries runs `buildTree` on an empty table, which takes
`top()` of the empty priority queue; with radix 3 `buildTree` makes a tree of three
padding leaves of the empty table. -/
theorem header_only_artifact_undefined :
    decompress libstdcxx 2 [2, 0, 0, 0, 0, 0, 0, 0, 0, 0, 0, 0, 0] = Outcome.undefined ∧
      codeTable libstdcxx.pq 2 [] = Outcome.undefined ∧
      codeTable libstdcxx.pq 3 [] = Outcome.ok [(0, ['2'])] := by
  decide

/-- C9: for a frequency table of `n ≥ 2` entries and a radix `k ≥ 2`, the queue that
`buildTree` holds after `addDummyNodes` consists of one leaf per entry and exactly
`paddingCount k n` padding leaves of frequency 0, and the leaf count `L = n + p`
satisfies `(L - 1) mod (k - 1) = 0`. -/
theorem padding_count_and_invariant (P : PriorityQueue) (hP : P.Lawful) (k : Nat) (hk : 2 ≤ k)
    (freq : List (Nat × Int)) (hn : 2 ≤ freq.length) :
    (P.elems (addDummyNodes P k (pushLeaves P freq P.init))).Perm
        (freq.map (fun kv => Node.newLeaf kv.1 kv.2)
          ++ List.replicate (paddingCount k freq.length) (Node.newLeaf 0 0)) ∧
      (freq.length + paddingCount k freq.length - 1) % (k - 1) = 0 ∧
      (k = 2 → paddingCount k freq.length = 0) := by
  have hsz : P.size (pushLeaves P freq P.init) = freq.length := by
    rw [size_pushLeaves hP _ _ PriorityQueue.Reachable.init, size_init hP]; rfl
  refine ⟨?_, paddingCount_invariant k freq.length hk (by omega), ?_⟩
  · rw [addDummyNodes_eq k hk _ (by omega), hsz]
    refine (elems_pushDummies hP _ _
      (reachable_pushLeaves freq P.init PriorityQueue.Reachable.init)).trans ?_
    refine List.Perm.append_right _ ?_
    have h := elems_pushLeaves hP freq P.init PriorityQueue.Reachable.init
    rw [hP.elems_init, List.append_nil] at h
    exact h
  · intro h2
    subst h2
    simp [paddingCount, Nat.mod_one]

/-- Witness of C9: four entries and radix 3 give exactly one padding leaf and five leaves. -/
theorem padding_count_and_invariant_witness :
    (Libstdcxx.priorityQueue.elems (addDummyNodes Libstdcxx.priorityQueue ((3 : Nat) : Int)
        (pushLeaves Libstdcxx.priorityQueue [(97, 1), (98, 1), (99, 1), (100, 1)]
          Libstdcxx.priorityQueue.init))).Perm
        ([(97, 1), (98, 1), (99, 1), (100, 1)].map (fun kv => Node.newLeaf kv.1 kv.2)
          ++ List.replicate (paddingCount 3 [((97 : Nat), (1 : Int)), (98, 1), (99, 1), (100, 1)].length)
              (Node.newLeaf 0 0)) ∧
      ([((97 : Nat), (1 : Int)), (98, 1), (99, 1), (100, 1)].length
          + paddingCount 3 [((97 : Nat), (1 : Int)), (98, 1), (99, 1), (100, 1)].length - 1) % (3 - 1) = 0 ∧
      (3 = 2 → paddingCount 3 [((97 : Nat), (1 : Int)), (98, 1), (99, 1), (100, 1)].length = 0) :=
  padding_count_and_invariant Libstdcxx.priorityQueue Libstdcxx.heap_lawful 3
    (by decide) [(97, 1), (98, 1), (99, 1), (100, 1)] (by decide)

/-- C10 (as stated, refuted): with radix 3 and the table `a:1, b:1, c:1`, the payload byte
`11 00 01 10` starts with the digit 3, which no child of the root answers to;
`decompress` returns normally and the three symbols after the invalid digit are
written. -/
theorem invalid_digit_is_skipped :
    decompress libstdcxx 3
        [3, 3, 0, 0, 0, 3, 0, 0, 0, 0, 0, 0, 0, 97, 1, 0, 0, 0, 98, 1, 0, 0, 0, 99, 1, 0, 0, 0, 198]
      = Outcome.ok [97, 98, 99] := by
  decide

/-- C10 (amended): when the digit read is not smaller than the number of children of the
cursor node, the tree step leaves the cursor where it is, and the round of the decoding
loop is the round with an unchanged cursor: no error is reported and decoding goes on with
the next digit. -/
theorem invalid_digit_keeps_cursor (root : Node) (bps : Nat) (totalChars : Int) (byte fuel : Nat)
    (bitPos : Int) (d : Decoder) (hpos : 0 ≤ bitPos) (hcount : d.charsDecoded < totalChars)
    (hinv : d.curr.children.length ≤ (readDigit byte bps bitPos 0).1) :
    traverse d.curr (readDigit byte bps bitPos 0).1 = d.curr ∧
      decodeByte root bps totalChars byte (fuel + 1) bitPos d
        = decodeByte root bps totalChars byte fuel (readDigit byte bps bitPos 0).2
            (emitIfLeaf root d) := by
  have ht : traverse d.curr (readDigit byte bps bitPos 0).1 = d.curr := by
    unfold traverse
    rw [dif_neg (by omega)]
  refine ⟨ht, ?_⟩
  simp only [decodeByte]
  rw [if_pos ⟨hpos, hcount⟩, ht]

/-- Witness of C10 (amended): the first round on the byte `11 00 01 10` at the root of
`abcTree`. -/
theorem invalid_digit_keeps_cursor_witness :
    (0 : Int) ≤ 7 ∧ (0 : Int) < 3 ∧
      abcTree.children.length ≤ (readDigit 198 2 7 0).1 ∧
      traverse abcTree (readDigit 198 2 7 0).1 = abcTree ∧
      decodeByte abcTree 2 3 198 (7 + 1) 7 { curr := abcTree, charsDecoded := 0, out := [] }
        = decodeByte abcTree 2 3 198 7 (readDigit 198 2 7 0).2
            (emitIfLeaf abcTree { curr := abcTree, charsDecoded := 0, out := [] }) :=
  ⟨by decide, by decide, by decide,
    invalid_digit_keeps_cursor abcTree 2 3 198 7 7
      { curr := abcTree, charsDecoded := 0, out := [] } (by decide) (by decide) (by decide)⟩

/-- C6 (as stated, refuted): with radix 11 and eleven symbols of frequency 1 the root has
eleven leaf children; the code `"1"` of `b` is a prefix of the code `"10"` of `k`. -/
theorem prefix_free_fails_radix_11 :
    codeTable libstdcxx.pq 11
        [(97, 1), (98, 1), (99, 1), (100, 1), (101, 1), (102, 1), (103, 1), (104, 1), (105, 1),
          (106, 1), (107, 1)]
      = Outcome.ok [(97, ['0']), (98, ['1']), (99, ['2']), (100, ['3']), (101, ['4']),
          (102, ['5']), (103, ['6']), (104, ['7']), (105, ['8']), (106, ['9']),
          (107, ['1', '0'])] ∧
      ['1'] <+: ['1', '0'] := by
  decide!

/-- C6 (amended): for every frequency table and every radix `2 ≤ k ≤ 10` (so that every
child index is a single decimal digit), `buildTree` returns a tree for every non-empty
table, and in the code table that `generateCodes` makes of a returned tree no code is a
prefix of the code of a different symbol. -/
theorem prefix_free_codes (P : PriorityQueue) (hP : P.Lawful) (k : Int) (hk2 : 2 ≤ k)
    (hk10 : k ≤ 10) (freq : List (Nat × Int)) :
    (freq ≠ [] → ∃ codes, codeTable P k freq = Outcome.ok codes) ∧
      ∀ codes, codeTable P k freq = Outcome.ok codes →
        ∀ s1 s2 c1 c2, s1 ≠ s2 → find? codes s1 = some c1 → find? codes s2 = some c2 →
          ¬ c1 <+: c2 := by
  constructor
  · intro hne
    obtain ⟨p, _, hcase⟩ := buildTree_spec hP k hk2 freq
    rcases hcase with ⟨hnil, _⟩ | ⟨_, root, hok, _⟩
    · cases freq with
      | nil => exact absurd rfl hne
      | cons kv rest => simp [initialNodes] at hnil
    · exact ⟨generateCodes root [] [], by simp only [codeTable, hok]⟩
  · intro codes hcodes s1 s2 c1 c2 hne h1 h2 hpre
    unfold codeTable at hcodes
    cases hb : buildTree P k freq with
    | undefined => rw [hb] at hcodes; exact absurd hcodes (by simp)
    | diverges => rw [hb] at hcodes; exact absurd hcodes (by simp)
    | ok root =>
      rw [hb] at hcodes
      simp only [Outcome.ok.injEq] at hcodes
      subst hcodes
      obtain ⟨hwf, _⟩ := buildTree_root hP k hk2 freq root hb
      obtain ⟨p1, l1, m1, e1, rfl⟩ := codes_entry hwf s1 c1 h1
      obtain ⟨p2, l2, m2, e2, rfl⟩ := codes_entry hwf s2 c2 h2
      obtain ⟨_, hl⟩ := leaf_of_prefix (by omega) hwf m1 m2 hpre
      apply hne
      rw [← e1, ← e2, hl]

/-- Witness of C6 (amended): radix 3 and the table `a:3, b:3, c:3` on the libstdc++
queue. -/
theorem prefix_free_codes_witness :
    ([((97 : Nat), (3 : Int)), (98, 3), (99, 3)] ≠ [] →
        ∃ codes, codeTable Libstdcxx.priorityQueue 3 [(97, 3), (98, 3), (99, 3)]
          = Outcome.ok codes) ∧
      ∀ codes, codeTable Libstdcxx.priorityQueue 3 [(97, 3), (98, 3), (99, 3)]
          = Outcome.ok codes →
        ∀ s1 s2 c1 c2, s1 ≠ s2 → find? codes s1 = some c1 → find? codes s2 = some c2 →
          ¬ c1 <+: c2 :=
  prefix_free_codes Libstdcxx.priorityQueue Libstdcxx.heap_lawful 3 (by decide)
    (by decide) [(97, 3), (98, 3), (99, 3)]

/-- C8 (as stated, refuted): with radix 3 the table `a:1, b:1` gets one padding leaf, and
the code table has an entry for the byte 0, which is no key of the table; with the table
`0:3, a:1, b:2, c:5` the leaf made for the byte 0 is child 0 of the root, while `codes[0]`
is `"10"`, the path of the padding leaf. -/
theorem code_table_has_padding_entry :
    codeTable libstdcxx.pq 3 [(97, 1), (98, 1)]
        = Outcome.ok [(0, ['0']), (97, ['1']), (98, ['2'])] ∧
      0 ∉ [((97 : Nat), (1 : Int)), (98, 1)].map Prod.fst ∧
      codeTable libstdcxx.pq 3 [(0, 3), (97, 1), (98, 2), (99, 5)]
        = Outcome.ok [(0, ['1', '0']), (97, ['1', '1']), (98, ['1', '2']), (99, ['2'])] ∧
      (match buildTree libstdcxx.pq 3 [(0, 3), (97, 1), (98, 2), (99, 5)] with
        | Outcome.ok root => (root.descend [0]).map (fun l => (l.ch, l.freq, l.isLeaf))
        | _ => none) = some (0, 3, true) := by
  decide!

/-- C8 (amended): for a frequency table with `n ≥ 2` entries (keys unique) and a radix
`k ≥ 2`, `buildTree` returns a tree; the keys of `codes` after `generateCodes` are the
keys of the table, and in addition the byte 0 when at least one padding leaf was added;
and for every table entry whose symbol is not the byte 0, or when no padding leaf was
added, `codes[s]` is the string of the child indices (as decimal numerals) on the path
from the root to the leaf made for that entry. -/
theorem code_table_keys_and_paths (P : PriorityQueue) (hP : P.Lawful) (k : Int) (hk : 2 ≤ k)
    (freq : List (Nat × Int)) (hn : 2 ≤ freq.length) (hnodup : (freq.map Prod.fst).Nodup) :
    ∃ root, buildTree P k freq = Outcome.ok root ∧
      (∀ s, (find? (generateCodes root [] []) s).isSome = true ↔
        (s ∈ freq.map Prod.fst ∨ (s = 0 ∧ 0 < paddingCount k.toNat freq.length))) ∧
      (∀ s f, (s, f) ∈ freq → (s ≠ 0 ∨ paddingCount k.toNat freq.length = 0) →
        ∃ p, root.descend p = some (Node.newLeaf s f) ∧
          find? (generateCodes root [] []) s = some (pathString p)) := by
  obtain ⟨root, hok, hkeys, hpaths⟩ := code_table_spec hP k hk freq hn hnodup
  refine ⟨root, hok, hkeys, ?_⟩
  intro s f hsf hcond
  obtain ⟨p, hp, hfind⟩ := hpaths s f hsf hcond
  exact ⟨p, (leafPaths_descend (buildTree_root hP k hk freq root hok).1 p _ hp).1, hfind⟩

/-- Witness of C8 (amended): radix 3 and the table `a:1, b:1` on the libstdc++ queue. -/
theorem code_table_keys_and_paths_witness :
    ∃ root, buildTree Libstdcxx.priorityQueue 3 [(97, 1), (98, 1)] = Outcome.ok root ∧
      (∀ s, (find? (generateCodes root [] []) s).isSome = true ↔
        (s ∈ [((97 : Nat), (1 : Int)), (98, 1)].map Prod.fst ∨
          (s = 0 ∧ 0 < paddingCount (3 : Int).toNat [((97 : Nat), (1 : Int)), (98, 1)].length))) ∧
      (∀ s f, (s, f) ∈ [((97 : Nat), (1 : Int)), (98, 1)] →
        (s ≠ 0 ∨ paddingCount (3 : Int).toNat [((97 : Nat), (1 : Int)), (98, 1)].length = 0) →
        ∃ p, root.descend p = some (Node.newLeaf s f) ∧
          find? (generateCodes root [] []) s = some (pathString p)) :=
  code_table_keys_and_paths Libstdcxx.priorityQueue Libstdcxx.heap_lawful 3 (by decide)
    [(97, 1), (98, 1)] (by decide) (by decide)

/-- C7 (the code at the failing input): with radix 3 the table `0:2, 1:1, 2:1, 3:1, 4:1, 5:2`
gets one padding leaf; pushed in this order and in the reverse order, the same entries
give different code tables on the libstdc++ queue (the symbol 1 gets `"01"` in one and
`"221"` in the other). -/
theorem code_table_depends_on_order :
    codeTable libstdcxx.pq 3 [(0, 2), (1, 1), (2, 1), (3, 1), (4, 1), (5, 2)]
        = Outcome.ok [(0, ['2', '2']), (1, ['0', '1']), (2, ['0', '2']), (5, ['1']),
            (3, ['2', '0']), (4, ['2', '1'])] ∧
      codeTable libstdcxx.pq 3 (List.reverse [(0, 2), (1, 1), (2, 1), (3, 1), (4, 1), (5, 2)])
        = Outcome.ok [(0, ['2', '2', '0']), (5, ['1']), (3, ['2', '0']), (4, ['2', '1']),
            (1, ['2', '2', '1']), (2, ['2', '2', '2'])] := by
  decide!

/-- C2 (the code at the failing input): with radix 3 the input `5 5 4 3 2 1 0 0` has six
distinct bytes, one of them 0, and gets one padding leaf; on the libstdc++ platform
`decompress` turns the artifact of `compress` into `5 5 4 3 0 3 5 2`. -/
theorem roundtrip_fails_padding_and_zero :
    compress libstdcxx 3 [5, 5, 4, 3, 2, 1, 0, 0]
        = Outcome.ok [3, 8, 0, 0, 0, 6, 0, 0, 0, 0, 0, 0, 0, 0, 2, 0, 0, 0, 1, 1, 0, 0, 0,
            2, 1, 0, 0, 0, 3, 1, 0, 0, 0, 4, 1, 0, 0, 0, 5, 2, 0, 0, 0, 89, 130, 26, 160] ∧
      decompress libstdcxx 3 [3, 8, 0, 0, 0, 6, 0, 0, 0, 0, 0, 0, 0, 0, 2, 0, 0, 0, 1, 1, 0, 0, 0,
            2, 1, 0, 0, 0, 3, 1, 0, 0, 0, 4, 1, 0, 0, 0, 5, 2, 0, 0, 0, 89, 130, 26, 160]
        = Outcome.ok [5, 5, 4, 3, 0, 3, 5, 2] := by
  decide!

/-- C1 (as stated, refuted): the round trip fails for the one-byte input `b` with radix 2
(nothing is written back), for five distinct bytes with radix 5 (the digit 4 does not fit
the two bits it is packed in), for the empty input (the empty artifact has no header to
read), and for an input with the byte 0 and a padding leaf with radix 3. -/
theorem roundtrip_fails :
    (compress libstdcxx 2 [98]
        = Outcome.ok [2, 1, 0, 0, 0, 1, 0, 0, 0, 0, 0, 0, 0, 98, 1, 0, 0, 0] ∧
      decompress libstdcxx 2 [2, 1, 0, 0, 0, 1, 0, 0, 0, 0, 0, 0, 0, 98, 1, 0, 0, 0]
        = Outcome.ok []) ∧
    (compress libstdcxx 5 [97, 98, 99, 100, 101]
        = Outcome.ok [5, 5, 0, 0, 0, 5, 0, 0, 0, 0, 0, 0, 0, 101, 1, 0, 0, 0, 100, 1, 0, 0, 0,
            99, 1, 0, 0, 0, 98, 1, 0, 0, 0, 97, 1, 0, 0, 0, 27, 0] ∧
      decompress libstdcxx 5 [5, 5, 0, 0, 0, 5, 0, 0, 0, 0, 0, 0, 0, 101, 1, 0, 0, 0, 100, 1, 0, 0, 0,
            99, 1, 0, 0, 0, 98, 1, 0, 0, 0, 97, 1, 0, 0, 0, 27, 0]
        = Outcome.ok [97, 98, 99, 100, 97]) ∧
    (compress libstdcxx 2 [] = Outcome.ok [] ∧ decompress libstdcxx 2 [] = Outcome.undefined) ∧
    (compress libstdcxx 3 [101, 101, 100, 99, 98, 97, 0, 0]
        = Outcome.ok [3, 8, 0, 0, 0, 6, 0, 0, 0, 0, 0, 0, 0, 0, 2, 0, 0, 0, 97, 1, 0, 0, 0,
            98, 1, 0, 0, 0, 99, 1, 0, 0, 0, 100, 1, 0, 0, 0, 101, 2, 0, 0, 0, 89, 130, 26, 160] ∧
      decompress libstdcxx 3 [3, 8, 0, 0, 0, 6, 0, 0, 0, 0, 0, 0, 0, 0, 2, 0, 0, 0, 97, 1, 0, 0, 0,
            98, 1, 0, 0, 0, 99, 1, 0, 0, 0, 100, 1, 0, 0, 0, 101, 2, 0, 0, 0, 89, 130, 26, 160]
        = Outcome.ok [101, 101, 100, 99, 0, 99, 101, 98]) := by
  decide!

/-- C1 (amended): on every lawful platform, for radix 2, 3 or 4 and every byte sequence
of fewer than `2 ^ 31` bytes with at least two distinct byte values, such that
`buildTree` adds no padding leaf, or adds one while the sequence does not contain the byte
0, `decompress` (whatever radix its compressor was constructed with) applied to the
artifact that `compress` produces yields exactly the sequence. -/
theorem roundtrip_two_distinct_symbols (pf : Platform) (hpf : pf.Lawful) (k k' : Int)
    (hk : k = 2 ∨ k = 3 ∨ k = 4) (input : List Nat) (hbytes : ∀ b ∈ input, b < 256)
    (hlen : input.length < 2147483648) (hdist : ∃ a ∈ input, ∃ b ∈ input, a ≠ b)
    (hpad : paddingCount k.toNat input.toFinset.card = 0 ∨
      (paddingCount k.toNat input.toFinset.card = 1 ∧ 0 ∉ input)) :
    ∃ file, compress pf k input = Outcome.ok file ∧
      decompress pf k' file = Outcome.ok input := by
  obtain ⟨file, hc, hd⟩ := roundtrip_core pf hpf k k' hk input hbytes hlen hdist hpad
  exact ⟨file, hc, hd⟩

/-- Witness of C1 (amended): `"abcabcabc"` with radix 2 on the libstdc++ platform. -/
theorem roundtrip_two_distinct_symbols_witness :
    libstdcxx.Lawful ∧ (∀ b ∈ [97, 98, 99, 97, 98, 99, 97, 98, 99], b < 256) ∧
      [97, 98, 99, 97, 98, 99, 97, 98, 99].length < 2147483648 ∧
      ∃ file, compress libstdcxx 2 [97, 98, 99, 97, 98, 99, 97, 98, 99] = Outcome.ok file ∧
        decompress libstdcxx 2 file = Outcome.ok [97, 98, 99, 97, 98, 99, 97, 98, 99] :=
  ⟨libstdcxx_lawful, by decide, by decide,
    roundtrip_two_distinct_symbols libstdcxx libstdcxx_lawful 2 2 (Or.inl rfl)
      [97, 98, 99, 97, 98, 99, 97, 98, 99] (by decide) (by decide)
      ⟨97, by decide, 98, by decide, by decide⟩ (Or.inl (by decide))⟩

/-- C11 (as stated, refuted): for radix 5 the packer and the unpacker use 2 bits per digit
where `ceil(log2 5)` is 3: the packer writes the digit 4 as the bits `0 0`, which stand
for the digit 0, and the unpacker takes two bits, the digit 2, from a byte that starts
with the three bits `1 0 0` of the digit 4. -/
theorem digit_width_fails_radix_5 :
    bitsPerSymbol 5 = 2 ∧ digitWidth 5 = 3 ∧ digitBits 4 (bitsPerSymbol 5) = [0, 0] ∧
      bitsValue (digitBits 4 (bitsPerSymbol 5)) = 0 ∧
      readDigit 128 (bitsPerSymbol 5) 7 0 = (2, 5) := by
  refine ⟨by decide, by simp [digitWidth, Nat.clog], by decide, by decide, by decide⟩

/-- C11 (amended): for the radices 2, 3 and 4 the width `bitsPerSymbol k` that the packer
and the unpacker use is `ceil(log2 k)`; every digit `v` below `k` fits into that many
bits, the packer writes that many bits for it, most significant first, whose value is
`v`, and the unpacker reads `v` back from a byte that starts with these bits. -/
theorem digit_width_radix_2_to_4 (k : Int) (hk2 : 2 ≤ k) (hk4 : k ≤ 4) :
    bitsPerSymbol k = digitWidth k.toNat ∧
      ∀ v : Nat, (v : Int) < k →
        v < 2 ^ bitsPerSymbol k ∧
        (digitBits v (bitsPerSymbol k)).length = bitsPerSymbol k ∧
        bitsValue (digitBits v (bitsPerSymbol k)) = v ∧
        readDigit (v <<< (8 - bitsPerSymbol k)) (bitsPerSymbol k) 7 0
          = (v, 7 - (bitsPerSymbol k : Int)) := by
  have h : k = 2 ∨ k = 3 ∨ k = 4 := by omega
  rcases h with rfl | rfl | rfl
  · refine ⟨by simp [digitWidth, Nat.clog, bitsPerSymbol], ?_⟩
    intro v hv
    have hv' : v < 2 := by omega
    interval_cases v <;> decide
  · refine ⟨by simp [digitWidth, Nat.clog, bitsPerSymbol], ?_⟩
    intro v hv
    have hv' : v < 3 := by omega
    interval_cases v <;> decide
  · refine ⟨by simp [digitWidth, Nat.clog, bitsPerSymbol], ?_⟩
    intro v hv
    have hv' : v < 4 := by omega
    interval_cases v <;> decide

/-- Witness of C11 (amended): radix 3 and its digits 0, 1 and 2. -/
theorem digit_width_radix_2_to_4_witness :
    bitsPerSymbol 3 = digitWidth (3 : Int).toNat ∧
      ∀ v : Nat, (v : Int) < 3 →
        v < 2 ^ bitsPerSymbol 3 ∧
        (digitBits v (bitsPerSymbol 3)).length = bitsPerSymbol 3 ∧
        bitsValue (digitBits v (bitsPerSymbol 3)) = v ∧
        readDigit (v <<< (8 - bitsPerSymbol 3)) (bitsPerSymbol 3) 7 0
          = (v, 7 - (bitsPerSymbol 3 : Int)) :=
  digit_width_radix_2_to_4 3 (by decide) (by decide)

/-- C12 (as stated, refuted): with radix 5 `compress` packs the ten digits of
`"abcdeabcde"` with 2 bits each into the three bytes `27 6 192`, where the packing with
`ceil(log2 5) = 3` bits per digit gives the four bytes `5 56 10 112`. -/
theorem payload_packing_fails_radix_5 :
    compress libstdcxx 5 [97, 98, 99, 100, 101, 97, 98, 99, 100, 101]
        = Outcome.ok (writeHeader libstdcxx 5 10
            [(101, 2), (100, 2), (99, 2), (98, 2), (97, 2)] ++ [27, 6, 192]) ∧
      codeTable libstdcxx.pq 5 [(101, 2), (100, 2), (99, 2), (98, 2), (97, 2)]
        = Outcome.ok [(97, ['0']), (98, ['1']), (99, ['2']), (100, ['3']), (101, ['4'])] ∧
      digitWidth 5 = 3 ∧
      packBits (specBits 3 [(97, ['0']), (98, ['1']), (99, ['2']), (100, ['3']), (101, ['4'])]
        [97, 98, 99, 100, 101, 97, 98, 99, 100, 101]) = [5, 56, 10, 112] := by
  refine ⟨by decide!, by decide!, by simp [digitWidth, Nat.clog], by decide!⟩

/-- C12 (amended): for every radix `k ≥ 2` and every non-empty input of fewer than `2 ^ 31`
bytes (the range in which the counters of `compress` do not overflow), `compress` returns
the header followed by the payload `packBits (specBits w codes input)`, where `w` is the
width `bitsPerSymbol k` (1 for radix 2, 2 otherwise): the `w` low-order bits of every
digit of the code of every input byte, in order, most significant bit first, cut into
bytes from bit 7 down with zero bits after the last one.  The payload has
`ceil(T / 8)` bytes for `T = w` times the number of code digits, which are `T / 8` bytes
without a padded last byte when `T` is a multiple of 8.  For `k ≤ 4` the width is
`ceil(log2 k)` and every digit is below `2 ^ w`. -/
theorem payload_packing (pf : Platform) (hpf : pf.Lawful) (k : Int) (hk : 2 ≤ k)
    (input : List Nat) (hne : input ≠ []) (_hlen : input.length < 2147483648) :
    ∃ root, buildTree pf.pq k (pf.iterate (countFreq input)) = Outcome.ok root ∧
      compress pf k input
        = Outcome.ok (writeHeader pf k input.length (pf.iterate (countFreq input))
            ++ packBits (specBits (bitsPerSymbol k) (generateCodes root [] []) input)) ∧
      (packBits (specBits (bitsPerSymbol k) (generateCodes root [] []) input)).length
        = (bitsPerSymbol k * (payloadDigits (generateCodes root [] []) input).length + 7) / 8 ∧
      ((bitsPerSymbol k * (payloadDigits (generateCodes root [] []) input).length) % 8 = 0 →
        8 * (packBits (specBits (bitsPerSymbol k) (generateCodes root [] []) input)).length
          = bitsPerSymbol k * (payloadDigits (generateCodes root [] []) input).length) ∧
      (k ≤ 4 → bitsPerSymbol k = digitWidth k.toNat ∧
        ∀ ch, ∀ c ∈ codeOf (generateCodes root [] []) ch, c.toNat - 48 < 2 ^ bitsPerSymbol k) := by
  have hP := hpf.pq_lawful
  have hlen : 1 ≤ (pf.iterate (countFreq input)).length := by
    rw [(hpf.iterate_perm (countFreq input)).length_eq, card_countFreq]
    cases input with
    | nil => exact absurd rfl hne
    | cons a rest =>
      exact Finset.card_pos.mpr ⟨a, by simp⟩
  obtain ⟨p, _, hcase⟩ := buildTree_spec hP k hk (pf.iterate (countFreq input))
  rcases hcase with ⟨hnil, _⟩ | ⟨_, root, hok, _⟩
  · cases hf : pf.iterate (countFreq input) with
    | nil => rw [hf] at hlen; simp at hlen
    | cons kv rest => rw [hf] at hnil; simp [initialNodes] at hnil
  obtain ⟨hwf, _⟩ := buildTree_root hP k hk _ root hok
  have hne' : ¬ ((input.length : Int) = 0) := by
    cases input with
    | nil => exact absurd rfl hne
    | cons x xs => simp; omega
  refine ⟨root, hok, ?_, ?_, ?_, ?_⟩
  · simp only [compress, hne', if_false, hok]
    rw [writeData_eq_packBits, payloadBits_eq_specBits]
  · rw [length_packBits, length_specBits]
  · intro hmod
    rw [length_packBits, length_specBits]
    omega
  · intro hk4
    have h234 : k = 2 ∨ k = 3 ∨ k = 4 := by omega
    refine ⟨?_, ?_⟩
    · rcases h234 with rfl | rfl | rfl <;> simp [digitWidth, Nat.clog, bitsPerSymbol]
    · intro ch c hc
      have hlt := code_digits_lt (by omega : k.toNat ≤ 10) hwf ch c hc
      rcases h234 with rfl | rfl | rfl
      · exact hlt
      · exact lt_trans hlt (by decide)
      · exact hlt

/-- Witness of C12 (amended): `"abcabcabc"` with radix 2 on the GNU platform. -/
theorem payload_packing_witness :
    ∃ root, buildTree libstdcxx.pq 2
        (libstdcxx.iterate (countFreq [97, 98, 99, 97, 98, 99, 97, 98, 99])) = Outcome.ok root ∧
      compress libstdcxx 2 [97, 98, 99, 97, 98, 99, 97, 98, 99]
        = Outcome.ok (writeHeader libstdcxx 2
              ([97, 98, 99, 97, 98, 99, 97, 98, 99] : List Nat).length
              (libstdcxx.iterate (countFreq [97, 98, 99, 97, 98, 99, 97, 98, 99]))
            ++ packBits (specBits (bitsPerSymbol 2) (generateCodes root [] [])
                [97, 98, 99, 97, 98, 99, 97, 98, 99])) ∧
      (packBits (specBits (bitsPerSymbol 2) (generateCodes root [] [])
          [97, 98, 99, 97, 98, 99, 97, 98, 99])).length
        = (bitsPerSymbol 2 * (payloadDigits (generateCodes root [] [])
            [97, 98, 99, 97, 98, 99, 97, 98, 99]).length + 7) / 8 ∧
      ((bitsPerSymbol 2 * (payloadDigits (generateCodes root [] [])
            [97, 98, 99, 97, 98, 99, 97, 98, 99]).length) % 8 = 0 →
        8 * (packBits (specBits (bitsPerSymbol 2) (generateCodes root [] [])
            [97, 98, 99, 97, 98, 99, 97, 98, 99])).length
          = bitsPerSymbol 2 * (payloadDigits (generateCodes root [] [])
              [97, 98, 99, 97, 98, 99, 97, 98, 99]).length) ∧
      ((2 : Int) ≤ 4 → bitsPerSymbol 2 = digitWidth (2 : Int).toNat ∧
        ∀ ch, ∀ c ∈ codeOf (generateCodes root [] []) ch,
          c.toNat - 48 < 2 ^ bitsPerSymbol 2) :=
  payload_packing libstdcxx libstdcxx_lawful 2 (by decide)
    [97, 98, 99, 97, 98, 99, 97, 98, 99] (by simp) (by decide)

/-- C13 (the code at the failing input): on the 64-bit GNU platform `compress` with radix 2
turns `"ab"` into an artifact whose entry count takes eight bytes: the header is
`1 + 4 + 8 + 5 * 2 = 23` bytes long and the payload, the single byte `0x40`, is at offset
23, where the layout of the claim puts it at offset `1 + 4 + 4 + 5 * 2 = 19`; and on that
platform every header that `compress` writes has `1 + 4 + 8 + 5 n` bytes. -/
theorem header_count_field_is_size_t :
    compress libstdcxx 2 [97, 98]
        = Outcome.ok ([2] ++ [2, 0, 0, 0] ++ [2, 0, 0, 0, 0, 0, 0, 0]
            ++ [98, 1, 0, 0, 0] ++ [97, 1, 0, 0, 0] ++ [64]) ∧
      (writeHeader libstdcxx 2 2 [(98, 1), (97, 1)]).length = 23 ∧
      ∀ (k totalChars : Int) (freq : List (Nat × Int)),
        (writeHeader libstdcxx k totalChars freq).length = 1 + 4 + 8 + 5 * freq.length := by
  refine ⟨by decide, by decide, ?_⟩
  intro k totalChars freq
  have h : ∀ l : List (Nat × Int),
      (l.flatMap (fun kv => kv.1 :: intBytes kv.2)).length = 5 * l.length := by
    intro l
    induction l with
    | nil => rfl
    | cons kv l ih =>
      rw [List.flatMap_cons, List.length_append, ih, List.length_cons, length_intBytes,
        List.length_cons]
      omega
  simp only [writeHeader, List.length_append, List.length_singleton, length_intBytes,
    length_leBytes, h]
  rfl

/-- C14: `decompress` rebuilds the tree and unpacks the digits with the radix stored in
the first byte of the file, never with the radix the compressor was constructed with.
For a file that starts with the byte `kChar` and whose header is complete (the byte count,
the entry count, and the entries, which give the table `freq` and leave `payload`), the
outcome of `decompress` for a compressor constructed with any radix `k1` is that of
`buildTree` with radix `kChar` on the table, followed by the decoding loop with the width
`bitsPerSymbol kChar` on that tree; and on every file, complete or not, the outcome is
the same for any two radices `k1` and `k2` of the compressor. -/
theorem stored_radix_is_authoritative (pf : Platform) (k1 k2 : Int) (kChar : Nat)
    (rest : List Nat) (freq : List (Nat × Int)) (payload : List Nat)
    (hlen : 4 + pf.sizeofSizeT ≤ rest.length)
    (hentries : readEntries (leValue ((rest.drop 4).take pf.sizeofSizeT))
      (rest.drop (4 + pf.sizeofSizeT)) [] = some (freq, payload)) :
    decompress pf k1 (kChar :: rest)
        = (match buildTree pf.pq (kChar : Int) (pf.iterate freq) with
          | Outcome.ok root =>
            Outcome.ok (decodeLoop root (bitsPerSymbol (kChar : Int)) (intValue (rest.take 4))
              payload { curr := root, charsDecoded := 0, out := [] }).out
          | Outcome.undefined => Outcome.undefined
          | Outcome.diverges => Outcome.diverges) ∧
      ∀ file : List Nat, decompress pf k1 file = decompress pf k2 file := by
  have key : ∀ (k : Int) (c : Nat) (r : List Nat),
      decompress pf k (c :: r) = decompress pf (c : Int) (c :: r) := by
    intro k c r
    have e : (if (c : Int) ≠ k then (c : Int) else k) = (c : Int) := by
      split
      · rfl
      · rename_i h
        exact (not_not.mp h).symm
    simp only [decompress, e, ne_eq, not_true_eq_false, if_false]
  refine ⟨?_, ?_⟩
  · rw [key k1 kChar rest]
    have hnot : ¬ rest.length < 4 + pf.sizeofSizeT := by omega
    simp only [decompress, ne_eq, not_true_eq_false, if_false, hnot, hentries]
  · intro file
    cases file with
    | nil => rfl
    | cons c r => rw [key k1, key k2]

/-- Witness of C14: an artifact with the stored radix 3 and the table `a:1, b:1, c:1`,
given to a compressor constructed with radix 2: the header is complete, the outcome is
that of the ternary tree and the width 2, and the three symbols are decoded from the
digits `0 1 2` of the payload byte `00 01 10 00`. -/
theorem stored_radix_is_authoritative_witness :
    (4 + libstdcxx.sizeofSizeT
        ≤ ([3, 0, 0, 0, 3, 0, 0, 0, 0, 0, 0, 0, 97, 1, 0, 0, 0, 98, 1, 0, 0, 0,
            99, 1, 0, 0, 0, 24] : List Nat).length) ∧
      decompress libstdcxx 2
          [3, 3, 0, 0, 0, 3, 0, 0, 0, 0, 0, 0, 0, 97, 1, 0, 0, 0, 98, 1, 0, 0, 0,
            99, 1, 0, 0, 0, 24]
        = Outcome.ok [97, 98, 99] ∧
      (decompress libstdcxx 2
          (3 :: [3, 0, 0, 0, 3, 0, 0, 0, 0, 0, 0, 0, 97, 1, 0, 0, 0, 98, 1, 0, 0, 0,
            99, 1, 0, 0, 0, 24])
        = (match buildTree libstdcxx.pq ((3 : Nat) : Int)
              (libstdcxx.iterate [(97, 1), (98, 1), (99, 1)]) with
          | Outcome.ok root =>
            Outcome.ok (decodeLoop root (bitsPerSymbol ((3 : Nat) : Int))
              (intValue (([3, 0, 0, 0, 3, 0, 0, 0, 0, 0, 0, 0, 97, 1, 0, 0, 0, 98, 1, 0, 0, 0,
                99, 1, 0, 0, 0, 24] : List Nat).take 4))
              [24] { curr := root, charsDecoded := 0, out := [] }).out
          | Outcome.undefined => Outcome.undefined
          | Outcome.diverges => Outcome.diverges) ∧
        ∀ file : List Nat, decompress libstdcxx 2 file = decompress libstdcxx 7 file) :=
  ⟨by decide, by decide,
    stored_radix_is_authoritative libstdcxx 2 7 3
      [3, 0, 0, 0, 3, 0, 0, 0, 0, 0, 0, 0, 97, 1, 0, 0, 0, 98, 1, 0, 0, 0, 99, 1, 0, 0, 0, 24]
      [(97, 1), (98, 1), (99, 1)] [24] (by decide) (by decide)⟩

/-- C15 (as stated, refuted): for the table `a:1, b:1, c:1` and radix 3 every code is one
digit long, so the average code length is 1, below the entropy `log2 3`. -/
theorem entropy_bound_fails_radix_3 :
    codeTable libstdcxx.pq 3 [(97, 1), (98, 1), (99, 1)]
        = Outcome.ok [(97, ['0']), (98, ['1']), (99, ['2'])] ∧
      (calculateAverageCodeLength [(97, 1), (98, 1), (99, 1)]
          [(97, ['0']), (98, ['1']), (99, ['2'])] 3 : ℝ)
        < calculateShannonEntropy (Real.logb 2) [(97, 1), (98, 1), (99, 1)] 3 := by
  refine ⟨by decide, ?_⟩
  have h3 : (1 : ℝ) < Real.logb 2 3 := by
    rw [Real.lt_logb_iff_rpow_lt (by norm_num) (by norm_num)]
    norm_num
  have e1 : (calculateAverageCodeLength [(97, 1), (98, 1), (99, 1)]
      [(97, ['0']), (98, ['1']), (99, ['2'])] 3 : ℝ) = 1 := by
    simp [calculateAverageCodeLength, find?]
    norm_num
  have e2 : calculateShannonEntropy (Real.logb 2) [(97, 1), (98, 1), (99, 1)] 3
      = Real.logb 2 3 := by
    simp [calculateShannonEntropy, Real.logb_inv]
    ring
  rw [e1, e2]
  exact h3

/-- C15 (amended): for a non-empty table with unique keys and positive counts whose total
is `totalChars`, and a radix `2 ≤ k ≤ 10`, `buildTree` and `generateCodes` give a code
table for which, over the real numbers, the average code length in digits times `log2 k`
is at least the Shannon entropy; for radix 2 the average code length itself is at least
the entropy. -/
theorem entropy_bound (P : PriorityQueue) (hP : P.Lawful) (k : Int) (hk2 : 2 ≤ k)
    (hk10 : k ≤ 10) (freq : List (Nat × Int)) (hne : freq ≠ [])
    (hnodup : (freq.map Prod.fst).Nodup) (hpos : ∀ kv ∈ freq, 0 < kv.2) (totalChars : Int)
    (htot : totalChars = (freq.map Prod.snd).sum) :
    ∃ codes, codeTable P k freq = Outcome.ok codes ∧
      calculateShannonEntropy (Real.logb 2) freq totalChars
        ≤ calculateAverageCodeLength freq codes totalChars * Real.logb 2 (k : ℝ) ∧
      (k = 2 → calculateShannonEntropy (Real.logb 2) freq totalChars
        ≤ (calculateAverageCodeLength freq codes totalChars : ℝ)) := by
  obtain ⟨p, _, hcase⟩ := buildTree_spec hP k hk2 freq
  rcases hcase with ⟨hnil, _⟩ | ⟨_, root, hok, _⟩
  · cases freq with
    | nil => exact absurd rfl hne
    | cons kv rest => simp [initialNodes] at hnil
  have hkraft := kraft_codes hP k hk2 hk10 freq hnodup root hok
  obtain ⟨hp, hsum⟩ := relative_frequencies freq hne hpos totalChars htot
  have hK : (1 : ℝ) < (k : ℝ) := by exact_mod_cast (by omega : (1 : Int) < k)
  have hg := gibbs freq (fun kv => (kv.2 : ℝ) / (totalChars : ℝ))
    (fun kv => (codeOf (generateCodes root [] []) kv.1).length) (k : ℝ) hK hp hsum hkraft
  have hmain : calculateShannonEntropy (Real.logb 2) freq totalChars
      ≤ calculateAverageCodeLength freq (generateCodes root [] []) totalChars
        * Real.logb 2 (k : ℝ) := by
    rw [entropy_eq_sum, averageLength_eq_sum]
    exact hg
  refine ⟨generateCodes root [] [], by simp only [codeTable, hok], hmain, ?_⟩
  intro h2
  subst h2
  have e : Real.logb 2 ((2 : Int) : ℝ) = 1 := by
    have : ((2 : Int) : ℝ) = 2 := by norm_num
    rw [this]
    exact Real.logb_self_eq_one (by norm_num)
  rw [e, mul_one] at hmain
  exact hmain

/-- Witness of C15 (amended): the table `a:3, b:3, c:3` of `"abcabcabc"` with radix 2 on
the libstdc++ heap. -/
theorem entropy_bound_witness :
    ∃ codes, codeTable Libstdcxx.priorityQueue 2 [(97, 3), (98, 3), (99, 3)]
        = Outcome.ok codes ∧
      calculateShannonEntropy (Real.logb 2) [(97, 3), (98, 3), (99, 3)] 9
        ≤ calculateAverageCodeLength [(97, 3), (98, 3), (99, 3)] codes 9
          * Real.logb 2 ((2 : Int) : ℝ) ∧
      ((2 : Int) = 2 → calculateShannonEntropy (Real.logb 2) [(97, 3), (98, 3), (99, 3)] 9
        ≤ (calculateAverageCodeLength [(97, 3), (98, 3), (99, 3)] codes 9 : ℝ)) :=
  entropy_bound Libstdcxx.priorityQueue Libstdcxx.heap_lawful 2 (by decide) (by decide)
    [(97, 3), (98, 3), (99, 3)] (by simp) (by decide) (by decide) 9 (by decide)

/-- C16 (the code at the failing input): `main` rejects the radix 1 given on the command
line, but `decompress`, for a compressor constructed with radix 2, takes the radix 1 from
the first byte of the artifact and runs `buildTree` with it: on a table of two entries
every round of the merge loop takes one node from the queue and puts one node back, so
the loop is still running after any number of rounds, and `decompress` does not return. -/
theorem stored_radix_below_two_is_used :
    radixAccepted 1 = false ∧
      decompress libstdcxx 2
          [1, 2, 0, 0, 0, 2, 0, 0, 0, 0, 0, 0, 0, 97, 1, 0, 0, 0, 98, 1, 0, 0, 0, 0]
        = Outcome.diverges ∧
      ∀ fuel, mergeLoop libstdcxx.pq 1 fuel
        (addDummyNodes libstdcxx.pq 1
          (pushLeaves libstdcxx.pq (libstdcxx.iterate [(97, 1), (98, 1)]) libstdcxx.pq.init))
        = none := by
  refine ⟨by decide, by decide, ?_⟩
  intro fuel
  exact mergeLoop_diverges libstdcxx_lawful.pq_lawful 1 (by decide) fuel _
    (reachable_addDummyNodes 1 _
      (reachable_pushLeaves _ _ PriorityQueue.Reachable.init)) (by decide)

/-- C17: for a table of at least two entries and a radix `k ≥ 2`, `buildTree` returns a
tree in which every node that is not a leaf has exactly `k` children, and every iteration
of the merge loop, whatever number of iterations is looked at, extracts exactly `k` nodes
from the queue. -/
theorem full_kary_tree (P : PriorityQueue) (hP : P.Lawful) (k : Int) (hk : 2 ≤ k)
    (freq : List (Nat × Int)) (hn : 2 ≤ freq.length) :
    ∃ root, buildTree P k freq = Outcome.ok root ∧
      (∀ (p : List Nat) (node : Node), root.descend p = some node → node.isLeaf = false →
        node.children.length = k.toNat) ∧
      ∀ fuel, ∀ q ∈ mergeRounds P k fuel (startQueue P k freq),
        (extractChildren P k.toNat q [] 0).2.1.length = k.toNat := by
  obtain ⟨root, hok, hfull⟩ := buildTree_full hP k hk freq (by omega)
  refine ⟨root, hok, hfull.children_length, ?_⟩
  intro fuel q hq
  obtain ⟨hreach, _, _, hmod⟩ := startQueue_spec hP k hk freq (by omega)
  obtain ⟨r, hsz, hI⟩ := mergeRounds_invariant hP k
    (fun l => (l.length - 1) % (k.toNat - 1) = 0)
    (fun l l' hperm hl => by
      show (l'.length - 1) % (k.toNat - 1) = 0
      rw [← hperm.length_eq]; exact hl)
    (fun ext rest f h2 hlen hl =>
      (count_invariant_step k.toNat (by omega) ext rest f h2 hlen hl).2)
    fuel (startQueue P k freq) hreach (by
      show ((P.elems (startQueue P k freq)).length - 1) % (k.toNat - 1) = 0
      rw [← hP.size_eq _ hreach]; exact hmod) q hq
  exact (merge_round_exact hP k hk q r hsz (by rw [hP.size_eq _ r]; exact hI)).1

/-- Witness of C17: the table `a:1, b:1, c:1, d:1` with radix 3 on the libstdc++ heap. -/
theorem full_kary_tree_witness :
    ∃ root, buildTree Libstdcxx.priorityQueue 3 [(97, 1), (98, 1), (99, 1), (100, 1)]
        = Outcome.ok root ∧
      (∀ (p : List Nat) (node : Node), root.descend p = some node → node.isLeaf = false →
        node.children.length = (3 : Int).toNat) ∧
      ∀ fuel, ∀ q ∈ mergeRounds Libstdcxx.priorityQueue 3 fuel
          (startQueue Libstdcxx.priorityQueue 3 [(97, 1), (98, 1), (99, 1), (100, 1)]),
        (extractChildren Libstdcxx.priorityQueue (3 : Int).toNat q [] 0).2.1.length
          = (3 : Int).toNat :=
  full_kary_tree Libstdcxx.priorityQueue Libstdcxx.heap_lawful 3 (by decide)
    [(97, 1), (98, 1), (99, 1), (100, 1)] (by decide)

/-- C18: for a non-empty table and a radix `k ≥ 2`, every iteration of the merge loop of
`buildTree` makes the queue shorter, the loop ends within as many iterations as the queue
has nodes, with the same queue `q` for every larger bound, `q` holds exactly one node,
`buildTree` returns that node as the root, and the leaves of the root are one leaf per
table entry, with its symbol and frequency, and the padding leaves. -/
theorem tree_construction_terminates (P : PriorityQueue) (hP : P.Lawful) (k : Int)
    (hk : 2 ≤ k) (freq : List (Nat × Int)) (hne : freq ≠ []) :
    ∃ q root,
      (∀ fuel, P.size (startQueue P k freq) ≤ fuel + 1 →
        mergeLoop P k fuel (startQueue P k freq) = some q) ∧
      P.elems q = [root] ∧
      buildTree P k freq = Outcome.ok root ∧
      (leavesOf [root]).Perm (initialNodes freq (paddingCount k.toNat freq.length)) ∧
      ∀ fuel, ∀ q' ∈ mergeRounds P k fuel (startQueue P k freq),
        P.size (mergeRound P k q') < P.size q' := by
  have hn : 1 ≤ freq.length := by
    cases freq with
    | nil => exact absurd rfl hne
    | cons _ _ => simp
  obtain ⟨hreach, hperm, hsz, _⟩ := startQueue_spec hP k hk freq hn
  obtain ⟨q, hrun, _, hone⟩ := mergeLoop_terminates hP k hk (P.size (startQueue P k freq) - 1)
    (startQueue P k freq) hreach (by omega)
  have hq1 : P.size q = 1 := hone (by omega)
  have hreach' : P.Reachable q := reachable_mergeLoop k _ _ q hreach hrun
  have hne' : P.elems q ≠ [] := by
    intro h
    rw [hP.size_eq _ hreach', h] at hq1
    simp at hq1
  obtain ⟨root, htop, hmem, _⟩ := hP.top_cons q hreach' hne'
  have hel : P.elems q = [root] := by
    rw [hP.size_eq _ hreach'] at hq1
    match hq : P.elems q, hq1 with
    | [x], _ =>
      rw [hq] at hmem
      simp only [List.mem_singleton] at hmem
      rw [hmem]
  have hall : ∀ fuel, P.size (startQueue P k freq) ≤ fuel + 1 →
      mergeLoop P k fuel (startQueue P k freq) = some q :=
    fun fuel hf => mergeLoop_fuel_le k _ q _ fuel (by omega) hrun
  have hok : buildTree P k freq = Outcome.ok root := by
    have := hall (P.size (startQueue P k freq)) (by omega)
    unfold startQueue at this
    simp only [buildTree, this, htop]
  refine ⟨q, root, hall, hel, hok, ?_, ?_⟩
  · obtain ⟨_, p, hp, hleaves⟩ := buildTree_root hP k hk freq root hok
    rw [hp hn] at hleaves
    exact hleaves
  · intro fuel q' hq'
    obtain ⟨r, hs, _⟩ := mergeRounds_invariant hP k (fun _ => True)
      (fun _ _ _ _ => trivial) (fun _ _ _ _ _ _ => trivial) fuel (startQueue P k freq) hreach
      trivial q' hq'
    exact merge_round_shrinks hP k hk q' r hs

/-- Witness of C18: the table `a:1, b:1, c:1, d:1` with radix 3 on the libstdc++ heap. -/
theorem tree_construction_terminates_witness :
    ∃ q root,
      (∀ fuel, Libstdcxx.priorityQueue.size
          (startQueue Libstdcxx.priorityQueue 3 [(97, 1), (98, 1), (99, 1), (100, 1)]) ≤ fuel + 1 →
        mergeLoop Libstdcxx.priorityQueue 3 fuel
          (startQueue Libstdcxx.priorityQueue 3 [(97, 1), (98, 1), (99, 1), (100, 1)]) = some q) ∧
      Libstdcxx.priorityQueue.elems q = [root] ∧
      buildTree Libstdcxx.priorityQueue 3 [(97, 1), (98, 1), (99, 1), (100, 1)]
        = Outcome.ok root ∧
      (leavesOf [root]).Perm (initialNodes [(97, 1), (98, 1), (99, 1), (100, 1)]
        (paddingCount (3 : Int).toNat [((97 : Nat), (1 : Int)), (98, 1), (99, 1), (100, 1)].length)) ∧
      ∀ fuel, ∀ q' ∈ mergeRounds Libstdcxx.priorityQueue 3 fuel
          (startQueue Libstdcxx.priorityQueue 3 [(97, 1), (98, 1), (99, 1), (100, 1)]),
        Libstdcxx.priorityQueue.size (mergeRound Libstdcxx.priorityQueue 3 q')
          < Libstdcxx.priorityQueue.size q' :=
  tree_construction_terminates Libstdcxx.priorityQueue Libstdcxx.heap_lawful 3 (by decide)
    [(97, 1), (98, 1), (99, 1), (100, 1)] (by simp)

/-- C19: whatever the file holds, an output that `decompress` writes has at most as many
bytes as the header declares (none when the declared count is negative); and the decoding
loop alone, on any tree, width, count and payload, writes at most `totalChars` bytes. -/
theorem output_at_most_declared_count (pf : Platform) (k : Int) (file out : List Nat)
    (h : decompress pf k file = Outcome.ok out) :
    out.length ≤ (declaredCount file).toNat ∧
      ∀ (root : Node) (bps : Nat) (totalChars : Int) (payload : List Nat),
        (decodeLoop root bps totalChars payload
          { curr := root, charsDecoded := 0, out := [] }).out.length ≤ totalChars.toNat := by
  refine ⟨?_, decodeLoop_length⟩
  cases file with
  | nil => simp [decompress] at h
  | cons kChar rest =>
    simp only [decompress] at h
    split at h
    · exact absurd h (by simp)
    · split at h
      · exact absurd h (by simp)
      · split at h
        · simp only [Outcome.ok.injEq] at h
          subst h
          exact decodeLoop_length _ _ _ _
        · exact absurd h (by simp)
        · exact absurd h (by simp)

/-- Witness of C19: an artifact that declares 2 bytes and carries a payload byte with four
digits for the table `a:1, b:1`; two bytes are written. -/
theorem output_at_most_declared_count_witness :
    decompress libstdcxx 2
        [2, 2, 0, 0, 0, 2, 0, 0, 0, 0, 0, 0, 0, 98, 1, 0, 0, 0, 97, 1, 0, 0, 0, 64]
      = Outcome.ok [97, 98] ∧
    ([97, 98] : List Nat).length ≤ (declaredCount
        [2, 2, 0, 0, 0, 2, 0, 0, 0, 0, 0, 0, 0, 98, 1, 0, 0, 0, 97, 1, 0, 0, 0, 64]).toNat ∧
      ∀ (root : Node) (bps : Nat) (totalChars : Int) (payload : List Nat),
        (decodeLoop root bps totalChars payload
          { curr := root, charsDecoded := 0, out := [] }).out.length ≤ totalChars.toNat :=
  ⟨by decide, output_at_most_declared_count libstdcxx 2
    [2, 2, 0, 0, 0, 2, 0, 0, 0, 0, 0, 0, 0, 98, 1, 0, 0, 0, 97, 1, 0, 0, 0, 64] [97, 98]
    (by decide)⟩

/-- C20: for a table with unique byte keys and a radix `k ≥ 2` such that no padding leaf
is added (`k = 2`, or `(n - 1) mod (k - 1) = 0`), in every state that the queue of
`buildTree` passes through the tie-break keys `minChar` of the queued nodes are pairwise
different and `CompareNode` is a strict total order on the queued nodes; and `buildTree`
and the code table give the same result for every order in which the entries of the
table are pushed. -/
theorem no_padding_strict_total_order (P : PriorityQueue) (hP : P.Lawful) (k : Int)
    (hk : 2 ≤ k) (freq : List (Nat × Int)) (hnodup : (freq.map Prod.fst).Nodup)
    (hbytes : ∀ kv ∈ freq, kv.1 < 256)
    (hnopad : k = 2 ∨ ((freq.length : Int) - 1) % (k - 1) = 0) :
    (∀ fuel, ∀ q ∈ buildStates P k fuel freq,
      ((P.elems q).map Node.minChar).Nodup ∧ StrictTotalOn (P.elems q)) ∧
      ∀ freq' : List (Nat × Int), freq'.Perm freq →
        buildTree P k freq' = buildTree P k freq ∧ codeTable P k freq' = codeTable P k freq := by
  refine ⟨?_, ?_⟩
  · intro fuel q hq
    have htf := buildStates_tieFree hP k hk freq hnodup hbytes hnopad fuel q hq
    exact ⟨htf.1, htf.strictTotalOn⟩
  · intro freq' hperm
    have htf : TieFree (initialNodes freq (dummyCount k freq.length)) := by
      rw [dummyCount_eq_zero k _ hnopad]
      exact tieFree_leaves freq hnodup hbytes
    have hb : buildTree P k freq' = buildTree P k freq :=
      (buildTree_congr hP hP k (by omega) freq freq' hperm.symm htf).symm
    exact ⟨hb, by unfold codeTable; rw [hb]⟩

/-- Witness of C20: the table `a:1, b:1, c:2, d:1, e:1` with radix 3, where
`(5 - 1) mod 2 = 0`, on the libstdc++ heap. -/
theorem no_padding_strict_total_order_witness :
    (∀ fuel, ∀ q ∈ buildStates Libstdcxx.priorityQueue 3 fuel
        [(97, 1), (98, 1), (99, 2), (100, 1), (101, 1)],
      ((Libstdcxx.priorityQueue.elems q).map Node.minChar).Nodup ∧
        StrictTotalOn (Libstdcxx.priorityQueue.elems q)) ∧
      ∀ freq' : List (Nat × Int), freq'.Perm [(97, 1), (98, 1), (99, 2), (100, 1), (101, 1)] →
        buildTree Libstdcxx.priorityQueue 3 freq'
            = buildTree Libstdcxx.priorityQueue 3 [(97, 1), (98, 1), (99, 2), (100, 1), (101, 1)] ∧
          codeTable Libstdcxx.priorityQueue 3 freq'
            = codeTable Libstdcxx.priorityQueue 3
                [(97, 1), (98, 1), (99, 2), (100, 1), (101, 1)] :=
  no_padding_strict_total_order Libstdcxx.priorityQueue Libstdcxx.heap_lawful 3 (by decide)
    [(97, 1), (98, 1), (99, 2), (100, 1), (101, 1)] (by decide) (by decide) (by decide)

end Huffman
